import Mathlib

/-! # Formal model of the Hamiltonian-cycle and TSP solvers

A shallow embedding of `src/hamilton_cycle.py` (`_build_adj_set`,
`hamilton_backtracking`, `hamilton_bruteforce`) and `src/hamilton_tsp.py`
(`_build_adj_list`, `tsp_bruteforce`, `_tsp_backtracking_recursive`,
`tsp_backtracking`).

Modelling conventions:
* a Python `set`/`dict` argument is a `List` of distinct elements /
  an association list, the list order standing for the iteration order;
* a Python runtime exception is `Except PyError`;
* `float('inf')` together with non-negative integer weights is
  `Option Nat` with `none` standing for `inf`;
* the recursive searches carry an explicit fuel argument, always invoked
  with enough fuel for the recursion depth (bounded by the vertex count);
* mutable search state (`foundPath`/`foundCycle`/`largestCycle`,
  `min_weight_global`/`best_cycle_global`) is threaded explicitly.
-/

abbrev Vertex := Nat

/-- A Python runtime exception relevant to these programs. -/
inductive PyError where
  | keyError (k : Nat)
  | indexError
deriving Repr, DecidableEq

instance exceptDecEq {α β : Type} [DecidableEq α] [DecidableEq β] :
    DecidableEq (Except α β)
  | .error a, .error b =>
    if h : a = b then .isTrue (by rw [h]) else .isFalse (fun hc => h (by injection hc))
  | .error _, .ok _ => .isFalse (fun h => Except.noConfusion h)
  | .ok _, .error _ => .isFalse (fun h => Except.noConfusion h)
  | .ok a, .ok b =>
    if h : a = b then .isTrue (by rw [h]) else .isFalse (fun hc => h (by injection hc))

/-- Python truthiness of an optional list value (`None` and `[]` are falsy). -/
def truthy : Option (List Vertex) → Bool
  | none => false
  | some l => !l.isEmpty

/-- All ways to pick one element of a list, returned together with the
remaining elements in their original order.  This is the successive choice
order of `itertools.permutations`. -/
def selections : List Vertex → List (Vertex × List Vertex)
  | [] => []
  | x :: xs => (x, xs) :: (selections xs).map (fun s => (s.1, x :: s.2))

theorem selections_length {l : List Vertex} {s : Vertex × List Vertex}
    (hs : s ∈ selections l) : s.2.length + 1 = l.length := by
  induction l generalizing s with
  | nil => simp [selections] at hs
  | cons x xs ih =>
    simp only [selections, List.mem_cons, List.mem_map] at hs
    rcases hs with h | ⟨t, ht, rfl⟩
    · subst h; simp
    · have := ih ht; simp [← this]

/-- Fuelled recursion for `permsLex`; the fuel dominates the list length. -/
def permsLexF : Nat → List Vertex → List (List Vertex)
  | 0, _ => [[]]
  | fuel + 1, l =>
    if l = [] then [[]]
    else (selections l).flatMap (fun s => (permsLexF fuel s.2).map (fun q => s.1 :: q))

/-- All permutations of `l`, in the exact order `itertools.permutations`
enumerates them (choose the first element among `l`'s elements in order,
then recurse on the remainder). -/
def permsLex (l : List Vertex) : List (List Vertex) := permsLexF l.length l

/-! ## `hamilton_cycle.py` -/

/-- `adj_set[u].add(v)` on the association-list model: append `v` to `u`'s
neighbor list when not already present. -/
def addNbr (adj : List (Vertex × List Vertex)) (u v : Vertex) :
    List (Vertex × List Vertex) :=
  adj.map (fun e => if e.1 = u then (e.1, if v ∈ e.2 then e.2 else e.2 ++ [v]) else e)

/-- `u in adj_set` (key membership of the dictionary). -/
def hasKey (adj : List (Vertex × List Vertex)) (u : Vertex) : Bool :=
  adj.any (fun e => e.1 == u)

/-- `_build_adj_set` of `hamilton_cycle.py`: start from `{v: set() for v in
vertices}`, then for every edge whose two endpoints are keys insert each
endpoint into the other's neighbor set. -/
def build_adj_set (vertices : List Vertex) (edges : List (Vertex × Vertex)) :
    List (Vertex × List Vertex) :=
  edges.foldl
    (fun adj e =>
      if hasKey adj e.1 && hasKey adj e.2 then addNbr (addNbr adj e.1 e.2) e.2 e.1
      else adj)
    (vertices.map (fun v => (v, [])))

/-- Dictionary lookup `adj_set[v]`.  Every lookup performed by the two
Hamiltonian solvers is at a key of the dictionary (the keys are exactly the
graph's vertices and the solvers only look up vertices), so Python's
`KeyError` branch is unreachable there and the `[]` default of this model is
never observed. -/
def nbrs (adj : List (Vertex × List Vertex)) (v : Vertex) : List Vertex :=
  ((adj.find? (fun e => e.1 == v)).map (fun e => e.2)).getD []

/-- The path test of `hamilton_bruteforce`'s inner loop: every consecutive
pair `p[i], p[i+1]` satisfies `p[i+1] in adj_set[p[i]]`. -/
def isPathB (adj : List (Vertex × List Vertex)) : List Vertex → Bool
  | a :: b :: t => decide (b ∈ nbrs adj a) && isPathB adj (b :: t)
  | _ => true

/-- Specification form of `isPathB`: each consecutive pair is adjacent. -/
def isPathPerm (adj : List (Vertex × List Vertex)) (p : List Vertex) : Prop :=
  p.Chain' (fun a b => b ∈ nbrs adj a)

/-- The permutation loop of `hamilton_bruteforce`, with the `found_path`
accumulator.  `found_cycle` needs no accumulator: the code returns the moment
it sets it, so it is `None` whenever the loop finishes.  On the empty
permutation (vertex set of size 0) the cycle test `p[0] in adj_set[p[-1]]`
raises an `IndexError`. -/
def bruteLoop (adj : List (Vertex × List Vertex)) (n : Nat) :
    List (List Vertex) → Option (List Vertex) →
    Except PyError (Bool × Option (List Vertex) × Bool × Option (List Vertex) × Nat)
  | [], foundPath =>
    if truthy foundPath then .ok (true, foundPath, false, none, 0)
    else .ok (false, none, false, none, 0)
  | [] :: _, _ => .error .indexError
  | (x :: xs) :: rest, foundPath =>
    if isPathB adj (x :: xs) then
      if x ∈ nbrs adj ((x :: xs).getLastD 0) then
        .ok (true, (if truthy foundPath then foundPath else some (x :: xs)), true,
          some ((x :: xs) ++ [x]), n)
      else bruteLoop adj n rest (if truthy foundPath then foundPath else some (x :: xs))
    else bruteLoop adj n rest foundPath

/-- `hamilton_bruteforce`: scan all permutations of `sorted(vertices)` in
`itertools.permutations` order.  (`sorted` on numbers has a unique correct
output, the `≤`-sorted rearrangement, here produced by insertion sort.) -/
def hamilton_bruteforce (vertices : List Vertex) (edges : List (Vertex × Vertex)) :
    Except PyError (Bool × Option (List Vertex) × Bool × Option (List Vertex) × Nat) :=
  bruteLoop (build_adj_set vertices edges) vertices.length
    (permsLex (vertices.insertionSort (fun a b => a ≤ b))) none

/-- The mutable members of `HamiltonCycleColoring` during
`hamilton_backtracking`. -/
structure HBState where
  foundPath : Option (List Vertex)
  foundCycle : Option (List Vertex)
  largestCycle : Nat
deriving Repr, DecidableEq

/-- The cycle bookkeeping at the top of `findPath`: when the path (ending in
`currentNode`) has length at least 3 and closes back to its first vertex,
raise `largestCycle` and, at full length, record the first full cycle. -/
def hbCycleUpd (adj : List (Vertex × List Vertex)) (n : Nat) (path : List Vertex)
    (currentNode : Vertex) (st : HBState) : HBState :=
  if 3 ≤ path.length ∧ path.headI ∈ nbrs adj currentNode then
    { st with
      largestCycle :=
        if st.largestCycle < path.length then path.length else st.largestCycle,
      foundCycle :=
        if path.length = n ∧ truthy st.foundCycle = false then
          some (path ++ [path.headI])
        else st.foundCycle }
  else st

/-- The path bookkeeping of `findPath`: at full length record the first
Hamiltonian path. -/
def hbPathUpd (n : Nat) (path : List Vertex) (st : HBState) : HBState :=
  if path.length = n ∧ truthy st.foundPath = false then
    { st with foundPath := some path }
  else st

/-- Both bookkeeping updates performed on entering a node. -/
def hbVisit (adj : List (Vertex × List Vertex)) (n : Nat) (path : List Vertex)
    (currentNode : Vertex) (st : HBState) : HBState :=
  hbPathUpd n path (hbCycleUpd adj n path currentNode st)

/-- The recursive `findPath` of `hamilton_backtracking`.  The Python function
appends `currentNode` to the shared `path` on entry and pops it on every exit,
so the net effect on `path`/`visited` is nil and only the object state
(`HBState`) needs returning; `path0` is the path before the append. -/
def findPath (adj : List (Vertex × List Vertex)) (n : Nat) :
    Nat → List Vertex → Vertex → HBState → HBState
  | 0, _, _, st => st
  | fuel + 1, path0, currentNode, st =>
    if truthy (hbVisit adj n (path0 ++ [currentNode]) currentNode st).foundPath = true ∧
        truthy (hbVisit adj n (path0 ++ [currentNode]) currentNode st).foundCycle = true then
      hbVisit adj n (path0 ++ [currentNode]) currentNode st
    else
      (nbrs adj currentNode).foldl
        (fun st' nb =>
          if nb ∈ path0 ++ [currentNode] then st'
          else findPath adj n fuel (path0 ++ [currentNode]) nb st')
        (hbVisit adj n (path0 ++ [currentNode]) currentNode st)

/-- The outer loop of `hamilton_backtracking`: depth-first search from every
start vertex until both witnesses are found.  (`break` on an exhausted guard
is modelled by the guard leaving the state unchanged for the remaining start
vertices.) -/
def hbOuter (adj : List (Vertex × List Vertex)) (n : Nat) (vertices : List Vertex) :
    HBState :=
  vertices.foldl
    (fun st startNode =>
      if truthy st.foundPath = false ∨ truthy st.foundCycle = false then
        findPath adj n (n + 1) [] startNode st
      else st)
    ⟨none, none, 0⟩

/-- The returned tuple of `hamilton_backtracking`. -/
def hbResult (st : HBState) :
    Bool × Option (List Vertex) × Bool × Option (List Vertex) × Nat :=
  (truthy st.foundPath, st.foundPath, truthy st.foundCycle, st.foundCycle, st.largestCycle)

/-- `hamilton_backtracking`. -/
def hamilton_backtracking (vertices : List Vertex) (edges : List (Vertex × Vertex)) :
    Bool × Option (List Vertex) × Bool × Option (List Vertex) × Nat :=
  hbResult (hbOuter (build_adj_set vertices edges) vertices.length vertices)

/-! ## `hamilton_tsp.py` -/

/-- Weighted adjacency: vertex to (neighbor to weight), both as association
lists in insertion order. -/
abbrev WAdj := List (Vertex × List (Vertex × Nat))

/-- `inner[v] = w` on a Python dict: overwrite in place, else append. -/
def setInner (inner : List (Vertex × Nat)) (v : Vertex) (w : Nat) :
    List (Vertex × Nat) :=
  if inner.any (fun e => e.1 == v) then
    inner.map (fun e => if e.1 == v then (e.1, w) else e)
  else inner ++ [(v, w)]

/-- `adj_list[u][v] = w`: raises `KeyError(u)` when `u` is not a key of the
outer dict (it is a plain dict, not a defaultdict). -/
def setW (adj : WAdj) (u v : Vertex) (w : Nat) : Except PyError WAdj :=
  if adj.any (fun e => e.1 == u) then
    .ok (adj.map (fun e => if e.1 == u then (e.1, setInner e.2 v w) else e))
  else .error (.keyError u)

/-- One edge `(u, v, weight)` of `_build_adj_list`'s loop:
`adj_list[u][v] = weight; adj_list[v][u] = weight`. -/
def wStep (adj : WAdj) (e : Vertex × Vertex × Nat) : Except PyError WAdj := do
  let adj1 ← setW adj e.1 e.2.1 e.2.2
  setW adj1 e.2.1 e.1 e.2.2

/-- `_build_adj_list` of `hamilton_tsp.py`: `{v: {} for v in vertices}`, then
`adj_list[u][v] = weight; adj_list[v][u] = weight` for every weighted edge,
with no endpoint validation guard. -/
def build_adj_list (vertices : List Vertex) (edges : List (Vertex × Vertex × Nat)) :
    Except PyError WAdj :=
  edges.foldlM wStep (vertices.map (fun v => (v, [])))

/-- `adj_list[u]`: `KeyError(u)` when absent. -/
def dictGet (adj : WAdj) (u : Vertex) : Except PyError (List (Vertex × Nat)) :=
  match adj.find? (fun e => e.1 == u) with
  | some e => .ok e.2
  | none => .error (.keyError u)

/-- `v in adj_list[u]` / `adj_list[u][v]` on the inner dict, as an optional
weight. -/
def innerGet (inner : List (Vertex × Nat)) (v : Vertex) : Option Nat :=
  (inner.find? (fun e => e.1 == v)).map (fun e => e.2)

/-- `w < best` where `none` is `float('inf')`. -/
def ltInf (w : Nat) : Option Nat → Bool
  | none => true
  | some m => decide (w < m)

/-- The inner walk of `tsp_bruteforce`: from `cur` follow the vertices of `p`
accumulating weight; `some none` means a required edge was absent
(`is_valid_cycle = False`). -/
def tourSteps (adj : WAdj) : Vertex → Nat → List Vertex →
    Except PyError (Option (Vertex × Nat))
  | cur, w, [] => .ok (some (cur, w))
  | cur, w, nxt :: rest => do
    let inner ← dictGet adj cur
    match innerGet inner nxt with
    | some wt => tourSteps adj nxt (w + wt) rest
    | none => .ok none

/-- One permutation's tour in `tsp_bruteforce`: walk `1 → p`, then close back
to the start vertex `1`. -/
def permTour (adj : WAdj) (p : List Vertex) : Except PyError (Option Nat) := do
  match ← tourSteps adj 1 0 p with
  | none => pure none
  | some (cur, w) => do
    let inner ← dictGet adj cur
    match innerGet inner 1 with
    | some wt => pure (some (w + wt))
    | none => pure none

/-- `tsp_bruteforce`: try every permutation of the non-start vertices, keeping
the strictly smallest completed tour. -/
def tsp_bruteforce (vertices : List Vertex) (edges : List (Vertex × Vertex × Nat)) :
    Except PyError (Option Nat × Option (List Vertex)) := do
  let adj ← build_adj_list vertices edges
  (permsLex (vertices.filter (fun v => v != 1))).foldlM
    (fun best p => do
      match ← permTour adj p with
      | some w =>
        if ltInf w best.1 then pure (some w, some (1 :: (p ++ [1]))) else pure best
      | none => pure best)
    ((none : Option Nat), (none : Option (List Vertex)))

/-- `min_weight_global` / `best_cycle_global`, threaded instead of global. -/
structure TspState where
  best : Option Nat
  cycle : Option (List Vertex)
deriving Repr, DecidableEq

/-- `_tsp_backtracking_recursive`: prune when the partial weight already
reaches the best bound; at full length try to close back to vertex `1`;
otherwise recurse into every unvisited neighbor. -/
def tspRec (adj : WAdj) (n : Nat) :
    Nat → Vertex → Nat → List Vertex → TspState → Except PyError TspState
  | 0, _, _, _, st => .ok st
  | fuel + 1, cur, w, path, st =>
    if ltInf w st.best = false then .ok st
    else if path.length = n then do
      let inner ← dictGet adj cur
      match innerGet inner 1 with
      | some wt =>
        if ltInf (w + wt) st.best then .ok ⟨some (w + wt), some (path ++ [1])⟩
        else .ok st
      | none => .ok st
    else do
      let inner ← dictGet adj cur
      inner.foldlM
        (fun st' e =>
          if e.1 ∈ path then pure st'
          else tspRec adj n fuel e.1 (w + e.2) (path ++ [e.1]) st')
        st

/-- `tsp_backtracking`: fresh state, then the recursive search from vertex
`1` with `path = [1]` and weight `0`. -/
def tsp_backtracking (vertices : List Vertex) (edges : List (Vertex × Vertex × Nat)) :
    Except PyError (Option Nat × Option (List Vertex)) := do
  let adj ← build_adj_list vertices edges
  let st ← tspRec adj vertices.length (vertices.length + 1) 1 0 [1] ⟨none, none⟩
  pure (st.best, st.cycle)

/-! ## Specification-side notions -/

/-- One weighted hop `u → v` of the built adjacency. -/
def lookupW (adj : WAdj) (u v : Vertex) : Option Nat :=
  match adj.find? (fun e => e.1 == u) with
  | some e => innerGet e.2 v
  | none => none

/-- Cost of the closed tour `cur → q → 1` read off the weighted adjacency;
`none` when a required edge is absent. -/
def tourCost (adj : WAdj) : Vertex → List Vertex → Option Nat
  | cur, [] => lookupW adj cur 1
  | cur, x :: q =>
    match lookupW adj cur x with
    | some wt => (tourCost adj x q).map (fun c => wt + c)
    | none => none

/-- Total weight of the consecutive hops of a vertex list. -/
def listWeight (adj : WAdj) : List Vertex → Option Nat
  | [] => some 0
  | [_] => some 0
  | a :: b :: t =>
    match lookupW adj a b with
    | some wt => (listWeight adj (b :: t)).map (fun c => wt + c)
    | none => none

/-- `a ≤ b` in `Nat ∪ {∞}`, `none` standing for `∞`. -/
def leO : Option Nat → Option Nat → Prop
  | _, none => True
  | none, some _ => False
  | some a, some b => a ≤ b

instance : (a b : Option Nat) → Decidable (leO a b)
  | none, none => .isTrue trivial
  | some _, none => .isTrue trivial
  | none, some _ => .isFalse (fun h => h)
  | some a, some b => inferInstanceAs (Decidable (a ≤ b))

/-- `B` is the minimum of `b` and the values `f` takes on `S` (the
characterization both TSP solvers are proved to satisfy). -/
def OptBest (S : List Vertex → Prop) (f : List Vertex → Option Nat)
    (b B : Option Nat) : Prop :=
  leO B b ∧
  (∀ q, S q → ∀ x, f q = some x → leO B (some x)) ∧
  (B = b ∨ ∃ q x, S q ∧ f q = some x ∧ B = some x)

/-- The cycle test `p[0] in adj_set[p[-1]]` applied to a nonempty vertex
list. -/
def closesP (adj : List (Vertex × List Vertex)) (p : List Vertex) : Prop :=
  p.headI ∈ nbrs adj (p.getLastD 0)

instance (adj : List (Vertex × List Vertex)) (p : List Vertex) :
    Decidable (closesP adj p) :=
  inferInstanceAs (Decidable (p.headI ∈ nbrs adj (p.getLastD 0)))

/-- `a` and `b` are joined by an edge of the unweighted edge list. -/
def edgeConnU (edges : List (Vertex × Vertex)) (a b : Vertex) : Prop :=
  (a, b) ∈ edges ∨ (b, a) ∈ edges

/-- `a` and `b` are joined by an edge of the weighted edge list. -/
def edgeConnW (edges : List (Vertex × Vertex × Nat)) (a b : Vertex) : Prop :=
  ∃ w, (a, b, w) ∈ edges ∨ (b, a, w) ∈ edges

/-- Soundness of the `hamilton_backtracking` search state: any recorded
witness really is a Hamiltonian path (resp. closing Hamiltonian path with the
start re-appended), and `largestCycle` is `0` or a closing length in
`[3, n]`, equal to `n` once a full cycle is recorded. -/
def HBSound (adj : List (Vertex × List Vertex)) (vertices : List Vertex) (n : Nat)
    (st : HBState) : Prop :=
  (∀ p, st.foundPath = some p → p.Perm vertices ∧ isPathPerm adj p) ∧
  (∀ c, st.foundCycle = some c →
    ∃ p, p.Perm vertices ∧ isPathPerm adj p ∧ closesP adj p ∧ 3 ≤ p.length ∧
      c = p ++ [p.headI]) ∧
  st.largestCycle ≤ n ∧
  (st.largestCycle = 0 ∨ 3 ≤ st.largestCycle) ∧
  (truthy st.foundCycle = true → st.largestCycle = n)

/-- Soundness of the TSP search state: the best weight is `∞` exactly when no
cycle is recorded, and a recorded cycle starts and ends at vertex `1`, visits
every vertex once, follows edges of the graph, and costs exactly the best
weight. -/
def TspInv (adj : WAdj) (vertices : List Vertex) (edges : List (Vertex × Vertex × Nat))
    (st : TspState) : Prop :=
  (st.best = none ↔ st.cycle = none) ∧
  (∀ c, st.cycle = some c →
    listWeight adj c = st.best ∧ c.headI = 1 ∧ c.getLastD 0 = 1 ∧
    c.dropLast.Perm vertices ∧ c.Chain' (edgeConnW edges))

/-- Result shape of `hamilton_bruteforce` when the loop finishes without a
cycle: determined by the recorded witness path, if any. -/
def bruteFinish (o : Option (List Vertex)) :
    Except PyError (Bool × Option (List Vertex) × Bool × Option (List Vertex) × Nat) :=
  match o with
  | some w => .ok (true, some w, false, none, 0)
  | none => .ok (false, none, false, none, 0)

/-! ## Facts about `selections` and `permsLex` -/

theorem flatMap_congr {α : Type} {β : Type} {l : List α} {f g : α → List β}
    (h : ∀ a ∈ l, f a = g a) : l.flatMap f = l.flatMap g := by
  induction l with
  | nil => rfl
  | cons a l ih =>
    rw [List.flatMap_cons, List.flatMap_cons, h a (List.mem_cons_self a l),
      ih (fun b hb => h b (List.mem_cons_of_mem a hb))]

theorem permsLex_nil : permsLex [] = [[]] := rfl

theorem permsLex_eq {l : List Vertex} (h : l ≠ []) :
    permsLex l = (selections l).flatMap (fun s => (permsLex s.2).map (fun q => s.1 :: q)) := by
  obtain ⟨x, xs, rfl⟩ := List.exists_cons_of_ne_nil h
  show permsLexF (xs.length + 1) (x :: xs) = _
  rw [permsLexF, if_neg h]
  refine flatMap_congr ?_
  intro s hs
  have hlen := selections_length hs
  simp only [List.length_cons] at hlen
  have hxs : xs.length = s.2.length := by omega
  rw [hxs]
  rfl

theorem selections_perm {l : List Vertex} {s : Vertex × List Vertex}
    (hs : s ∈ selections l) : (s.1 :: s.2).Perm l := by
  induction l generalizing s with
  | nil => simp [selections] at hs
  | cons x xs ih =>
    simp only [selections, List.mem_cons, List.mem_map] at hs
    rcases hs with h | ⟨t, ht, rfl⟩
    · subst h; exact List.Perm.refl _
    · exact (List.Perm.swap x t.1 t.2).trans ((ih ht).cons x)

theorem selections_sublist {l : List Vertex} {s : Vertex × List Vertex}
    (hs : s ∈ selections l) : s.2.Sublist l := by
  induction l generalizing s with
  | nil => simp [selections] at hs
  | cons x xs ih =>
    simp only [selections, List.mem_cons, List.mem_map] at hs
    rcases hs with h | ⟨t, ht, rfl⟩
    · subst h; exact (List.Sublist.refl xs).cons x
    · exact (ih ht).cons₂ x

theorem mem_selections_of_mem {l : List Vertex} {x : Vertex} (hx : x ∈ l) :
    (x, l.erase x) ∈ selections l := by
  induction l with
  | nil => simp at hx
  | cons y ys ih =>
    rcases List.mem_cons.mp hx with rfl | hmem
    · simp [selections, List.erase_cons_head]
    · by_cases hxy : y = x
      · subst hxy; simp [selections, List.erase_cons_head]
      · have : (y :: ys).erase x = y :: ys.erase x := by
          refine List.erase_cons_tail ?_
          simp [hxy]
        rw [this]
        simp only [selections, List.mem_cons, List.mem_map]
        exact Or.inr ⟨(x, ys.erase x), ih hmem, rfl⟩

theorem selections_map_fst (l : List Vertex) : (selections l).map (fun s => s.1) = l := by
  induction l with
  | nil => simp [selections]
  | cons x xs ih => simp [selections, List.map_map, Function.comp_def, ih]

theorem mem_permsLex {l q : List Vertex} : q ∈ permsLex l ↔ q.Perm l := by
  suffices H : ∀ n (l q : List Vertex), l.length = n → (q ∈ permsLex l ↔ q.Perm l) from
    H l.length l q rfl
  intro n
  induction n using Nat.strong_induction_on with
  | _ n ih =>
    intro l q hn
    rcases eq_or_ne l [] with rfl | hl
    · simp [permsLex_nil, List.perm_nil]
    · rw [permsLex_eq hl]
      constructor
      · intro hq
        rcases List.mem_flatMap.mp hq with ⟨s, hs, hq⟩
        rcases List.mem_map.mp hq with ⟨q', hq', rfl⟩
        have hlen := selections_length hs
        have hperm : q'.Perm s.2 :=
          (ih s.2.length (by omega) s.2 q' rfl).mp hq'
        exact (hperm.cons s.1).trans (selections_perm hs)
      · intro hq
        have hqne : q ≠ [] := by
          intro h; subst h
          exact hl (List.perm_nil.mp hq.symm)
        obtain ⟨x, q', rfl⟩ := List.exists_cons_of_ne_nil hqne
        have hx : x ∈ l := hq.mem_iff.mp (List.mem_cons_self x q')
        have hsel := mem_selections_of_mem hx
        have hq' : q'.Perm (l.erase x) := by
          have h1 : (x :: q').Perm (x :: l.erase x) :=
            hq.trans (List.perm_cons_erase hx)
          exact h1.cons_inv
        have hlen := selections_length hsel
        refine List.mem_flatMap.mpr ⟨(x, l.erase x), hsel, ?_⟩
        refine List.mem_map.mpr ⟨q', ?_, rfl⟩
        exact (ih (l.erase x).length (by simp at hlen ⊢; omega) (l.erase x) q' rfl).mpr hq'

theorem self_mem_permsLex (l : List Vertex) : l ∈ permsLex l :=
  mem_permsLex.mpr (List.Perm.refl l)

theorem permsLex_ne_nil (l : List Vertex) : permsLex l ≠ [] :=
  List.ne_nil_of_mem (self_mem_permsLex l)

theorem pairwise_flatMap {α : Type} {β : Type} {R : β → β → Prop} {l : List α}
    {f : α → List β} (hin : ∀ a ∈ l, (f a).Pairwise R)
    (hacross : l.Pairwise (fun a b => ∀ x ∈ f a, ∀ y ∈ f b, R x y)) :
    (l.flatMap f).Pairwise R := by
  induction l with
  | nil => simp
  | cons a l ihl =>
    rw [List.flatMap_cons, List.pairwise_append]
    rcases List.pairwise_cons.mp hacross with ⟨ha, htail⟩
    refine ⟨hin a (List.mem_cons_self a l), ihl (fun b hb => hin b (List.mem_cons_of_mem a hb)) htail, ?_⟩
    intro x hx y hy
    rcases List.mem_flatMap.mp hy with ⟨b, hb, hyb⟩
    exact ha b hb x hx y hyb

theorem permsLex_pairwise_lex {l : List Vertex} (hs : l.Pairwise (· < ·)) :
    (permsLex l).Pairwise (List.Lex (· < ·)) := by
  suffices H : ∀ n (l : List Vertex), l.Pairwise (· < ·) → l.length = n →
      (permsLex l).Pairwise (List.Lex (· < ·)) from H l.length l hs rfl
  clear hs
  intro n
  induction n using Nat.strong_induction_on with
  | _ n ih =>
    intro l hs hn
    rcases eq_or_ne l [] with rfl | hl
    · simp [permsLex_nil]
    · rw [permsLex_eq hl]
      refine pairwise_flatMap ?_ ?_
      · intro s hsel
        rw [List.pairwise_map]
        have hsort : s.2.Pairwise (· < ·) :=
          List.Pairwise.sublist (selections_sublist hsel) hs
        have hlen := selections_length hsel
        exact ((ih s.2.length (by omega) s.2 hsort rfl).imp (fun h => List.Lex.cons h))
      · have hfst : (selections l).Pairwise (fun s t => s.1 < t.1) := by
          have := selections_map_fst l ▸ hs
          exact List.pairwise_map.mp this
        refine hfst.imp_of_mem ?_
        intro s t _ _ hlt x hx y hy
        rcases List.mem_map.mp hx with ⟨q1, _, rfl⟩
        rcases List.mem_map.mp hy with ⟨q2, _, rfl⟩
        exact List.Lex.rel hlt

theorem find?_min {α : Type} {R : α → α → Prop} {l : List α} {p : α → Bool} {a : α}
    (hp : l.Pairwise R) (h : l.find? p = some a) :
    ∀ b ∈ l, p b = true → b = a ∨ R a b := by
  induction l with
  | nil => simp at h
  | cons x xs ihl =>
    rcases List.pairwise_cons.mp hp with ⟨hx, hxs⟩
    intro b hb hpb
    by_cases hpx : p x = true
    · rw [List.find?_cons_of_pos _ hpx] at h
      injection h with h; subst h
      rcases List.mem_cons.mp hb with rfl | hbmem
      · exact Or.inl rfl
      · exact Or.inr (hx b hbmem)
    · rw [List.find?_cons_of_neg _ hpx] at h
      rcases List.mem_cons.mp hb with rfl | hbmem
      · exact absurd hpb hpx
      · exact ihl hxs h b hbmem hpb

/-! ## The unweighted adjacency builder -/

theorem addNbr_fst (adj : List (Vertex × List Vertex)) (u v : Vertex) :
    (addNbr adj u v).map (fun e => e.1) = adj.map (fun e => e.1) := by
  unfold addNbr
  rw [List.map_map]
  refine List.map_congr_left ?_
  intro e _
  by_cases h : e.1 = u <;> simp [h]

theorem hasKey_iff {adj : List (Vertex × List Vertex)} {u : Vertex} :
    hasKey adj u = true ↔ u ∈ adj.map (fun e => e.1) := by
  unfold hasKey
  rw [List.any_eq_true]
  constructor
  · rintro ⟨e, he, hu⟩
    exact List.mem_map.mpr ⟨e, he, eq_of_beq hu⟩
  · intro h
    rcases List.mem_map.mp h with ⟨e, he, rfl⟩
    exact ⟨e, he, beq_self_eq_true e.1⟩

theorem nbrs_addNbr (adj : List (Vertex × List Vertex)) (u v x : Vertex) :
    nbrs (addNbr adj u v) x =
      match adj.find? (fun e => e.1 == x) with
      | none => []
      | some e => if e.1 = u then (if v ∈ e.2 then e.2 else e.2 ++ [v]) else e.2 := by
  unfold nbrs addNbr
  rw [List.find?_map]
  have hp : ((fun e : Vertex × List Vertex => e.1 == x) ∘
      (fun e : Vertex × List Vertex =>
        if e.1 = u then (e.1, if v ∈ e.2 then e.2 else e.2 ++ [v]) else e)) =
      (fun e : Vertex × List Vertex => e.1 == x) := by
    funext e
    by_cases h : e.1 = u <;> simp [h]
  rw [hp]
  cases hf : adj.find? (fun e => e.1 == x) with
  | none => simp
  | some e =>
    by_cases h : e.1 = u <;> simp [h]

theorem mem_nbrs_addNbr {adj : List (Vertex × List Vertex)} {u v x b : Vertex} :
    b ∈ nbrs (addNbr adj u v) x ↔
      b ∈ nbrs adj x ∨ (x = u ∧ b = v ∧ hasKey adj u = true) := by
  rw [nbrs_addNbr]
  unfold nbrs
  cases hf : adj.find? (fun e => e.1 == x) with
  | none =>
    have hnk : ¬(x = u ∧ b = v ∧ hasKey adj u = true) := by
      rintro ⟨rfl, rfl, hk⟩
      rcases List.any_eq_true.mp hk with ⟨e, he, hu⟩
      exact absurd hu (by simpa using List.find?_eq_none.mp hf e he)
    simp [hnk]
  | some e =>
    have hex : e.1 = x := by simpa using List.find?_some hf
    have hkey : hasKey adj x = true := by
      rw [hasKey_iff]
      exact List.mem_map.mpr ⟨e, List.mem_of_find?_eq_some hf, hex⟩
    simp only [Option.map_some', Option.getD_some]
    by_cases h : e.1 = u
    · rw [if_pos h]
      have hxu : x = u := hex.symm.trans h
      have hku : hasKey adj u = true := by rw [← hxu]; exact hkey
      by_cases hv : v ∈ e.2
      · rw [if_pos hv]
        constructor
        · exact Or.inl
        · rintro (hb | ⟨-, rfl, -⟩)
          · exact hb
          · exact hv
      · rw [if_neg hv, List.mem_append, List.mem_singleton]
        constructor
        · rintro (hb | rfl)
          · exact Or.inl hb
          · exact Or.inr ⟨hxu, rfl, hku⟩
        · rintro (hb | ⟨-, rfl, -⟩)
          · exact Or.inl hb
          · exact Or.inr rfl
    · rw [if_neg h]
      have hxu : ¬(x = u) := fun hcon => h (hex.trans hcon)
      constructor
      · exact Or.inl
      · rintro (hb | ⟨hcon, -, -⟩)
        · exact hb
        · exact absurd hcon hxu

theorem hasKey_addNbr (adj : List (Vertex × List Vertex)) (u v y : Vertex) :
    hasKey (addNbr adj u v) y = hasKey adj y := by
  rw [Bool.eq_iff_iff, hasKey_iff, hasKey_iff, addNbr_fst]

theorem nbrs_init (vertices : List Vertex) (x : Vertex) :
    nbrs (vertices.map (fun v => (v, []))) x = [] := by
  unfold nbrs
  cases hf : (vertices.map (fun v => (v, ([] : List Vertex)))).find? (fun e => e.1 == x) with
  | none => simp
  | some e =>
    have := List.mem_of_find?_eq_some hf
    rcases List.mem_map.mp this with ⟨v, _, rfl⟩
    simp

theorem foldEdges_fst (edges : List (Vertex × Vertex)) (adj : List (Vertex × List Vertex)) :
    (edges.foldl
      (fun adj e =>
        if hasKey adj e.1 && hasKey adj e.2 then addNbr (addNbr adj e.1 e.2) e.2 e.1
        else adj) adj).map (fun e => e.1) = adj.map (fun e => e.1) := by
  induction edges generalizing adj with
  | nil => rfl
  | cons e rest ih =>
    rw [List.foldl_cons, ih]
    by_cases h : (hasKey adj e.1 && hasKey adj e.2) = true
    · rw [if_pos h, addNbr_fst, addNbr_fst]
    · rw [if_neg h]

theorem hasKey_foldEdges (edges : List (Vertex × Vertex)) (adj : List (Vertex × List Vertex))
    (y : Vertex) :
    hasKey (edges.foldl
      (fun adj e =>
        if hasKey adj e.1 && hasKey adj e.2 then addNbr (addNbr adj e.1 e.2) e.2 e.1
        else adj) adj) y = hasKey adj y := by
  rw [Bool.eq_iff_iff, hasKey_iff, hasKey_iff, foldEdges_fst]

theorem mem_nbrs_foldEdges (edges : List (Vertex × Vertex)) (adj : List (Vertex × List Vertex))
    (x b : Vertex) :
    b ∈ nbrs (edges.foldl
      (fun adj e =>
        if hasKey adj e.1 && hasKey adj e.2 then addNbr (addNbr adj e.1 e.2) e.2 e.1
        else adj) adj) x ↔
      b ∈ nbrs adj x ∨
        (hasKey adj x = true ∧ hasKey adj b = true ∧ ((x, b) ∈ edges ∨ (b, x) ∈ edges)) := by
  induction edges generalizing adj with
  | nil => simp
  | cons e rest ih =>
    rw [List.foldl_cons, ih]
    by_cases h : (hasKey adj e.1 && hasKey adj e.2) = true
    · rw [Bool.and_eq_true] at h
      obtain ⟨h1, h2⟩ := h
      rw [if_pos (by rw [Bool.and_eq_true]; exact ⟨h1, h2⟩)]
      rw [hasKey_addNbr, hasKey_addNbr, hasKey_addNbr, hasKey_addNbr]
      rw [mem_nbrs_addNbr, mem_nbrs_addNbr, hasKey_addNbr]
      simp only [List.mem_cons, Prod.ext_iff]
      constructor
      · rintro (((hb | ⟨rfl, rfl, -⟩) | ⟨rfl, rfl, -⟩) | ⟨hx, hb, hrest⟩)
        · exact Or.inl hb
        · exact Or.inr ⟨h1, h2, Or.inl (Or.inl ⟨rfl, rfl⟩)⟩
        · exact Or.inr ⟨h2, h1, Or.inr (Or.inl ⟨rfl, rfl⟩)⟩
        · rcases hrest with hr | hr
          · exact Or.inr ⟨hx, hb, Or.inl (Or.inr hr)⟩
          · exact Or.inr ⟨hx, hb, Or.inr (Or.inr hr)⟩
      · rintro (hb | ⟨hx, hb, (⟨hx1, hb1⟩ | hmem) | (⟨hb1, hx1⟩ | hmem)⟩)
        · exact Or.inl (Or.inl (Or.inl hb))
        · exact Or.inl (Or.inl (Or.inr ⟨hx1, hb1, h1⟩))
        · exact Or.inr ⟨hx, hb, Or.inl hmem⟩
        · exact Or.inl (Or.inr ⟨hx1, hb1, h2⟩)
        · exact Or.inr ⟨hx, hb, Or.inr hmem⟩
    · rw [if_neg h]
      rw [Bool.and_eq_true] at h
      simp only [List.mem_cons, Prod.ext_iff]
      constructor
      · rintro (hb | ⟨hx, hb, hrest⟩)
        · exact Or.inl hb
        · rcases hrest with hr | hr
          · exact Or.inr ⟨hx, hb, Or.inl (Or.inr hr)⟩
          · exact Or.inr ⟨hx, hb, Or.inr (Or.inr hr)⟩
      · rintro (hb | ⟨hx, hb, (⟨hx1, hb1⟩ | hmem) | (⟨hb1, hx1⟩ | hmem)⟩)
        · exact Or.inl hb
        · exact absurd ⟨hx1 ▸ hx, hb1 ▸ hb⟩ h
        · exact Or.inr ⟨hx, hb, Or.inl hmem⟩
        · exact absurd ⟨hb1 ▸ hb, hx1 ▸ hx⟩ h
        · exact Or.inr ⟨hx, hb, Or.inr hmem⟩

theorem build_adj_set_fst (vertices : List Vertex) (edges : List (Vertex × Vertex)) :
    (build_adj_set vertices edges).map (fun e => e.1) = vertices := by
  unfold build_adj_set
  rw [foldEdges_fst]
  simp [Function.comp_def]

theorem mem_nbrs_build (vertices : List Vertex) (edges : List (Vertex × Vertex))
    (x b : Vertex) :
    b ∈ nbrs (build_adj_set vertices edges) x ↔
      x ∈ vertices ∧ b ∈ vertices ∧ edgeConnU edges x b := by
  unfold build_adj_set edgeConnU
  rw [mem_nbrs_foldEdges, nbrs_init]
  have hk : ∀ y, hasKey (vertices.map (fun v => (v, ([] : List Vertex)))) y = true ↔
      y ∈ vertices := by
    intro y; rw [hasKey_iff]; simp
  simp only [List.not_mem_nil, false_or]
  constructor
  · rintro ⟨hx, hb, hc⟩
    exact ⟨(hk x).mp hx, (hk b).mp hb, hc⟩
  · rintro ⟨hx, hb, hc⟩
    exact ⟨(hk x).mpr hx, (hk b).mpr hb, hc⟩

theorem mem_nbrs_build_vertices {vertices : List Vertex} {edges : List (Vertex × Vertex)}
    {x b : Vertex} (hb : b ∈ nbrs (build_adj_set vertices edges) x) :
    x ∈ vertices ∧ b ∈ vertices := by
  have := (mem_nbrs_build vertices edges x b).mp hb
  exact ⟨this.1, this.2.1⟩

/-- C7: for every vertex set and unweighted edge list, `_build_adj_set`
returns a mapping whose domain is exactly the vertex set, in which `b` is a
neighbor of `x` if and only if some edge `(x, b)` or `(b, x)` with both
endpoints in the vertex set appears in the edge list; an edge with an
endpoint outside the vertex set is dropped silently (the builder is a total
function and raises no error). -/
theorem C7_unweighted_adjacency_builder (vertices : List Vertex)
    (edges : List (Vertex × Vertex)) :
    (build_adj_set vertices edges).map (fun e => e.1) = vertices ∧
    ∀ x b, b ∈ nbrs (build_adj_set vertices edges) x ↔
      x ∈ vertices ∧ b ∈ vertices ∧ edgeConnU edges x b :=
  ⟨build_adj_set_fst vertices edges, fun x b => mem_nbrs_build vertices edges x b⟩

/-! ## The weighted adjacency builder -/

@[simp] theorem bind_ok_eq {α β : Type} (a : α) (f : α → Except PyError β) :
    (Except.ok a >>= f) = f a := rfl

@[simp] theorem bind_error_eq {α β : Type} (er : PyError) (f : α → Except PyError β) :
    ((Except.error er : Except PyError α) >>= f) = .error er := rfl

@[simp] theorem pure_eq_ok {α : Type} (a : α) : (pure a : Except PyError α) = .ok a := rfl

theorem anyKey_iff {β : Type} {adj : List (Vertex × β)} {u : Vertex} :
    adj.any (fun e => e.1 == u) = true ↔ u ∈ adj.map (fun e => e.1) := by
  rw [List.any_eq_true]
  constructor
  · rintro ⟨e, he, hu⟩
    exact List.mem_map.mpr ⟨e, he, eq_of_beq hu⟩
  · intro h
    rcases List.mem_map.mp h with ⟨e, he, rfl⟩
    exact ⟨e, he, beq_self_eq_true e.1⟩

theorem setW_ok_of_mem {adj : WAdj} {u : Vertex} (h : u ∈ adj.map (fun e => e.1))
    (v : Vertex) (w : Nat) :
    setW adj u v w =
      .ok (adj.map (fun e => if e.1 == u then (e.1, setInner e.2 v w) else e)) := by
  unfold setW
  rw [if_pos (anyKey_iff.mpr h)]

theorem setW_error_of_not_mem {adj : WAdj} {u : Vertex}
    (h : u ∉ adj.map (fun e => e.1)) (v : Vertex) (w : Nat) :
    setW adj u v w = .error (.keyError u) := by
  unfold setW
  rw [if_neg (fun hcon => h (anyKey_iff.mp hcon))]

theorem setW_fst {adj adj' : WAdj} {u v : Vertex} {w : Nat}
    (h : setW adj u v w = .ok adj') :
    adj'.map (fun e => e.1) = adj.map (fun e => e.1) := by
  unfold setW at h
  by_cases hk : adj.any (fun e => e.1 == u) = true
  · rw [if_pos hk] at h
    rw [Except.ok.injEq] at h
    subst h
    rw [List.map_map]
    refine List.map_congr_left ?_
    intro e _
    by_cases he : e.1 = u <;> simp [he]
  · rw [if_neg hk] at h
    exact Except.noConfusion h

theorem setW_ok_mem_fst {adj : WAdj} {u : Vertex} {v : Vertex} {w : Nat} {adj' : WAdj}
    (h : setW adj u v w = .ok adj') : u ∈ adj.map (fun e => e.1) := by
  by_contra hu
  rw [setW_error_of_not_mem hu] at h
  exact Except.noConfusion h

theorem mem_setInner {inner : List (Vertex × Nat)} {v : Vertex} {w : Nat}
    {ie : Vertex × Nat} (h : ie ∈ setInner inner v w) : ie ∈ inner ∨ ie = (v, w) := by
  unfold setInner at h
  by_cases hk : inner.any (fun e => e.1 == v) = true
  · rw [if_pos hk] at h
    rcases List.mem_map.mp h with ⟨e, he, hfe⟩
    by_cases hev : (e.1 == v) = true
    · right
      rw [if_pos hev] at hfe
      rw [← hfe, eq_of_beq hev]
    · left
      rw [if_neg hev] at hfe
      exact hfe ▸ he
  · rw [if_neg hk, List.mem_append, List.mem_singleton] at h
    exact h

theorem setInner_keys_nodup {inner : List (Vertex × Nat)} {v : Vertex} {w : Nat}
    (h : (inner.map (fun e => e.1)).Nodup) :
    ((setInner inner v w).map (fun e => e.1)).Nodup := by
  unfold setInner
  by_cases hk : inner.any (fun e => e.1 == v) = true
  · rw [if_pos hk]
    have heq : (inner.map (fun e => if e.1 == v then (e.1, w) else e)).map (fun e => e.1) =
        inner.map (fun e => e.1) := by
      rw [List.map_map]
      refine List.map_congr_left ?_
      intro e _
      by_cases hev : e.1 = v <;> simp [hev]
    rw [heq]
    exact h
  · rw [if_neg hk, List.map_append]
    rw [List.nodup_append]
    refine ⟨h, List.nodup_singleton v, ?_⟩
    intro a ha hb
    simp only [List.map_cons, List.map_nil, List.mem_singleton] at hb
    subst hb
    exact hk (anyKey_iff.mpr ha)

theorem setW_error_shape {adj : WAdj} {u v : Vertex} {w : Nat} {er : PyError}
    (h : setW adj u v w = .error er) :
    er = .keyError u ∧ u ∉ adj.map (fun e => e.1) := by
  unfold setW at h
  by_cases hk : adj.any (fun e => e.1 == u) = true
  · rw [if_pos hk] at h
    exact Except.noConfusion h
  · rw [if_neg hk] at h
    injection h with h
    exact ⟨h.symm, fun hm => hk (anyKey_iff.mpr hm)⟩

theorem wStep_fst {adj adj' : WAdj} {e : Vertex × Vertex × Nat}
    (h : wStep adj e = .ok adj') :
    adj'.map (fun x => x.1) = adj.map (fun x => x.1) := by
  unfold wStep at h
  cases h1 : setW adj e.1 e.2.1 e.2.2 with
  | error er => rw [h1, bind_error_eq] at h; exact Except.noConfusion h
  | ok adj1 =>
    rw [h1, bind_ok_eq] at h
    exact (setW_fst h).trans (setW_fst h1)

theorem wStep_error_shape {adj : WAdj} {e : Vertex × Vertex × Nat} {er : PyError}
    (h : wStep adj e = .error er) :
    ∃ k, er = .keyError k ∧ k ∉ adj.map (fun x => x.1) := by
  unfold wStep at h
  cases h1 : setW adj e.1 e.2.1 e.2.2 with
  | error er1 =>
    rw [h1, bind_error_eq] at h
    injection h with h
    obtain ⟨h2, h3⟩ := setW_error_shape h1
    exact ⟨e.1, by rw [← h, h2], h3⟩
  | ok adj1 =>
    rw [h1, bind_ok_eq] at h
    obtain ⟨h2, h3⟩ := setW_error_shape h
    rw [setW_fst h1] at h3
    exact ⟨e.2.1, h2, h3⟩

theorem wStep_ok_endpoints {adj adj' : WAdj} {e : Vertex × Vertex × Nat}
    (h : wStep adj e = .ok adj') :
    e.1 ∈ adj.map (fun x => x.1) ∧ e.2.1 ∈ adj.map (fun x => x.1) := by
  unfold wStep at h
  cases h1 : setW adj e.1 e.2.1 e.2.2 with
  | error er => rw [h1, bind_error_eq] at h; exact Except.noConfusion h
  | ok adj1 =>
    rw [h1, bind_ok_eq] at h
    have h2 := setW_ok_mem_fst h
    rw [setW_fst h1] at h2
    exact ⟨setW_ok_mem_fst h1, h2⟩

theorem foldW_fst {edges : List (Vertex × Vertex × Nat)} {adj0 adj' : WAdj}
    (h : edges.foldlM wStep adj0 = .ok adj') :
    adj'.map (fun x => x.1) = adj0.map (fun x => x.1) := by
  induction edges generalizing adj0 with
  | nil =>
    rw [List.foldlM_nil, pure_eq_ok, Except.ok.injEq] at h
    rw [h]
  | cons e rest ih =>
    rw [List.foldlM_cons] at h
    cases h1 : wStep adj0 e with
    | error er => rw [h1, bind_error_eq] at h; exact Except.noConfusion h
    | ok adj1 =>
      rw [h1, bind_ok_eq] at h
      exact (ih h).trans (wStep_fst h1)

theorem foldW_all_of_ok {edges : List (Vertex × Vertex × Nat)} {adj0 adj' : WAdj}
    (h : edges.foldlM wStep adj0 = .ok adj') :
    ∀ e ∈ edges, e.1 ∈ adj0.map (fun x => x.1) ∧ e.2.1 ∈ adj0.map (fun x => x.1) := by
  induction edges generalizing adj0 with
  | nil => intro e he; exact absurd he (List.not_mem_nil e)
  | cons e rest ih =>
    rw [List.foldlM_cons] at h
    cases h1 : wStep adj0 e with
    | error er => rw [h1, bind_error_eq] at h; exact Except.noConfusion h
    | ok adj1 =>
      rw [h1, bind_ok_eq] at h
      intro e' he'
      rcases List.mem_cons.mp he' with rfl | hmem
      · exact wStep_ok_endpoints h1
      · have := ih h e' hmem
        rw [wStep_fst h1] at this
        exact this

theorem foldW_ok_of_all {edges : List (Vertex × Vertex × Nat)} {adj0 : WAdj}
    (hall : ∀ e ∈ edges, e.1 ∈ adj0.map (fun x => x.1) ∧ e.2.1 ∈ adj0.map (fun x => x.1)) :
    ∃ adj', edges.foldlM wStep adj0 = .ok adj' := by
  induction edges generalizing adj0 with
  | nil => exact ⟨adj0, by rw [List.foldlM_nil, pure_eq_ok]⟩
  | cons e rest ih =>
    obtain ⟨h1, h2⟩ := hall e (List.mem_cons_self e rest)
    have hs1 := setW_ok_of_mem h1 e.2.1 e.2.2
    have h2' : e.2.1 ∈ (adj0.map (fun x =>
        if x.1 == e.1 then (x.1, setInner x.2 e.2.1 e.2.2) else x)).map (fun x => x.1) := by
      rw [setW_fst hs1]
      exact h2
    have hs2 := setW_ok_of_mem h2' e.1 e.2.2
    cases hb : wStep adj0 e with
    | error er =>
      exfalso
      unfold wStep at hb
      rw [hs1, bind_ok_eq, hs2] at hb
      exact Except.noConfusion hb
    | ok adjB =>
      have hwfst := wStep_fst hb
      have hallB : ∀ e' ∈ rest,
          e'.1 ∈ adjB.map (fun x => x.1) ∧ e'.2.1 ∈ adjB.map (fun x => x.1) := by
        rw [hwfst]
        exact fun e' he' => hall e' (List.mem_cons_of_mem e he')
      obtain ⟨adj', hrest⟩ := ih hallB
      refine ⟨adj', ?_⟩
      rw [List.foldlM_cons, hb, bind_ok_eq]
      exact hrest

theorem foldW_error_shape {edges : List (Vertex × Vertex × Nat)} {adj0 : WAdj} {er : PyError}
    (h : edges.foldlM wStep adj0 = .error er) :
    ∃ k, er = .keyError k ∧ k ∉ adj0.map (fun x => x.1) := by
  induction edges generalizing adj0 with
  | nil => rw [List.foldlM_nil] at h; exact Except.noConfusion h
  | cons e rest ih =>
    rw [List.foldlM_cons] at h
    cases h1 : wStep adj0 e with
    | error er1 =>
      rw [h1, bind_error_eq] at h
      injection h with h
      subst h
      exact wStep_error_shape h1
    | ok adj1 =>
      rw [h1, bind_ok_eq] at h
      obtain ⟨k, hk1, hk2⟩ := ih h
      rw [wStep_fst h1] at hk2
      exact ⟨k, hk1, hk2⟩

theorem isPathB_iff {adj : List (Vertex × List Vertex)} {p : List Vertex} :
    isPathB adj p = true ↔ isPathPerm adj p := by
  unfold isPathPerm
  induction p with
  | nil => simp [isPathB]
  | cons a t ih =>
    cases t with
    | nil => simp [isPathB]
    | cons b t' =>
      rw [List.chain'_cons, ← ih]
      show (decide (b ∈ nbrs adj a) && isPathB adj (b :: t')) = true ↔ _
      rw [Bool.and_eq_true, decide_eq_true_iff]

theorem build_adj_list_fst {vertices : List Vertex} {edges : List (Vertex × Vertex × Nat)}
    {adj : WAdj} (h : build_adj_list vertices edges = .ok adj) :
    adj.map (fun x => x.1) = vertices := by
  unfold build_adj_list at h
  rw [foldW_fst h]
  simp [Function.comp_def]

theorem build_adj_list_ok_iff (vertices : List Vertex)
    (edges : List (Vertex × Vertex × Nat)) :
    (∃ adj, build_adj_list vertices edges = .ok adj) ↔
      ∀ e ∈ edges, e.1 ∈ vertices ∧ e.2.1 ∈ vertices := by
  unfold build_adj_list
  have hinit : (vertices.map (fun v => (v, ([] : List (Vertex × Nat))))).map
      (fun x => x.1) = vertices := by simp [Function.comp_def]
  constructor
  · rintro ⟨adj, h⟩
    have := foldW_all_of_ok h
    rw [hinit] at this
    exact this
  · intro hall
    exact foldW_ok_of_all (by rw [hinit]; exact hall)

theorem build_adj_list_error_shape {vertices : List Vertex}
    {edges : List (Vertex × Vertex × Nat)} {er : PyError}
    (h : build_adj_list vertices edges = .error er) :
    ∃ k, er = .keyError k ∧ k ∉ vertices := by
  unfold build_adj_list at h
  obtain ⟨k, h1, h2⟩ := foldW_error_shape h
  refine ⟨k, h1, ?_⟩
  intro hk
  exact h2 (by simpa using hk)

theorem dictGet_of_not_mem {adj : WAdj} {u : Vertex}
    (h : u ∉ adj.map (fun x => x.1)) :
    dictGet adj u = .error (.keyError u) := by
  unfold dictGet
  have hf : adj.find? (fun e => e.1 == u) = none :=
    List.find?_eq_none.mpr
      (fun e he hbeq => h (List.mem_map.mpr ⟨e, he, eq_of_beq hbeq⟩))
  rw [hf]

theorem dictGet_of_mem {adj : WAdj} {u : Vertex} (h : u ∈ adj.map (fun x => x.1)) :
    ∃ inner, dictGet adj u = .ok inner ∧
      adj.find? (fun e => e.1 == u) = some (u, inner) := by
  unfold dictGet
  cases hf : adj.find? (fun e => e.1 == u) with
  | none =>
    exfalso
    rcases List.mem_map.mp h with ⟨e, he, hfst⟩
    exact List.find?_eq_none.mp hf e he (by rw [hfst]; exact beq_self_eq_true u)
  | some e =>
    have he1 : e.1 = u := by simpa using List.find?_some hf
    refine ⟨e.2, rfl, ?_⟩
    rw [← he1]

/-- C6 is refuted: on the vertex set `{1}` and single edge `(2, 3, 5)`, the
weighted adjacency builder does not insert the edge without error at build
time; it raises `KeyError(2)` during construction itself. -/
theorem C6_counterexample : build_adj_list [1] [(2, 3, 5)] = .error (.keyError 2) := by
  decide

/-- C6 (amended): the weighted adjacency builder performs no endpoint
validation guard of its own, but an edge naming a vertex outside the vertex
set makes construction itself fail: indexing the outer mapping at the unknown
endpoint raises a key-not-found error at build time, so building succeeds
exactly when every edge endpoint lies in the vertex set, and otherwise
surfaces a distinguishable `KeyError` naming a vertex outside the set. -/
theorem C6_weighted_builder_amended (vertices : List Vertex)
    (edges : List (Vertex × Vertex × Nat)) :
    ((∃ adj, build_adj_list vertices edges = .ok adj) ↔
      ∀ e ∈ edges, e.1 ∈ vertices ∧ e.2.1 ∈ vertices) ∧
    (∀ er, build_adj_list vertices edges = .error er →
      ∃ k, er = .keyError k ∧ k ∉ vertices) :=
  ⟨build_adj_list_ok_iff vertices edges, fun _ h => build_adj_list_error_shape h⟩

/-- C4 is refuted: on the empty vertex set, `hamilton_bruteforce` does not
return `(false, absent, false, absent, 0)`; it raises an `IndexError` (from
`p[0]` on the empty permutation), and the two TSP solvers raise
`KeyError(1)` instead of returning `(+inf, absent)`. -/
theorem C4_counterexample :
    hamilton_bruteforce [] [] = .error .indexError ∧
    tsp_bruteforce [] [] = .error (.keyError 1) ∧
    tsp_backtracking [] [] = .error (.keyError 1) :=
  ⟨by decide, by decide, by decide⟩

/-- C4 (amended): for the empty vertex set and any edge list,
`hamilton_backtracking` immediately returns `(false, absent, false, absent,
0)` with no search, but the other three solvers raise instead of returning a
degenerate result: `hamilton_bruteforce` raises an `IndexError` and the two
TSP solvers both raise one and the same `KeyError`. -/
theorem C4_empty_vertex_set_amended (uedges : List (Vertex × Vertex))
    (wedges : List (Vertex × Vertex × Nat)) :
    hamilton_backtracking [] uedges = (false, none, false, none, 0) ∧
    hamilton_bruteforce [] uedges = .error .indexError ∧
    ∃ k, tsp_bruteforce [] wedges = .error (.keyError k) ∧
      tsp_backtracking [] wedges = .error (.keyError k) := by
  refine ⟨rfl, rfl, ?_⟩
  cases wedges with
  | nil => exact ⟨1, rfl, rfl⟩
  | cons e rest => exact ⟨e.1, rfl, rfl⟩

theorem permsLex_cons (x : Vertex) (xs : List Vertex) :
    ∃ t rest, permsLex (x :: xs) = (x :: t) :: rest := by
  rw [permsLex_eq (List.cons_ne_nil x xs)]
  simp only [selections]
  rw [List.flatMap_cons]
  cases hp : permsLex xs with
  | nil => exact absurd hp (permsLex_ne_nil xs)
  | cons t ts =>
    exact ⟨t, _, rfl⟩

theorem foldlM_head_error {α β : Type} {f : β → α → Except PyError β} {b₀ : β} {a : α}
    {l : List α} {er : PyError} (h : f b₀ a = .error er) :
    (a :: l).foldlM f b₀ = .error er := by
  rw [List.foldlM_cons, h, bind_error_eq]

theorem tspRec_start_keyError {adj : WAdj} {n : Nat} (fuel : Nat) (hf : fuel ≠ 0)
    (hdg : dictGet adj 1 = .error (.keyError 1)) :
    tspRec adj n fuel 1 0 [1] ⟨none, none⟩ = .error (.keyError 1) := by
  cases fuel with
  | zero => exact absurd rfl hf
  | succ fuel =>
    rw [tspRec]
    rw [if_neg (show ¬(ltInf 0 (TspState.mk none none).best = false) by decide)]
    by_cases h1n : List.length [1] = n
    · rw [if_pos h1n]
      show (dictGet adj 1 >>= _) = _
      rw [hdg, bind_error_eq]
    · rw [if_neg h1n]
      show (dictGet adj 1 >>= _) = _
      rw [hdg, bind_error_eq]

/-- C5: for every non-empty vertex set not containing vertex `1`, both TSP
solvers report an error rather than attempting the search; the error is the
failed lookup of the missing start vertex `1` (or, when the edge list itself
is malformed, of an unknown endpoint), and with well-formed edges it is
exactly `KeyError(1)` for both solvers. -/
theorem C5_tsp_missing_start_vertex (vertices : List Vertex)
    (edges : List (Vertex × Vertex × Nat)) (hne : vertices ≠ []) (h1 : 1 ∉ vertices) :
    (∃ er, tsp_bruteforce vertices edges = .error er) ∧
    (∃ er, tsp_backtracking vertices edges = .error er) ∧
    ((∀ e ∈ edges, e.1 ∈ vertices ∧ e.2.1 ∈ vertices) →
      tsp_bruteforce vertices edges = .error (.keyError 1) ∧
      tsp_backtracking vertices edges = .error (.keyError 1)) := by
  cases hb : build_adj_list vertices edges with
  | error er =>
    have hbf : tsp_bruteforce vertices edges = .error er := by
      unfold tsp_bruteforce
      rw [hb, bind_error_eq]
    have hbt : tsp_backtracking vertices edges = .error er := by
      unfold tsp_backtracking
      rw [hb, bind_error_eq]
    refine ⟨⟨er, hbf⟩, ⟨er, hbt⟩, ?_⟩
    intro hwf
    exfalso
    obtain ⟨adj, hok⟩ := (build_adj_list_ok_iff vertices edges).mpr hwf
    rw [hok] at hb
    exact Except.noConfusion hb
  | ok adj =>
    have hkeys := build_adj_list_fst hb
    have h1k : 1 ∉ adj.map (fun x => x.1) := by rw [hkeys]; exact h1
    have hdg := dictGet_of_not_mem h1k
    have hfil : vertices.filter (fun v => v != 1) = vertices := by
      rw [List.filter_eq_self]
      intro v hv
      exact bne_iff_ne.mpr (fun hv1 => h1 (hv1 ▸ hv))
    obtain ⟨x, xs, hvx⟩ := List.exists_cons_of_ne_nil hne
    have hbf : tsp_bruteforce vertices edges = .error (.keyError 1) := by
      simp only [tsp_bruteforce, hb, bind_ok_eq]
      rw [hfil, hvx]
      obtain ⟨t, rest, hperm⟩ := permsLex_cons x xs
      rw [hperm]
      apply foldlM_head_error
      have hts : tourSteps adj 1 0 (x :: t) = .error (.keyError 1) := by
        show (dictGet adj 1 >>= _) = _
        rw [hdg, bind_error_eq]
      have hpt : permTour adj (x :: t) = .error (.keyError 1) := by
        show (tourSteps adj 1 0 (x :: t) >>= _) = _
        rw [hts, bind_error_eq]
      show (permTour adj (x :: t) >>= _) = _
      rw [hpt, bind_error_eq]
    have hbt : tsp_backtracking vertices edges = .error (.keyError 1) := by
      simp only [tsp_backtracking, hb, bind_ok_eq]
      have hrec : tspRec adj vertices.length (vertices.length + 1) 1 0 [1]
          ⟨none, none⟩ = .error (.keyError 1) :=
        tspRec_start_keyError (vertices.length + 1) (Nat.succ_ne_zero _) hdg
      rw [hrec, bind_error_eq]
    exact ⟨⟨_, hbf⟩, ⟨_, hbt⟩, fun _ => ⟨hbf, hbt⟩⟩

/-- Witness for C5 at the concrete instance `vertices = {2}`, `edges = []`. -/
theorem C5_tsp_missing_start_vertex_witness :
    (([2] : List Vertex) ≠ [] ∧ (1 : Vertex) ∉ ([2] : List Vertex)) ∧
    ((∃ er, tsp_bruteforce [2] [] = .error er) ∧
     (∃ er, tsp_backtracking [2] [] = .error er) ∧
     ((∀ e ∈ ([] : List (Vertex × Vertex × Nat)), e.1 ∈ ([2] : List Vertex) ∧
        e.2.1 ∈ ([2] : List Vertex)) →
      tsp_bruteforce [2] [] = .error (.keyError 1) ∧
      tsp_backtracking [2] [] = .error (.keyError 1))) :=
  ⟨⟨by decide, by decide⟩,
    C5_tsp_missing_start_vertex [2] [] (by decide) (by decide)⟩

/-! ## Characterization of `hamilton_bruteforce` -/

theorem truthy_some {p : List Vertex} (h : p ≠ []) : truthy (some p) = true := by
  unfold truthy
  cases p with
  | nil => exact absurd rfl h
  | cons a l => rfl

theorem truthy_eq_false {o : Option (List Vertex)} (hne : ∀ p, o = some p → p ≠ [])
    (h : truthy o = false) : o = none := by
  cases o with
  | none => rfl
  | some p => rw [truthy_some (hne p rfl)] at h; exact Bool.noConfusion h

theorem isPathB_false_of_not {adj : List (Vertex × List Vertex)} {p : List Vertex}
    (h : ¬ isPathB adj p = true) : isPathB adj p = false := by
  revert h
  cases isPathB adj p <;> simp

theorem bruteLoop_no_cycle (adj : List (Vertex × List Vertex)) (n : Nat) :
    ∀ (L : List (List Vertex)) (fp : Option (List Vertex)),
      (∀ p ∈ L, p ≠ []) → (truthy fp = true ∨ fp = none) →
      L.find? (fun p => isPathB adj p && decide (closesP adj p)) = none →
      bruteLoop adj n L fp =
        bruteFinish (if truthy fp = true then fp
                     else L.find? (fun p => isPathB adj p)) := by
  intro L
  induction L with
  | nil =>
    intro fp hne hfp hfind
    cases fp with
    | none => rfl
    | some w =>
      rcases hfp with hfp | hfp
      · show (if truthy (some w) = true then _ else _) = _
        rw [if_pos hfp, if_pos hfp]
        rfl
      · exact Option.noConfusion hfp
  | cons p rest ih =>
    intro fp hne hfp hfind
    obtain ⟨x, xs, rfl⟩ := List.exists_cons_of_ne_nil (hne p (List.mem_cons_self p rest))
    have hnetail : ∀ q ∈ rest, q ≠ [] := fun q hq => hne q (List.mem_cons_of_mem _ hq)
    rw [List.find?_cons] at hfind
    by_cases hpath : isPathB adj (x :: xs) = true
    · by_cases hcl : closesP adj (x :: xs)
      · exfalso
        rw [hpath, decide_eq_true hcl] at hfind
        exact Option.noConfusion hfind
      · rw [hpath, decide_eq_false hcl] at hfind
        show (if isPathB adj (x :: xs) = true then _ else _) = _
        rw [if_pos hpath,
          if_neg (show ¬ x ∈ nbrs adj ((x :: xs).getLastD 0) from fun hmem => hcl hmem)]
        simp only [Bool.true_and] at hfind
        by_cases htr : truthy fp = true
        · rw [if_pos htr, ih fp hnetail hfp hfind, if_pos htr, if_pos htr]
        · have hfpn : fp = none := by
            rcases hfp with h | h
            · exact absurd h htr
            · exact h
          subst hfpn
          rw [if_neg htr,
            ih (some (x :: xs)) hnetail (Or.inl (truthy_some (List.cons_ne_nil x xs)))
              hfind,
            if_pos (truthy_some (List.cons_ne_nil x xs)), if_neg htr, List.find?_cons,
            hpath]
    · have hpf := isPathB_false_of_not hpath
      rw [hpf] at hfind
      simp only [Bool.false_and] at hfind
      show (if isPathB adj (x :: xs) = true then _ else _) = _
      rw [if_neg hpath, ih fp hnetail hfp hfind]
      by_cases htr : truthy fp = true
      · rw [if_pos htr, if_pos htr]
      · rw [if_neg htr, if_neg htr, List.find?_cons, hpf]

theorem bruteLoop_cycle (adj : List (Vertex × List Vertex)) (n : Nat) :
    ∀ (L : List (List Vertex)) (fp : Option (List Vertex)) (c : List Vertex),
      (∀ p ∈ L, p ≠ []) → (truthy fp = true ∨ fp = none) →
      L.find? (fun p => isPathB adj p && decide (closesP adj p)) = some c →
      bruteLoop adj n L fp =
        .ok (true,
          (if truthy fp = true then fp else L.find? (fun p => isPathB adj p)),
          true, some (c ++ [c.headI]), n) := by
  intro L
  induction L with
  | nil => intro fp c _ _ hfind; exact Option.noConfusion hfind
  | cons p rest ih =>
    intro fp c hne hfp hfind
    obtain ⟨x, xs, rfl⟩ := List.exists_cons_of_ne_nil (hne p (List.mem_cons_self p rest))
    have hnetail : ∀ q ∈ rest, q ≠ [] := fun q hq => hne q (List.mem_cons_of_mem _ hq)
    rw [List.find?_cons] at hfind
    by_cases hpath : isPathB adj (x :: xs) = true
    · by_cases hcl : closesP adj (x :: xs)
      · rw [hpath, decide_eq_true hcl] at hfind
        injection hfind with hfind
        subst hfind
        show (if isPathB adj (x :: xs) = true then _ else _) = _
        rw [if_pos hpath, if_pos (show x ∈ nbrs adj ((x :: xs).getLastD 0) from hcl)]
        rw [List.find?_cons, hpath]
        rfl
      · rw [hpath, decide_eq_false hcl] at hfind
        simp only [Bool.true_and] at hfind
        show (if isPathB adj (x :: xs) = true then _ else _) = _
        rw [if_pos hpath,
          if_neg (show ¬ x ∈ nbrs adj ((x :: xs).getLastD 0) from fun hmem => hcl hmem)]
        by_cases htr : truthy fp = true
        · rw [if_pos htr, ih fp c hnetail hfp hfind, if_pos htr, if_pos htr]
        · have hfpn : fp = none := by
            rcases hfp with h | h
            · exact absurd h htr
            · exact h
          subst hfpn
          rw [if_neg htr,
            ih (some (x :: xs)) c hnetail (Or.inl (truthy_some (List.cons_ne_nil x xs)))
              hfind,
            if_pos (truthy_some (List.cons_ne_nil x xs)), if_neg htr, List.find?_cons,
            hpath]
    · have hpf := isPathB_false_of_not hpath
      rw [hpf] at hfind
      simp only [Bool.false_and] at hfind
      show (if isPathB adj (x :: xs) = true then _ else _) = _
      rw [if_neg hpath, ih fp c hnetail hfp hfind]
      by_cases htr : truthy fp = true
      · rw [if_pos htr, if_pos htr]
      · rw [if_neg htr, if_neg htr, List.find?_cons, hpf]

theorem permsLex_sorted_mem {vertices : List Vertex} (p : List Vertex) :
    p ∈ permsLex (vertices.insertionSort (fun a b => a ≤ b)) ↔ p.Perm vertices :=
  mem_permsLex.trans
    ⟨fun h => h.trans (List.perm_insertionSort _ vertices),
     fun h => h.trans (List.perm_insertionSort _ vertices).symm⟩

theorem permsLex_sorted_pairwise {vertices : List Vertex} (hnd : vertices.Nodup) :
    (permsLex (vertices.insertionSort (fun a b => a ≤ b))).Pairwise
      (List.Lex (· < ·)) := by
  apply permsLex_pairwise_lex
  have hs : (vertices.insertionSort (fun a b => a ≤ b)).Pairwise (fun a b => a ≤ b) :=
    List.sorted_insertionSort _ vertices
  have hnd' : (vertices.insertionSort (fun a b => a ≤ b)).Nodup :=
    hnd.perm (List.perm_insertionSort _ vertices).symm
  exact (hs.and hnd').imp (fun h => lt_of_le_of_ne h.1 h.2)

theorem permsLex_sorted_ne_nil {vertices : List Vertex} (hne : vertices ≠ [])
    {p : List Vertex}
    (hp : p ∈ permsLex (vertices.insertionSort (fun a b => a ≤ b))) : p ≠ [] := by
  intro h
  subst h
  exact hne (List.perm_nil.mp ((permsLex_sorted_mem []).mp hp).symm)

/-- C3: for every non-empty vertex set (no duplicates, being a set),
`hamilton_bruteforce` returns: if some permutation is a valid Hamiltonian path
whose last vertex is adjacent to its first, `(true, path, true, cycle, n)`
where `cycle` is the lexicographically-first such closing permutation with its
start vertex appended and `path` is the lexicographically-first valid path
permutation (witnesses once set are never replaced, and enumeration stops at
the first closing permutation); if valid paths exist but none closes,
`(true, lexicographically-first path, false, absent, 0)`; and if no
permutation is a valid path, `(false, absent, false, absent, 0)`. -/
theorem C3_hamilton_bruteforce_lex_first (vertices : List Vertex)
    (edges : List (Vertex × Vertex)) (hnd : vertices.Nodup) (hne : vertices ≠ []) :
    ((∃ p, p.Perm vertices ∧ isPathPerm (build_adj_set vertices edges) p ∧
        closesP (build_adj_set vertices edges) p) →
      ∃ fp fc,
        hamilton_bruteforce vertices edges =
          .ok (true, some fp, true, some (fc ++ [fc.headI]), vertices.length) ∧
        fp.Perm vertices ∧ isPathPerm (build_adj_set vertices edges) fp ∧
        (∀ q, q.Perm vertices → isPathPerm (build_adj_set vertices edges) q →
          fp = q ∨ List.Lex (· < ·) fp q) ∧
        fc.Perm vertices ∧ isPathPerm (build_adj_set vertices edges) fc ∧
        closesP (build_adj_set vertices edges) fc ∧
        (∀ q, q.Perm vertices → isPathPerm (build_adj_set vertices edges) q →
          closesP (build_adj_set vertices edges) q →
          fc = q ∨ List.Lex (· < ·) fc q)) ∧
    ((¬ ∃ p, p.Perm vertices ∧ isPathPerm (build_adj_set vertices edges) p ∧
        closesP (build_adj_set vertices edges) p) →
      (∃ p, p.Perm vertices ∧ isPathPerm (build_adj_set vertices edges) p) →
      ∃ fp,
        hamilton_bruteforce vertices edges = .ok (true, some fp, false, none, 0) ∧
        fp.Perm vertices ∧ isPathPerm (build_adj_set vertices edges) fp ∧
        (∀ q, q.Perm vertices → isPathPerm (build_adj_set vertices edges) q →
          fp = q ∨ List.Lex (· < ·) fp q)) ∧
    ((¬ ∃ p, p.Perm vertices ∧ isPathPerm (build_adj_set vertices edges) p) →
      hamilton_bruteforce vertices edges = .ok (false, none, false, none, 0)) := by
  have hLne : ∀ p ∈ permsLex (vertices.insertionSort (fun a b => a ≤ b)), p ≠ [] :=
    fun p hp => permsLex_sorted_ne_nil hne hp
  have hpair := permsLex_sorted_pairwise hnd
  refine ⟨?_, ?_, ?_⟩
  · rintro ⟨p, hperm, hpath, hcl⟩
    have hpcsome : ∃ c,
        (permsLex (vertices.insertionSort (fun a b => a ≤ b))).find?
          (fun q => isPathB (build_adj_set vertices edges) q &&
            decide (closesP (build_adj_set vertices edges) q)) = some c := by
      rw [← Option.isSome_iff_exists, List.find?_isSome]
      exact ⟨p, (permsLex_sorted_mem p).mpr hperm,
        by rw [isPathB_iff.mpr hpath, decide_eq_true hcl]; rfl⟩
    obtain ⟨fc, hfc⟩ := hpcsome
    have hppsome : ∃ w,
        (permsLex (vertices.insertionSort (fun a b => a ≤ b))).find?
          (fun q => isPathB (build_adj_set vertices edges) q) = some w := by
      rw [← Option.isSome_iff_exists, List.find?_isSome]
      exact ⟨p, (permsLex_sorted_mem p).mpr hperm, isPathB_iff.mpr hpath⟩
    obtain ⟨fp, hfp⟩ := hppsome
    refine ⟨fp, fc, ?_, ?_, ?_, ?_, ?_, ?_, ?_, ?_⟩
    · show bruteLoop _ _ _ _ = _
      rw [bruteLoop_cycle _ _ _ none fc hLne (Or.inr rfl) hfc,
        if_neg (show ¬ truthy none = true from Bool.noConfusion), hfp]
    · exact (permsLex_sorted_mem fp).mp (List.mem_of_find?_eq_some hfp)
    · exact isPathB_iff.mp (List.find?_some hfp)
    · intro q hq hqpath
      rcases find?_min hpair hfp q ((permsLex_sorted_mem q).mpr hq)
          (isPathB_iff.mpr hqpath) with h | h
      · exact Or.inl h.symm
      · exact Or.inr h
    · exact (permsLex_sorted_mem fc).mp (List.mem_of_find?_eq_some hfc)
    · have := List.find?_some hfc
      rw [Bool.and_eq_true] at this
      exact isPathB_iff.mp this.1
    · have := List.find?_some hfc
      rw [Bool.and_eq_true] at this
      exact of_decide_eq_true this.2
    · intro q hq hqpath hqcl
      rcases find?_min hpair hfc q ((permsLex_sorted_mem q).mpr hq)
          (by rw [isPathB_iff.mpr hqpath, decide_eq_true hqcl]; rfl) with h | h
      · exact Or.inl h.symm
      · exact Or.inr h
  · intro hnA hB
    obtain ⟨p, hperm, hpath⟩ := hB
    have hfcnone :
        (permsLex (vertices.insertionSort (fun a b => a ≤ b))).find?
          (fun q => isPathB (build_adj_set vertices edges) q &&
            decide (closesP (build_adj_set vertices edges) q)) = none := by
      cases hfc : (permsLex (vertices.insertionSort (fun a b => a ≤ b))).find?
          (fun q => isPathB (build_adj_set vertices edges) q &&
            decide (closesP (build_adj_set vertices edges) q)) with
      | none => rfl
      | some c =>
        exfalso
        have hc := List.find?_some hfc
        rw [Bool.and_eq_true] at hc
        exact hnA ⟨c, (permsLex_sorted_mem c).mp (List.mem_of_find?_eq_some hfc),
          isPathB_iff.mp hc.1, of_decide_eq_true hc.2⟩
    have hppsome : ∃ w,
        (permsLex (vertices.insertionSort (fun a b => a ≤ b))).find?
          (fun q => isPathB (build_adj_set vertices edges) q) = some w := by
      rw [← Option.isSome_iff_exists, List.find?_isSome]
      exact ⟨p, (permsLex_sorted_mem p).mpr hperm, isPathB_iff.mpr hpath⟩
    obtain ⟨fp, hfp⟩ := hppsome
    refine ⟨fp, ?_, ?_, ?_, ?_⟩
    · show bruteLoop _ _ _ _ = _
      rw [bruteLoop_no_cycle _ _ _ none hLne (Or.inr rfl) hfcnone,
        if_neg (show ¬ truthy none = true from Bool.noConfusion), hfp]
      rfl
    · exact (permsLex_sorted_mem fp).mp (List.mem_of_find?_eq_some hfp)
    · exact isPathB_iff.mp (List.find?_some hfp)
    · intro q hq hqpath
      rcases find?_min hpair hfp q ((permsLex_sorted_mem q).mpr hq)
          (isPathB_iff.mpr hqpath) with h | h
      · exact Or.inl h.symm
      · exact Or.inr h
  · intro hnB
    have hfcnone :
        (permsLex (vertices.insertionSort (fun a b => a ≤ b))).find?
          (fun q => isPathB (build_adj_set vertices edges) q &&
            decide (closesP (build_adj_set vertices edges) q)) = none := by
      cases hfc : (permsLex (vertices.insertionSort (fun a b => a ≤ b))).find?
          (fun q => isPathB (build_adj_set vertices edges) q &&
            decide (closesP (build_adj_set vertices edges) q)) with
      | none => rfl
      | some c =>
        exfalso
        have hc := List.find?_some hfc
        rw [Bool.and_eq_true] at hc
        exact hnB ⟨c, (permsLex_sorted_mem c).mp (List.mem_of_find?_eq_some hfc),
          isPathB_iff.mp hc.1⟩
    have hppnone :
        (permsLex (vertices.insertionSort (fun a b => a ≤ b))).find?
          (fun q => isPathB (build_adj_set vertices edges) q) = none := by
      cases hfp : (permsLex (vertices.insertionSort (fun a b => a ≤ b))).find?
          (fun q => isPathB (build_adj_set vertices edges) q) with
      | none => rfl
      | some w =>
        exfalso
        exact hnB ⟨w, (permsLex_sorted_mem w).mp (List.mem_of_find?_eq_some hfp),
          isPathB_iff.mp (List.find?_some hfp)⟩
    show bruteLoop _ _ _ _ = _
    rw [bruteLoop_no_cycle _ _ _ none hLne (Or.inr rfl) hfcnone,
      if_neg (show ¬ truthy none = true from Bool.noConfusion), hppnone]
    rfl

/-- Witness for C3 at the triangle graph on `{1, 2, 3}`. -/
theorem C3_hamilton_bruteforce_lex_first_witness :
    (([1, 2, 3] : List Vertex).Nodup ∧ ([1, 2, 3] : List Vertex) ≠ []) ∧
    ((∃ p, p.Perm ([1, 2, 3] : List Vertex) ∧
        isPathPerm (build_adj_set [1, 2, 3] [(1, 2), (2, 3), (3, 1)]) p ∧
        closesP (build_adj_set [1, 2, 3] [(1, 2), (2, 3), (3, 1)]) p) →
      ∃ fp fc,
        hamilton_bruteforce [1, 2, 3] [(1, 2), (2, 3), (3, 1)] =
          .ok (true, some fp, true, some (fc ++ [fc.headI]), 3) ∧
        fp.Perm [1, 2, 3] ∧
        isPathPerm (build_adj_set [1, 2, 3] [(1, 2), (2, 3), (3, 1)]) fp ∧
        (∀ q, q.Perm [1, 2, 3] →
          isPathPerm (build_adj_set [1, 2, 3] [(1, 2), (2, 3), (3, 1)]) q →
          fp = q ∨ List.Lex (· < ·) fp q) ∧
        fc.Perm [1, 2, 3] ∧
        isPathPerm (build_adj_set [1, 2, 3] [(1, 2), (2, 3), (3, 1)]) fc ∧
        closesP (build_adj_set [1, 2, 3] [(1, 2), (2, 3), (3, 1)]) fc ∧
        (∀ q, q.Perm [1, 2, 3] →
          isPathPerm (build_adj_set [1, 2, 3] [(1, 2), (2, 3), (3, 1)]) q →
          closesP (build_adj_set [1, 2, 3] [(1, 2), (2, 3), (3, 1)]) q →
          fc = q ∨ List.Lex (· < ·) fc q)) :=
  ⟨⟨by decide, by decide⟩,
    (C3_hamilton_bruteforce_lex_first [1, 2, 3] [(1, 2), (2, 3), (3, 1)]
      (by decide) (by decide)).1⟩

/-! ## The `hamilton_backtracking` search state -/

theorem hbCycleUpd_foundPath (adj : List (Vertex × List Vertex)) (n : Nat)
    (path : List Vertex) (cur : Vertex) (st : HBState) :
    (hbCycleUpd adj n path cur st).foundPath = st.foundPath := by
  unfold hbCycleUpd
  split <;> rfl

theorem hbCycleUpd_largest_mono (adj : List (Vertex × List Vertex)) (n : Nat)
    (path : List Vertex) (cur : Vertex) (st : HBState) :
    st.largestCycle ≤ (hbCycleUpd adj n path cur st).largestCycle := by
  unfold hbCycleUpd
  split
  · show st.largestCycle ≤ if st.largestCycle < path.length then path.length
      else st.largestCycle
    split <;> omega
  · exact Nat.le_refl _

theorem hbPathUpd_foundCycle (n : Nat) (path : List Vertex) (st : HBState) :
    (hbPathUpd n path st).foundCycle = st.foundCycle := by
  unfold hbPathUpd
  split <;> rfl

theorem hbPathUpd_largest (n : Nat) (path : List Vertex) (st : HBState) :
    (hbPathUpd n path st).largestCycle = st.largestCycle := by
  unfold hbPathUpd
  split <;> rfl

theorem hbPathUpd_foundPath_stable {n : Nat} {path : List Vertex} {st : HBState}
    (h : truthy st.foundPath = true) : (hbPathUpd n path st).foundPath = st.foundPath := by
  unfold hbPathUpd
  rw [if_neg]
  rintro ⟨-, hcon⟩
  rw [h] at hcon
  exact Bool.noConfusion hcon

theorem hbCycleUpd_foundCycle_stable {adj : List (Vertex × List Vertex)} {n : Nat}
    {path : List Vertex} {cur : Vertex} {st : HBState}
    (h : truthy st.foundCycle = true) :
    (hbCycleUpd adj n path cur st).foundCycle = st.foundCycle := by
  unfold hbCycleUpd
  split
  · show (if path.length = n ∧ truthy st.foundCycle = false then _ else _) = _
    rw [if_neg]
    rintro ⟨-, hcon⟩
    rw [h] at hcon
    exact Bool.noConfusion hcon
  · rfl

theorem hbVisit_foundPath_stable {adj : List (Vertex × List Vertex)} {n : Nat}
    {path : List Vertex} {cur : Vertex} {st : HBState}
    (h : truthy st.foundPath = true) :
    (hbVisit adj n path cur st).foundPath = st.foundPath := by
  unfold hbVisit
  rw [hbPathUpd_foundPath_stable (by rw [hbCycleUpd_foundPath]; exact h),
    hbCycleUpd_foundPath]

theorem hbVisit_foundCycle_stable {adj : List (Vertex × List Vertex)} {n : Nat}
    {path : List Vertex} {cur : Vertex} {st : HBState}
    (h : truthy st.foundCycle = true) :
    (hbVisit adj n path cur st).foundCycle = st.foundCycle := by
  unfold hbVisit
  rw [hbPathUpd_foundCycle, hbCycleUpd_foundCycle_stable h]

theorem foldl_hb_preserve {α : Type} (P : HBState → Prop) {f : HBState → α → HBState} :
    ∀ (l : List α) (st : HBState), P st → (∀ st' a, a ∈ l → P st' → P (f st' a)) →
      P (l.foldl f st)
  | [], _, hst, _ => hst
  | a :: l, st, hst, hf =>
    foldl_hb_preserve P l (f st a) (hf st a (List.mem_cons_self a l) hst)
      (fun st' b hb => hf st' b (List.mem_cons_of_mem a hb))

theorem findPath_foundPath_stable (adj : List (Vertex × List Vertex)) (n : Nat) :
    ∀ (fuel : Nat) (path0 : List Vertex) (cur : Vertex) (st : HBState),
      truthy st.foundPath = true →
      (findPath adj n fuel path0 cur st).foundPath = st.foundPath := by
  intro fuel
  induction fuel with
  | zero => intro path0 cur st _; rfl
  | succ fuel ih =>
    intro path0 cur st h
    rw [findPath]
    split
    · exact hbVisit_foundPath_stable h
    · have hP : ∀ s : HBState, s.foundPath = st.foundPath →
          ((nbrs adj cur).foldl
            (fun st' nb =>
              if nb ∈ path0 ++ [cur] then st'
              else findPath adj n fuel (path0 ++ [cur]) nb st')
            s).foundPath = st.foundPath := by
        intro s hs
        refine foldl_hb_preserve (fun t => t.foundPath = st.foundPath) _ s hs ?_
        intro st' nb _ hst'
        split
        · exact hst'
        · rw [ih (path0 ++ [cur]) nb st' (by rw [hst']; exact h)]
          exact hst'
      exact hP _ (hbVisit_foundPath_stable h)

theorem findPath_foundCycle_stable (adj : List (Vertex × List Vertex)) (n : Nat) :
    ∀ (fuel : Nat) (path0 : List Vertex) (cur : Vertex) (st : HBState),
      truthy st.foundCycle = true →
      (findPath adj n fuel path0 cur st).foundCycle = st.foundCycle := by
  intro fuel
  induction fuel with
  | zero => intro path0 cur st _; rfl
  | succ fuel ih =>
    intro path0 cur st h
    rw [findPath]
    split
    · exact hbVisit_foundCycle_stable h
    · have hP : ∀ s : HBState, s.foundCycle = st.foundCycle →
          ((nbrs adj cur).foldl
            (fun st' nb =>
              if nb ∈ path0 ++ [cur] then st'
              else findPath adj n fuel (path0 ++ [cur]) nb st')
            s).foundCycle = st.foundCycle := by
        intro s hs
        refine foldl_hb_preserve (fun t => t.foundCycle = st.foundCycle) _ s hs ?_
        intro st' nb _ hst'
        split
        · exact hst'
        · rw [ih (path0 ++ [cur]) nb st' (by rw [hst']; exact h)]
          exact hst'
      exact hP _ (hbVisit_foundCycle_stable h)

theorem chain'_append_single {adj : List (Vertex × List Vertex)} {l : List Vertex}
    {b : Vertex} :
    isPathPerm adj (l ++ [b]) ↔
      isPathPerm adj l ∧ ∀ x ∈ l.getLast?, b ∈ nbrs adj x := by
  unfold isPathPerm
  rw [List.chain'_append]
  simp [List.chain'_singleton]

theorem hbCycleUpd_sound {adj : List (Vertex × List Vertex)} {vertices : List Vertex}
    {n : Nat} {path : List Vertex} {cur : Vertex} {st : HBState}
    (hn : n = vertices.length)
    (hsub : ∀ v ∈ path, v ∈ vertices) (hnodup : path.Nodup)
    (hchain : isPathPerm adj path) (hlast : path.getLastD 0 = cur)
    (hsound : HBSound adj vertices n st) :
    HBSound adj vertices n (hbCycleUpd adj n path cur st) := by
  obtain ⟨hsp, hsc, hlcn, hlc03, hcn⟩ := hsound
  have hlen_le : path.length ≤ n := by
    rw [hn]
    exact (List.subperm_of_subset hnodup hsub).length_le
  have hperm_of_len : path.length = n → path.Perm vertices := by
    intro hl
    exact (List.subperm_of_subset hnodup hsub).perm_of_length_le (by omega)
  unfold hbCycleUpd
  by_cases h1 : 3 ≤ path.length ∧ path.headI ∈ nbrs adj cur
  · rw [if_pos h1]
    refine ⟨?_, ?_, ?_, ?_, ?_⟩
    · intro p hp
      exact hsp p hp
    · intro c hc
      change (if path.length = n ∧ truthy st.foundCycle = false then
          some (path ++ [path.headI]) else st.foundCycle) = some c at hc
      by_cases h2 : path.length = n ∧ truthy st.foundCycle = false
      · rw [if_pos h2] at hc
        injection hc with hc
        refine ⟨path, hperm_of_len h2.1, hchain, ?_, h1.1, hc.symm⟩
        show path.headI ∈ nbrs adj (path.getLastD 0)
        rw [hlast]
        exact h1.2
      · rw [if_neg h2] at hc
        exact hsc c hc
    · show (if st.largestCycle < path.length then path.length else st.largestCycle) ≤ n
      split <;> omega
    · show (if st.largestCycle < path.length then path.length else st.largestCycle) = 0 ∨
        3 ≤ (if st.largestCycle < path.length then path.length else st.largestCycle)
      split
      · exact Or.inr h1.1
      · exact hlc03
    · intro htr
      show (if st.largestCycle < path.length then path.length else st.largestCycle) = n
      by_cases h2 : path.length = n ∧ truthy st.foundCycle = false
      · split <;> omega
      · have htr' : truthy st.foundCycle = true := by
          revert htr
          show truthy (if path.length = n ∧ truthy st.foundCycle = false then
            some (path ++ [path.headI]) else st.foundCycle) = true → _
          rw [if_neg h2]
          exact id
        have := hcn htr'
        split <;> omega
  · rw [if_neg h1]
    exact ⟨hsp, hsc, hlcn, hlc03, hcn⟩

theorem hbPathUpd_sound {adj : List (Vertex × List Vertex)} {vertices : List Vertex}
    {n : Nat} {path : List Vertex} {st : HBState}
    (hn : n = vertices.length)
    (hsub : ∀ v ∈ path, v ∈ vertices) (hnodup : path.Nodup)
    (hchain : isPathPerm adj path)
    (hsound : HBSound adj vertices n st) :
    HBSound adj vertices n (hbPathUpd n path st) := by
  obtain ⟨hsp, hsc, hlcn, hlc03, hcn⟩ := hsound
  unfold hbPathUpd
  by_cases h2 : path.length = n ∧ truthy st.foundPath = false
  · rw [if_pos h2]
    refine ⟨?_, hsc, hlcn, hlc03, hcn⟩
    intro p hp
    injection hp with hp
    subst hp
    exact ⟨(List.subperm_of_subset hnodup hsub).perm_of_length_le
      (by rw [← hn, h2.1]), hchain⟩
  · rw [if_neg h2]
    exact ⟨hsp, hsc, hlcn, hlc03, hcn⟩

theorem hbVisit_sound {adj : List (Vertex × List Vertex)} {vertices : List Vertex}
    {n : Nat} {path : List Vertex} {cur : Vertex} {st : HBState}
    (hn : n = vertices.length)
    (hsub : ∀ v ∈ path, v ∈ vertices) (hnodup : path.Nodup)
    (hchain : isPathPerm adj path) (hlast : path.getLastD 0 = cur)
    (hsound : HBSound adj vertices n st) :
    HBSound adj vertices n (hbVisit adj n path cur st) :=
  hbPathUpd_sound hn hsub hnodup hchain
    (hbCycleUpd_sound hn hsub hnodup hchain hlast hsound)

theorem findPath_sound {adj : List (Vertex × List Vertex)} {vertices : List Vertex}
    {n : Nat} (hn : n = vertices.length)
    (hadj : ∀ a b, b ∈ nbrs adj a → b ∈ vertices) :
    ∀ (fuel : Nat) (path0 : List Vertex) (cur : Vertex) (st : HBState),
      (∀ v ∈ path0 ++ [cur], v ∈ vertices) → (path0 ++ [cur]).Nodup →
      isPathPerm adj (path0 ++ [cur]) →
      HBSound adj vertices n st →
      HBSound adj vertices n (findPath adj n fuel path0 cur st) := by
  intro fuel
  induction fuel with
  | zero => intro path0 cur st _ _ _ hsound; exact hsound
  | succ fuel ih =>
    intro path0 cur st hsub hnodup hchain hsound
    have hvisit := hbVisit_sound hn hsub hnodup hchain
      (List.getLastD_concat 0 cur path0) hsound
    rw [findPath]
    split
    · exact hvisit
    · refine foldl_hb_preserve (HBSound adj vertices n) _ _ hvisit ?_
      intro st' nb hnb hst'
      split
      · exact hst'
      · rename_i hnotin
        refine ih (path0 ++ [cur]) nb st' ?_ ?_ ?_ hst'
        · intro v hv
          rcases List.mem_append.mp hv with hv | hv
          · exact hsub v hv
          · rw [List.mem_singleton] at hv
            subst hv
            exact hadj cur v hnb
        · rw [List.nodup_append]
          exact ⟨hnodup, List.nodup_singleton nb,
            fun a ha hb => by
              rw [List.mem_singleton] at hb
              subst hb
              exact hnotin ha⟩
        · rw [chain'_append_single]
          refine ⟨hchain, ?_⟩
          intro x hx
          rw [List.getLast?_eq_getLast _ (by simp), List.getLast_append] at hx
          injection hx with hx
          subst hx
          exact hnb

theorem hbOuter_sound (vertices : List Vertex) (edges : List (Vertex × Vertex)) :
    HBSound (build_adj_set vertices edges) vertices vertices.length
      (hbOuter (build_adj_set vertices edges) vertices.length vertices) := by
  unfold hbOuter
  refine foldl_hb_preserve (HBSound (build_adj_set vertices edges) vertices
    vertices.length) _ _
    ⟨fun p hp => Option.noConfusion hp, fun c hc => Option.noConfusion hc,
      Nat.zero_le _, Or.inl rfl, fun h => Bool.noConfusion h⟩ ?_
  intro st' s hs hst'
  split
  · refine findPath_sound rfl (fun a b hb => (mem_nbrs_build_vertices hb).2)
      (vertices.length + 1) [] s st' ?_ (by simp) (by simp [isPathPerm]) hst'
    intro v hv
    simp at hv
    subst hv
    exact hs
  · exact hst'

/-- C10: for every vertex set of size `n` and unweighted edge list, the
`largest_cycle_len` returned by `hamilton_backtracking` is either `0` or in
the range `[3, n]`, and whenever the returned `cycle_found` is true,
`largest_cycle_len` equals exactly `n`. -/
theorem C10_largest_cycle_len (vertices : List Vertex) (edges : List (Vertex × Vertex)) :
    ∀ pf p cf c lc, hamilton_backtracking vertices edges = (pf, p, cf, c, lc) →
      (lc = 0 ∨ (3 ≤ lc ∧ lc ≤ vertices.length)) ∧
      (cf = true → lc = vertices.length) := by
  intro pf p cf c lc h
  obtain ⟨-, -, hlcn, hlc03, hcn⟩ := hbOuter_sound vertices edges
  unfold hamilton_backtracking hbResult at h
  simp only [Prod.mk.injEq] at h
  obtain ⟨h1, h2, h3, h4, h5⟩ := h
  constructor
  · rcases hlc03 with h0 | h3le
    · exact Or.inl (h5 ▸ h0)
    · exact Or.inr ⟨h5 ▸ h3le, h5 ▸ hlcn⟩
  · intro hcf
    rw [← h5]
    exact hcn (by rw [h3, hcf])

/-- Witness for C10 at the triangle graph. -/
theorem C10_largest_cycle_len_witness :
    (true, some ([1, 2, 3] : List Vertex), true, some ([1, 2, 3, 1] : List Vertex), 3) =
      hamilton_backtracking [1, 2, 3] [(1, 2), (2, 3), (3, 1)] ∧
    ((3 : Nat) = 0 ∨ (3 ≤ 3 ∧ 3 ≤ ([1, 2, 3] : List Vertex).length)) ∧
    (true = true → (3 : Nat) = ([1, 2, 3] : List Vertex).length) :=
  ⟨by decide,
    C10_largest_cycle_len [1, 2, 3] [(1, 2), (2, 3), (3, 1)] true (some [1, 2, 3]) true
      (some [1, 2, 3, 1]) 3 (by decide)⟩

theorem headI_append_of_ne_nil (l l' : List Vertex) (h : l ≠ []) :
    (l ++ l').headI = l.headI := by
  cases l with
  | nil => exact absurd rfl h
  | cons a t => rfl

theorem hbVisit_sets_path {adj : List (Vertex × List Vertex)} {n : Nat}
    {path : List Vertex} {cur : Vertex} {st : HBState}
    (hne : path ≠ []) (hlen : path.length = n) :
    truthy (hbVisit adj n path cur st).foundPath = true := by
  unfold hbVisit hbPathUpd
  by_cases hc : path.length = n ∧ truthy (hbCycleUpd adj n path cur st).foundPath = false
  · rw [if_pos hc]
    exact truthy_some hne
  · rw [if_neg hc]
    rw [hbCycleUpd_foundPath] at hc ⊢
    by_cases htr : truthy st.foundPath = true
    · exact htr
    · exact absurd ⟨hlen, by revert htr; cases truthy st.foundPath <;> simp⟩ hc

theorem hbVisit_sets_cycle {adj : List (Vertex × List Vertex)} {n : Nat}
    {path : List Vertex} {cur : Vertex} {st : HBState}
    (_hne : path ≠ []) (hlen : path.length = n) (h3 : 3 ≤ n)
    (hmem : path.headI ∈ nbrs adj cur) :
    truthy (hbVisit adj n path cur st).foundCycle = true := by
  unfold hbVisit
  rw [hbPathUpd_foundCycle]
  unfold hbCycleUpd
  rw [if_pos ⟨(by omega : 3 ≤ path.length), hmem⟩]
  show truthy (if path.length = n ∧ truthy st.foundCycle = false then
    some (path ++ [path.headI]) else st.foundCycle) = true
  by_cases h2 : truthy st.foundCycle = false
  · rw [if_pos ⟨hlen, h2⟩]
    exact truthy_some (by simp)
  · rw [if_neg (fun hcon => h2 hcon.2)]
    revert h2
    cases truthy st.foundCycle <;> simp

theorem foldl_step_path_truthy (adj : List (Vertex × List Vertex)) (n fuel : Nat)
    (path : List Vertex) (L : List Vertex) (st : HBState)
    (h : truthy st.foundPath = true) :
    truthy ((L.foldl (fun st' nb => if nb ∈ path then st'
      else findPath adj n fuel path nb st') st).foundPath) = true :=
  foldl_hb_preserve (fun s => truthy s.foundPath = true) L st h
    (fun st' nb _ hst' => by
      split
      · exact hst'
      · rw [findPath_foundPath_stable adj n fuel path nb st' hst']
        exact hst')

theorem foldl_step_cycle_truthy (adj : List (Vertex × List Vertex)) (n fuel : Nat)
    (path : List Vertex) (L : List Vertex) (st : HBState)
    (h : truthy st.foundCycle = true) :
    truthy ((L.foldl (fun st' nb => if nb ∈ path then st'
      else findPath adj n fuel path nb st') st).foundCycle) = true :=
  foldl_hb_preserve (fun s => truthy s.foundCycle = true) L st h
    (fun st' nb _ hst' => by
      split
      · exact hst'
      · rw [findPath_foundCycle_stable adj n fuel path nb st' hst']
        exact hst')

theorem findPath_complete_path (adj : List (Vertex × List Vertex)) (n : Nat) :
    ∀ (fuel : Nat) (path0 : List Vertex) (cur : Vertex) (st : HBState) (ext : List Vertex),
      n + 1 ≤ fuel + (path0 ++ [cur]).length →
      ((path0 ++ [cur]) ++ ext).Nodup →
      isPathPerm adj ((path0 ++ [cur]) ++ ext) →
      ((path0 ++ [cur]) ++ ext).length = n →
      truthy (findPath adj n fuel path0 cur st).foundPath = true := by
  intro fuel
  induction fuel with
  | zero =>
    intro path0 cur st ext hfuel hnd hch hlen
    exfalso
    have h1 : (path0 ++ [cur]).length + ext.length = n := by
      rw [← hlen]
      simp
      omega
    omega
  | succ fuel ih =>
    intro path0 cur st ext hfuel hnd hch hlen
    rw [findPath]
    split
    · rename_i hcond
      exact hcond.1
    · by_cases hPf : truthy (hbVisit adj n (path0 ++ [cur]) cur st).foundPath = true
      · exact foldl_step_path_truthy adj n fuel (path0 ++ [cur]) _ _ hPf
      · cases ext with
        | nil =>
          exact absurd (hbVisit_sets_path (by simp) (by simpa using hlen)) hPf
        | cons x ext' =>
          have hxnb : x ∈ nbrs adj cur := by
            have hch' := hch
            unfold isPathPerm at hch'
            rw [List.chain'_append] at hch'
            exact hch'.2.2 cur (by simp [List.getLast?_concat]) x rfl
          have hxnotin : x ∉ path0 ++ [cur] := by
            rw [List.nodup_append] at hnd
            intro hx
            exact hnd.2.2 hx (List.mem_cons_self x ext')
          have hfold : ∀ (L : List Vertex) (st0 : HBState), x ∈ L →
              truthy ((L.foldl (fun st' nb => if nb ∈ path0 ++ [cur] then st'
                else findPath adj n fuel (path0 ++ [cur]) nb st') st0).foundPath) = true := by
            intro L
            induction L with
            | nil => intro st0 hx; exact absurd hx (List.not_mem_nil x)
            | cons y L' ihL =>
              intro st0 hx
              rw [List.foldl_cons]
              rcases List.mem_cons.mp hx with rfl | hxL'
              · rw [if_neg hxnotin]
                refine foldl_step_path_truthy adj n fuel (path0 ++ [cur]) _ _ ?_
                refine ih (path0 ++ [cur]) x st0 ext' ?_ ?_ ?_ ?_
                · simp only [List.length_append, List.length_cons, List.length_nil] at hfuel ⊢
                  omega
                · rw [List.append_assoc]
                  exact hnd
                · rw [List.append_assoc]
                  exact hch
                · rw [List.append_assoc]
                  exact hlen
              · exact ihL _ hxL'
          exact hfold (nbrs adj cur) _ hxnb

theorem findPath_complete_cycle (adj : List (Vertex × List Vertex)) (n : Nat)
    (h3 : 3 ≤ n) :
    ∀ (fuel : Nat) (path0 : List Vertex) (cur : Vertex) (st : HBState) (ext : List Vertex),
      n + 1 ≤ fuel + (path0 ++ [cur]).length →
      ((path0 ++ [cur]) ++ ext).Nodup →
      isPathPerm adj ((path0 ++ [cur]) ++ ext) →
      ((path0 ++ [cur]) ++ ext).length = n →
      (path0 ++ [cur]).headI ∈ nbrs adj (((path0 ++ [cur]) ++ ext).getLastD 0) →
      truthy (findPath adj n fuel path0 cur st).foundCycle = true := by
  intro fuel
  induction fuel with
  | zero =>
    intro path0 cur st ext hfuel hnd hch hlen hclose
    exfalso
    have h1 : (path0 ++ [cur]).length + ext.length = n := by
      rw [← hlen]
      simp
      omega
    omega
  | succ fuel ih =>
    intro path0 cur st ext hfuel hnd hch hlen hclose
    rw [findPath]
    split
    · rename_i hcond
      exact hcond.2
    · by_cases hCf : truthy (hbVisit adj n (path0 ++ [cur]) cur st).foundCycle = true
      · exact foldl_step_cycle_truthy adj n fuel (path0 ++ [cur]) _ _ hCf
      · cases ext with
        | nil =>
          refine absurd (hbVisit_sets_cycle (by simp) (by simpa using hlen) h3 ?_) hCf
          have := hclose
          rw [List.append_nil, List.getLastD_concat] at this
          exact this
        | cons x ext' =>
          have hxnb : x ∈ nbrs adj cur := by
            have hch' := hch
            unfold isPathPerm at hch'
            rw [List.chain'_append] at hch'
            exact hch'.2.2 cur (by simp [List.getLast?_concat]) x rfl
          have hxnotin : x ∉ path0 ++ [cur] := by
            rw [List.nodup_append] at hnd
            intro hx
            exact hnd.2.2 hx (List.mem_cons_self x ext')
          have hfold : ∀ (L : List Vertex) (st0 : HBState), x ∈ L →
              truthy ((L.foldl (fun st' nb => if nb ∈ path0 ++ [cur] then st'
                else findPath adj n fuel (path0 ++ [cur]) nb st') st0).foundCycle) = true := by
            intro L
            induction L with
            | nil => intro st0 hx; exact absurd hx (List.not_mem_nil x)
            | cons y L' ihL =>
              intro st0 hx
              rw [List.foldl_cons]
              rcases List.mem_cons.mp hx with rfl | hxL'
              · rw [if_neg hxnotin]
                refine foldl_step_cycle_truthy adj n fuel (path0 ++ [cur]) _ _ ?_
                refine ih (path0 ++ [cur]) x st0 ext' ?_ ?_ ?_ ?_ ?_
                · simp only [List.length_append, List.length_cons, List.length_nil] at hfuel ⊢
                  omega
                · rw [List.append_assoc]
                  exact hnd
                · rw [List.append_assoc]
                  exact hch
                · rw [List.append_assoc]
                  exact hlen
                · rw [headI_append_of_ne_nil (path0 ++ [cur]) [x] (by simp),
                    List.append_assoc]
                  exact hclose
              · exact ihL _ hxL'
          exact hfold (nbrs adj cur) _ hxnb

theorem foldl_outer_path_truthy (adj : List (Vertex × List Vertex)) (n : Nat)
    (L : List Vertex) (st : HBState) (h : truthy st.foundPath = true) :
    truthy ((L.foldl (fun st startNode =>
      if truthy st.foundPath = false ∨ truthy st.foundCycle = false then
        findPath adj n (n + 1) [] startNode st
      else st) st).foundPath) = true :=
  foldl_hb_preserve (fun s => truthy s.foundPath = true) L st h
    (fun st' v _ hst' => by
      split
      · rw [findPath_foundPath_stable adj n (n + 1) [] v st' hst']
        exact hst'
      · exact hst')

theorem foldl_outer_cycle_truthy (adj : List (Vertex × List Vertex)) (n : Nat)
    (L : List Vertex) (st : HBState) (h : truthy st.foundCycle = true) :
    truthy ((L.foldl (fun st startNode =>
      if truthy st.foundPath = false ∨ truthy st.foundCycle = false then
        findPath adj n (n + 1) [] startNode st
      else st) st).foundCycle) = true :=
  foldl_hb_preserve (fun s => truthy s.foundCycle = true) L st h
    (fun st' v _ hst' => by
      split
      · rw [findPath_foundCycle_stable adj n (n + 1) [] v st' hst']
        exact hst'
      · exact hst')

theorem hbOuter_complete_path {adj : List (Vertex × List Vertex)}
    {vertices : List Vertex} (hnd : vertices.Nodup) {q : List Vertex}
    (hq : q.Perm vertices) (hch : isPathPerm adj q) (hqne : q ≠ []) :
    truthy (hbOuter adj vertices.length vertices).foundPath = true := by
  obtain ⟨s, q', rfl⟩ := List.exists_cons_of_ne_nil hqne
  have hs : s ∈ vertices := hq.subset (List.mem_cons_self s q')
  have hqnd : (s :: q').Nodup := hnd.perm hq.symm
  unfold hbOuter
  have hfold : ∀ (L : List Vertex) (st0 : HBState), s ∈ L →
      truthy ((L.foldl (fun st startNode =>
        if truthy st.foundPath = false ∨ truthy st.foundCycle = false then
          findPath adj vertices.length (vertices.length + 1) [] startNode st
        else st) st0).foundPath) = true := by
    intro L
    induction L with
    | nil => intro st0 hx; exact absurd hx (List.not_mem_nil s)
    | cons y L' ihL =>
      intro st0 hx
      rw [List.foldl_cons]
      rcases List.mem_cons.mp hx with rfl | hxL'
      · by_cases hg : truthy st0.foundPath = false ∨ truthy st0.foundCycle = false
        · rw [if_pos hg]
          refine foldl_outer_path_truthy adj vertices.length L' _ ?_
          refine findPath_complete_path adj vertices.length (vertices.length + 1)
            [] s st0 q' (by simp) ?_ ?_ ?_
          · exact hqnd
          · exact hch
          · exact hq.length_eq
        · rw [if_neg hg]
          have hst : truthy st0.foundPath = true := by
            cases htr : truthy st0.foundPath with
            | false => exact absurd (Or.inl htr) hg
            | true => rfl
          exact foldl_outer_path_truthy adj vertices.length L' _ hst
      · exact ihL _ hxL'
  exact hfold vertices _ hs

theorem hbOuter_complete_cycle {adj : List (Vertex × List Vertex)}
    {vertices : List Vertex} (hnd : vertices.Nodup) (h3 : 3 ≤ vertices.length)
    {q : List Vertex} (hq : q.Perm vertices) (hch : isPathPerm adj q)
    (hcl : closesP adj q) :
    truthy (hbOuter adj vertices.length vertices).foundCycle = true := by
  have hqne : q ≠ [] := by
    intro h
    subst h
    rw [List.perm_nil.mp hq.symm] at h3
    simp at h3
  obtain ⟨s, q', rfl⟩ := List.exists_cons_of_ne_nil hqne
  have hs : s ∈ vertices := hq.subset (List.mem_cons_self s q')
  have hqnd : (s :: q').Nodup := hnd.perm hq.symm
  unfold hbOuter
  have hfold : ∀ (L : List Vertex) (st0 : HBState), s ∈ L →
      truthy ((L.foldl (fun st startNode =>
        if truthy st.foundPath = false ∨ truthy st.foundCycle = false then
          findPath adj vertices.length (vertices.length + 1) [] startNode st
        else st) st0).foundCycle) = true := by
    intro L
    induction L with
    | nil => intro st0 hx; exact absurd hx (List.not_mem_nil s)
    | cons y L' ihL =>
      intro st0 hx
      rw [List.foldl_cons]
      rcases List.mem_cons.mp hx with rfl | hxL'
      · by_cases hg : truthy st0.foundPath = false ∨ truthy st0.foundCycle = false
        · rw [if_pos hg]
          refine foldl_outer_cycle_truthy adj vertices.length L' _ ?_
          refine findPath_complete_cycle adj vertices.length h3 (vertices.length + 1)
            [] s st0 q' (by simp) hqnd hch hq.length_eq ?_
          exact hcl
        · rw [if_neg hg]
          have hst : truthy st0.foundCycle = true := by
            cases htr : truthy st0.foundCycle with
            | false => exact absurd (Or.inr htr) hg
            | true => rfl
          exact foldl_outer_cycle_truthy adj vertices.length L' _ hst
      · exact ihL _ hxL'
  exact hfold vertices _ hs

theorem hamilton_backtracking_path_iff {vertices : List Vertex}
    {edges : List (Vertex × Vertex)} (hnd : vertices.Nodup) (hne : vertices ≠ []) :
    truthy (hbOuter (build_adj_set vertices edges) vertices.length
        vertices).foundPath = true ↔
      ∃ q, q.Perm vertices ∧ isPathPerm (build_adj_set vertices edges) q := by
  constructor
  · intro h
    obtain ⟨hsp, -, -, -, -⟩ := hbOuter_sound vertices edges
    cases ho : (hbOuter (build_adj_set vertices edges) vertices.length
        vertices).foundPath with
    | none => rw [ho] at h; exact Bool.noConfusion h
    | some p => exact ⟨p, hsp p ho⟩
  · rintro ⟨q, hq, hch⟩
    refine hbOuter_complete_path hnd hq hch ?_
    intro hq0
    subst hq0
    exact hne (List.perm_nil.mp hq.symm)

theorem hamilton_backtracking_cycle_iff {vertices : List Vertex}
    {edges : List (Vertex × Vertex)} (hnd : vertices.Nodup)
    (h3 : 3 ≤ vertices.length) :
    truthy (hbOuter (build_adj_set vertices edges) vertices.length
        vertices).foundCycle = true ↔
      ∃ q, q.Perm vertices ∧ isPathPerm (build_adj_set vertices edges) q ∧
        closesP (build_adj_set vertices edges) q := by
  constructor
  · intro h
    obtain ⟨-, hsc, -, -, -⟩ := hbOuter_sound vertices edges
    cases ho : (hbOuter (build_adj_set vertices edges) vertices.length
        vertices).foundCycle with
    | none => rw [ho] at h; exact Bool.noConfusion h
    | some c =>
      obtain ⟨p, hp1, hp2, hp3, -, -⟩ := hsc c ho
      exact ⟨p, hp1, hp2, hp3⟩
  · rintro ⟨q, hq, hch, hcl⟩
    exact hbOuter_complete_cycle hnd h3 hq hch hcl

/-- C2 is refuted: on the two-vertex graph `{1, 2}` with the single edge
`(1, 2)` (a graph with at most 8 vertices), `hamilton_bruteforce` reports
`cycle_found = true` (closing `[1, 2, 1]` by reusing the one edge) while
`hamilton_backtracking` reports `cycle_found = false` (its cycle test
requires length at least 3). -/
theorem C2_counterexample :
    hamilton_bruteforce [1, 2] [(1, 2)] =
      .ok (true, some [1, 2], true, some [1, 2, 1], 2) ∧
    hamilton_backtracking [1, 2] [(1, 2)] = (true, some [1, 2], false, none, 0) ∧
    ([1, 2] : List Vertex).length ≤ 8 :=
  ⟨by decide, by decide, by decide⟩

/-- C2 (amended): for every graph with `1 ≤ n ≤ 8` vertices,
`hamilton_bruteforce` succeeds and returns the same `path_found` boolean as
`hamilton_backtracking`; and whenever `3 ≤ n` the two also return the same
`cycle_found` boolean.  (For `n = 0` the brute force raises, and for
`n ∈ {1, 2}` the brute force may report a "cycle" that reuses an edge or a
self-loop while backtracking requires length `≥ 3`.) -/
theorem C2_small_graph_agreement_amended (vertices : List Vertex)
    (edges : List (Vertex × Vertex)) (hnd : vertices.Nodup) (hne : vertices ≠ [])
    (_hn8 : vertices.length ≤ 8) :
    ∃ pf p2 cf c4 lc,
      hamilton_bruteforce vertices edges = .ok (pf, p2, cf, c4, lc) ∧
      pf = (hamilton_backtracking vertices edges).1 ∧
      (3 ≤ vertices.length → cf = (hamilton_backtracking vertices edges).2.2.1) := by
  have hbt1 : (hamilton_backtracking vertices edges).1 =
      truthy (hbOuter (build_adj_set vertices edges) vertices.length
        vertices).foundPath := rfl
  have hbt3 : (hamilton_backtracking vertices edges).2.2.1 =
      truthy (hbOuter (build_adj_set vertices edges) vertices.length
        vertices).foundCycle := rfl
  by_cases hA : ∃ q, q.Perm vertices ∧ isPathPerm (build_adj_set vertices edges) q ∧
      closesP (build_adj_set vertices edges) q
  · obtain ⟨fp, fc, hout, -, -, -, -, -, -, -⟩ :=
      (C3_hamilton_bruteforce_lex_first vertices edges hnd hne).1 hA
    refine ⟨true, some fp, true, some (fc ++ [fc.headI]), vertices.length, hout, ?_, ?_⟩
    · rw [hbt1]
      obtain ⟨q, hq1, hq2, -⟩ := hA
      exact ((hamilton_backtracking_path_iff hnd hne).mpr ⟨q, hq1, hq2⟩).symm
    · intro h3
      rw [hbt3]
      exact ((hamilton_backtracking_cycle_iff hnd h3).mpr hA).symm
  · by_cases hB : ∃ q, q.Perm vertices ∧ isPathPerm (build_adj_set vertices edges) q
    · obtain ⟨fp, hout, -, -, -⟩ :=
        (C3_hamilton_bruteforce_lex_first vertices edges hnd hne).2.1 hA hB
      refine ⟨true, some fp, false, none, 0, hout, ?_, ?_⟩
      · rw [hbt1]
        exact ((hamilton_backtracking_path_iff hnd hne).mpr hB).symm
      · intro h3
        rw [hbt3]
        cases hcy : truthy (hbOuter (build_adj_set vertices edges) vertices.length
            vertices).foundCycle with
        | false => rfl
        | true =>
          exact absurd ((hamilton_backtracking_cycle_iff hnd h3).mp hcy) hA
    · have hout := (C3_hamilton_bruteforce_lex_first vertices edges hnd hne).2.2 hB
      refine ⟨false, none, false, none, 0, hout, ?_, ?_⟩
      · rw [hbt1]
        cases hp : truthy (hbOuter (build_adj_set vertices edges) vertices.length
            vertices).foundPath with
        | false => rfl
        | true =>
          exact absurd ((hamilton_backtracking_path_iff hnd hne).mp hp) hB
      · intro h3
        rw [hbt3]
        cases hcy : truthy (hbOuter (build_adj_set vertices edges) vertices.length
            vertices).foundCycle with
        | false => rfl
        | true =>
          obtain ⟨q, hq1, hq2, -⟩ := (hamilton_backtracking_cycle_iff hnd h3).mp hcy
          exact absurd ⟨q, hq1, hq2⟩ hB

/-- Witness for the amended C2 at the triangle graph. -/
theorem C2_small_graph_agreement_amended_witness :
    (([1, 2, 3] : List Vertex).Nodup ∧ ([1, 2, 3] : List Vertex) ≠ [] ∧
      ([1, 2, 3] : List Vertex).length ≤ 8) ∧
    ∃ pf p2 cf c4 lc,
      hamilton_bruteforce [1, 2, 3] [(1, 2), (2, 3), (3, 1)] =
        .ok (pf, p2, cf, c4, lc) ∧
      pf = (hamilton_backtracking [1, 2, 3] [(1, 2), (2, 3), (3, 1)]).1 ∧
      (3 ≤ ([1, 2, 3] : List Vertex).length →
        cf = (hamilton_backtracking [1, 2, 3] [(1, 2), (2, 3), (3, 1)]).2.2.1) :=
  ⟨⟨by decide, by decide, by decide⟩,
    C2_small_graph_agreement_amended [1, 2, 3] [(1, 2), (2, 3), (3, 1)]
      (by decide) (by decide) (by decide)⟩

/-! ## Weights along paths in the weighted adjacency -/

theorem lookupW_of_dictGet {adj : WAdj} {u : Vertex} {inner : List (Vertex × Nat)}
    (h : dictGet adj u = .ok inner) : ∀ v, lookupW adj u v = innerGet inner v := by
  intro v
  unfold dictGet at h
  unfold lookupW
  cases hf : adj.find? (fun e => e.1 == u) with
  | none => rw [hf] at h; exact Except.noConfusion h
  | some e =>
    rw [hf] at h
    injection h with h
    show innerGet e.2 v = innerGet inner v
    rw [h]

theorem listWeight_cons_cons (adj : WAdj) (a b : Vertex) (t : List Vertex) :
    listWeight adj (a :: b :: t) =
      match lookupW adj a b with
      | some wt => (listWeight adj (b :: t)).map (fun c => wt + c)
      | none => none := rfl

theorem getLastD_ne_nil {l : List Vertex} (h : l ≠ []) (d d' : Vertex) :
    l.getLastD d = l.getLastD d' := by
  rw [List.getLastD_eq_getLast?, List.getLastD_eq_getLast?, List.getLast?_eq_getLast l h]
  rfl

theorem getLast?_eq_getLastD {l : List Vertex} (h : l ≠ []) :
    l.getLast? = some (l.getLastD 0) := by
  rw [List.getLastD_eq_getLast?, List.getLast?_eq_getLast l h]
  rfl

theorem getLastD_mem {l : List Vertex} (h : l ≠ []) (d : Vertex) : l.getLastD d ∈ l := by
  rw [List.getLastD_eq_getLast?, List.getLast?_eq_getLast l h]
  exact List.getLast_mem h

theorem listWeight_concat_of {adj : WAdj} :
    ∀ {path : List Vertex} {x : Vertex} {w wt : Nat}, path ≠ [] →
      listWeight adj path = some w → lookupW adj (path.getLastD 0) x = some wt →
      listWeight adj (path ++ [x]) = some (w + wt) := by
  intro path
  induction path with
  | nil => intro x w wt h; exact absurd rfl h
  | cons a t ih =>
    intro x w wt _ hw hl
    cases t with
    | nil =>
      injection hw with hw
      subst hw
      show listWeight adj [a, x] = some (0 + wt)
      rw [listWeight_cons_cons]
      have : lookupW adj a x = some wt := hl
      rw [this]
      show some (wt + 0) = some (0 + wt)
      rw [Nat.add_comm]
    | cons b t' =>
      have hw' := hw
      rw [listWeight_cons_cons] at hw'
      cases hab : lookupW adj a b with
      | none => rw [hab] at hw'; exact Option.noConfusion hw'
      | some w1 =>
        rw [hab] at hw'
        cases hbt : listWeight adj (b :: t') with
        | none => rw [hbt] at hw'; exact Option.noConfusion hw'
        | some w2 =>
          rw [hbt] at hw'
          injection hw' with hw'
          have hl' : lookupW adj ((b :: t').getLastD 0) x = some wt := by
            have : (a :: b :: t').getLastD 0 = (b :: t').getLastD 0 := by
              rw [List.getLastD_cons]
              exact getLastD_ne_nil (List.cons_ne_nil b t') a 0
            rw [← this]
            exact hl
          have hrec := ih (List.cons_ne_nil b t') hbt hl'
          show listWeight adj (a :: b :: (t' ++ [x])) = some (w + wt)
          rw [listWeight_cons_cons, hab]
          have hrec' : listWeight adj (b :: (t' ++ [x])) = some (w2 + wt) := hrec
          rw [hrec']
          show some (w1 + (w2 + wt)) = some (w + wt)
          have : w = w1 + w2 := hw'.symm
          rw [this, Nat.add_assoc]

theorem chain_edge_of_listWeight {adj : WAdj} {edges : List (Vertex × Vertex × Nat)}
    (hadjE : ∀ u v wt, lookupW adj u v = some wt → edgeConnW edges u v) :
    ∀ (l : List Vertex) (w : Nat), listWeight adj l = some w →
      l.Chain' (edgeConnW edges) := by
  intro l
  induction l with
  | nil => intro w _; exact List.chain'_nil
  | cons a t ih =>
    intro w hw
    cases t with
    | nil => exact List.chain'_singleton a
    | cons b t' =>
      rw [listWeight_cons_cons] at hw
      cases hab : lookupW adj a b with
      | none => rw [hab] at hw; exact Option.noConfusion hw
      | some w1 =>
        rw [hab] at hw
        cases hbt : listWeight adj (b :: t') with
        | none => rw [hbt] at hw; exact Option.noConfusion hw
        | some w2 =>
          rw [List.chain'_cons]
          exact ⟨hadjE a b w1 hab, ih w2 hbt⟩

theorem tourSteps_listWeight {adj : WAdj} :
    ∀ (p : List Vertex) (cur : Vertex) (w0 : Nat) (lastv : Vertex) (w : Nat),
      tourSteps adj cur w0 p = .ok (some (lastv, w)) →
      ∃ dw, w = w0 + dw ∧ listWeight adj (cur :: p) = some dw ∧
        (cur :: p).getLastD 0 = lastv := by
  intro p
  induction p with
  | nil =>
    intro cur w0 lastv w h
    injection h with h
    injection h with h
    obtain ⟨h1, h2⟩ := Prod.mk.injEq .. ▸ h
    refine ⟨0, ?_, rfl, ?_⟩
    · omega
    · rw [← h1]
      rfl
  | cons x rest ih =>
    intro cur w0 lastv w h
    have h' : (dictGet adj cur >>= fun inner =>
        match innerGet inner x with
        | some wt => tourSteps adj x (w0 + wt) rest
        | none => .ok none) = .ok (some (lastv, w)) := h
    cases hdg : dictGet adj cur with
    | error e => rw [hdg, bind_error_eq] at h'; exact Except.noConfusion h'
    | ok inner =>
      rw [hdg, bind_ok_eq] at h'
      cases hig : innerGet inner x with
      | none =>
        rw [hig] at h'
        injection h' with h'
        exact Option.noConfusion h'
      | some wt =>
        rw [hig] at h'
        obtain ⟨dw', hw', hlw', hlast'⟩ := ih x (w0 + wt) lastv w h'
        refine ⟨wt + dw', by omega, ?_, ?_⟩
        · show listWeight adj (cur :: x :: rest) = some (wt + dw')
          rw [listWeight_cons_cons]
          have hlk : lookupW adj cur x = some wt := by
            rw [lookupW_of_dictGet hdg]
            exact hig
          rw [hlk, hlw']
          rfl
        · rw [List.getLastD_cons]
          rw [getLastD_ne_nil (List.cons_ne_nil x rest) cur 0]
          exact hlast'

/-! ## Content invariants of the weighted adjacency builder -/

theorem foldlM_except_inv {α β : Type} (f : β → α → Except PyError β) (P : β → Prop)
    (Q : α → Prop) :
    ∀ (L : List α) (b res : β), (∀ a ∈ L, Q a) →
      (∀ a b b', Q a → P b → f b a = .ok b' → P b') →
      P b → L.foldlM f b = .ok res → P res := by
  intro L
  induction L with
  | nil =>
    intro b res _ _ hP h
    rw [List.foldlM_nil, pure_eq_ok] at h
    injection h with h
    rw [← h]
    exact hP
  | cons a t ih =>
    intro b res hQ hstep hP h
    rw [List.foldlM_cons] at h
    cases hfa : f b a with
    | error e => rw [hfa, bind_error_eq] at h; exact Except.noConfusion h
    | ok b1 =>
      rw [hfa, bind_ok_eq] at h
      exact ih b1 res (fun x hx => hQ x (List.mem_cons_of_mem a hx)) hstep
        (hstep a b b1 (hQ a (List.mem_cons_self a t)) hP hfa) h

/-- Every entry of the built inner dicts has distinct keys, and every inner
key records an edge of the input. -/
def WOK (edges : List (Vertex × Vertex × Nat)) (adj : WAdj) : Prop :=
  ∀ en ∈ adj, (en.2.map (fun ie => ie.1)).Nodup ∧
    ∀ ie ∈ en.2, edgeConnW edges en.1 ie.1

theorem setW_ok_entries {adj : WAdj} {u v : Vertex} {w : Nat} {adj' : WAdj}
    (h : setW adj u v w = .ok adj') :
    ∀ en ∈ adj', en ∈ adj ∨
      ∃ en0, en0 ∈ adj ∧ en0.1 = u ∧ en = (en0.1, setInner en0.2 v w) := by
  unfold setW at h
  by_cases hc : adj.any (fun e => e.1 == u)
  · rw [if_pos hc] at h
    injection h with h
    intro en hen
    rw [← h] at hen
    rcases List.mem_map.mp hen with ⟨e, he, heq⟩
    by_cases hb : e.1 == u
    · rw [if_pos hb] at heq
      exact Or.inr ⟨e, he, eq_of_beq hb, heq.symm⟩
    · rw [if_neg hb] at heq
      rw [← heq]
      exact Or.inl he
  · rw [if_neg hc] at h
    exact Except.noConfusion h

theorem setW_WOK {edges : List (Vertex × Vertex × Nat)} {adj adj' : WAdj}
    {u v : Vertex} {w : Nat} (hconn : edgeConnW edges u v)
    (h : setW adj u v w = .ok adj') (hP : WOK edges adj) : WOK edges adj' := by
  intro en hen
  rcases setW_ok_entries h en hen with hold | ⟨en0, hen0, hu, heq⟩
  · exact hP en hold
  · obtain ⟨h1, h2⟩ := hP en0 hen0
    rw [heq]
    constructor
    · exact setInner_keys_nodup h1
    · intro ie hie
      rcases mem_setInner hie with hin | hrfl
      · exact h2 ie hin
      · rw [hrfl]
        show edgeConnW edges en0.1 v
        rw [hu]
        exact hconn

theorem wStep_WOK {edges : List (Vertex × Vertex × Nat)} {adj adj' : WAdj}
    {e : Vertex × Vertex × Nat} (he : e ∈ edges)
    (h : wStep adj e = .ok adj') (hP : WOK edges adj) : WOK edges adj' := by
  unfold wStep at h
  cases h1 : setW adj e.1 e.2.1 e.2.2 with
  | error er => rw [h1, bind_error_eq] at h; exact Except.noConfusion h
  | ok adj1 =>
    rw [h1, bind_ok_eq] at h
    have hP1 : WOK edges adj1 := setW_WOK ⟨e.2.2, Or.inl he⟩ h1 hP
    exact setW_WOK ⟨e.2.2, Or.inr he⟩ h hP1

theorem build_adj_list_WOK {vertices : List Vertex}
    {edges : List (Vertex × Vertex × Nat)} {adj : WAdj}
    (h : build_adj_list vertices edges = .ok adj) : WOK edges adj := by
  unfold build_adj_list at h
  refine foldlM_except_inv wStep (WOK edges) (fun e => e ∈ edges) edges _ adj
    (fun a ha => ha) (fun a b b' hQ hP hf => wStep_WOK hQ hf hP) ?_ h
  intro en hen
  rcases List.mem_map.mp hen with ⟨x, _, hx⟩
  rw [← hx]
  exact ⟨List.nodup_nil, fun ie hie => absurd hie (List.not_mem_nil ie)⟩

theorem innerGet_of_mem {inner : List (Vertex × Nat)}
    (hnd : (inner.map (fun ie => ie.1)).Nodup) {v : Vertex} {w : Nat}
    (h : (v, w) ∈ inner) : innerGet inner v = some w := by
  induction inner with
  | nil => exact absurd h (List.not_mem_nil (v, w))
  | cons ie t ih =>
    rw [List.map_cons, List.nodup_cons] at hnd
    unfold innerGet
    have hcons : (ie :: t).find? (fun e => e.1 == v) =
        if (ie.1 == v) = true then some ie else t.find? (fun e => e.1 == v) := by
      by_cases hb : (ie.1 == v) = true
      · rw [if_pos hb]
        exact List.find?_cons_of_pos t hb
      · rw [if_neg hb]
        exact List.find?_cons_of_neg t hb
    rw [hcons]
    by_cases hb : (ie.1 == v) = true
    · rw [if_pos hb]
      rcases List.mem_cons.mp h with heq | hmem
      · rw [← heq]
        rfl
      · exfalso
        apply hnd.1
        rw [eq_of_beq hb]
        exact List.mem_map.mpr ⟨(v, w), hmem, rfl⟩
    · rw [if_neg hb]
      rcases List.mem_cons.mp h with heq | hmem
      · exfalso
        apply hb
        rw [← heq]
        exact beq_self_eq_true v
      · exact ih hnd.2 hmem

theorem lookupW_edgeConn {vertices : List Vertex}
    {edges : List (Vertex × Vertex × Nat)} {adj : WAdj}
    (h : build_adj_list vertices edges = .ok adj) :
    ∀ u v wt, lookupW adj u v = some wt → edgeConnW edges u v := by
  intro u v wt hl
  unfold lookupW at hl
  cases hf : adj.find? (fun e => e.1 == u) with
  | none => rw [hf] at hl; exact Option.noConfusion hl
  | some en =>
    rw [hf] at hl
    have hen : en ∈ adj := List.mem_of_find?_eq_some hf
    have heu : en.1 = u := by simpa using List.find?_some hf
    unfold innerGet at hl
    change Option.map (fun e => e.2) (en.2.find? (fun e => e.1 == v)) = some wt at hl
    cases hfi : en.2.find? (fun e => e.1 == v) with
    | none => rw [hfi] at hl; exact Option.noConfusion hl
    | some ie =>
      have hiem : ie ∈ en.2 := List.mem_of_find?_eq_some hfi
      have hiev : ie.1 = v := by simpa using List.find?_some hfi
      have := (build_adj_list_WOK h en hen).2 ie hiem
      rw [heu, hiev] at this
      exact this

theorem edgeConn_mem_right {vertices : List Vertex}
    {edges : List (Vertex × Vertex × Nat)}
    (hok : ∀ e ∈ edges, e.1 ∈ vertices ∧ e.2.1 ∈ vertices)
    {a b : Vertex} (h : edgeConnW edges a b) : b ∈ vertices := by
  obtain ⟨w, h | h⟩ := h
  · exact (hok _ h).2
  · exact (hok _ h).1

/-! ## The backtracking TSP search preserves the state invariant -/

theorem foldlM_except_ex {α β : Type} (f : β → α → Except PyError β) (P : β → Prop) :
    ∀ (L : List α) (b : β), (∀ a ∈ L, ∀ b0, P b0 → ∃ b1, f b0 a = .ok b1 ∧ P b1) →
      P b → ∃ res, L.foldlM f b = .ok res ∧ P res := by
  intro L
  induction L with
  | nil =>
    intro b _ hP
    exact ⟨b, by rw [List.foldlM_nil, pure_eq_ok], hP⟩
  | cons a t ih =>
    intro b hstep hP
    obtain ⟨b1, hf, hP1⟩ := hstep a (List.mem_cons_self a t) b hP
    obtain ⟨res, hfold, hPres⟩ :=
      ih b1 (fun x hx => hstep x (List.mem_cons_of_mem a hx)) hP1
    exact ⟨res, by rw [List.foldlM_cons, hf, bind_ok_eq]; exact hfold, hPres⟩

theorem nodup_concat_of_not_mem {l : List Vertex} {x : Vertex}
    (hnd : l.Nodup) (hx : x ∉ l) : (l ++ [x]).Nodup := by
  rw [List.nodup_append]
  exact ⟨hnd, List.nodup_singleton x, fun a ha hb => by
    rw [List.mem_singleton.mp hb] at ha; exact hx ha⟩

theorem tspRec_TspInv {adj : WAdj} {vertices : List Vertex}
    {edges : List (Vertex × Vertex × Nat)}
    (hb : build_adj_list vertices edges = .ok adj) :
    ∀ (fuel : Nat) (cur : Vertex) (w : Nat) (path : List Vertex) (st : TspState),
      path ≠ [] → path.headI = 1 → path.getLastD 0 = cur →
      path.Nodup → (∀ x ∈ path, x ∈ vertices) →
      listWeight adj path = some w →
      TspInv adj vertices edges st →
      ∃ st', tspRec adj vertices.length fuel cur w path st = .ok st' ∧
        TspInv adj vertices edges st' := by
  have hok : ∀ e ∈ edges, e.1 ∈ vertices ∧ e.2.1 ∈ vertices :=
    (build_adj_list_ok_iff vertices edges).mp ⟨adj, hb⟩
  have hkeys : adj.map (fun x => x.1) = vertices := build_adj_list_fst hb
  have hwok : WOK edges adj := build_adj_list_WOK hb
  intro fuel
  induction fuel with
  | zero =>
    intro cur w path st _ _ _ _ _ _ hst
    exact ⟨st, rfl, hst⟩
  | succ fuel ih =>
    intro cur w path st hne hhead hlast hnd hsub hw hst
    show ∃ st', (if ltInf w st.best = false then Except.ok st
        else if path.length = vertices.length then
          (do
            let inner ← dictGet adj cur
            match innerGet inner 1 with
            | some wt =>
              if ltInf (w + wt) st.best then
                Except.ok (⟨some (w + wt), some (path ++ [1])⟩ : TspState)
              else Except.ok st
            | none => Except.ok st)
        else
          (do
            let inner ← dictGet adj cur
            inner.foldlM
              (fun st' e =>
                if e.1 ∈ path then pure st'
                else tspRec adj vertices.length fuel e.1 (w + e.2) (path ++ [e.1]) st')
              st) : Except PyError TspState) = Except.ok st' ∧ TspInv adj vertices edges st'
    by_cases hpr : ltInf w st.best = false
    · rw [if_pos hpr]
      exact ⟨st, rfl, hst⟩
    · rw [if_neg hpr]
      have hcur : cur ∈ vertices := by
        rw [← hlast]
        exact hsub _ (getLastD_mem hne 0)
      obtain ⟨inner, hdg, hfind⟩ := dictGet_of_mem (by rw [hkeys]; exact hcur)
      have hentry : (cur, inner) ∈ adj := List.mem_of_find?_eq_some hfind
      obtain ⟨hIkeys, hIconn⟩ := hwok (cur, inner) hentry
      by_cases hfull : path.length = vertices.length
      · rw [if_pos hfull, hdg, bind_ok_eq]
        cases hig : innerGet inner 1 with
        | none => exact ⟨st, rfl, hst⟩
        | some wt =>
          show ∃ st', (if ltInf (w + wt) st.best then
              Except.ok (⟨some (w + wt), some (path ++ [1])⟩ : TspState)
            else Except.ok st) = Except.ok st' ∧ TspInv adj vertices edges st'
          by_cases himp : ltInf (w + wt) st.best = true
          · rw [if_pos himp]
            refine ⟨⟨some (w + wt), some (path ++ [1])⟩, rfl, ?_, ?_⟩
            · exact ⟨fun h => Option.noConfusion h, fun h => Option.noConfusion h⟩
            · intro c hc
              injection hc with hc
              rw [← hc]
              have hlook : lookupW adj (path.getLastD 0) 1 = some wt := by
                rw [hlast, lookupW_of_dictGet hdg]
                exact hig
              have hlw : listWeight adj (path ++ [1]) = some (w + wt) :=
                listWeight_concat_of hne hw hlook
              refine ⟨hlw, ?_, List.getLastD_concat 0 1 path, ?_, ?_⟩
              · rw [headI_append_of_ne_nil path [1] hne]
                exact hhead
              · rw [List.dropLast_concat]
                refine List.Subperm.perm_of_length_le
                  (List.subperm_of_subset hnd hsub) ?_
                rw [hfull]
              · exact chain_edge_of_listWeight (lookupW_edgeConn hb) _ _ hlw
          · rw [if_neg himp]
            exact ⟨st, rfl, hst⟩
      · rw [if_neg hfull, hdg, bind_ok_eq]
        refine foldlM_except_ex _ (TspInv adj vertices edges) inner st ?_ hst
        intro e he st0 hst0
        show ∃ b1, (if e.1 ∈ path then pure st0
            else tspRec adj vertices.length fuel e.1 (w + e.2) (path ++ [e.1]) st0) =
            Except.ok b1 ∧ TspInv adj vertices edges b1
        by_cases hep : e.1 ∈ path
        · rw [if_pos hep]
          exact ⟨st0, rfl, hst0⟩
        · rw [if_neg hep]
          have hconn : edgeConnW edges cur e.1 := hIconn e he
          have hlook : lookupW adj (path.getLastD 0) e.1 = some e.2 := by
            rw [hlast, lookupW_of_dictGet hdg]
            exact innerGet_of_mem hIkeys he
          refine ih e.1 (w + e.2) (path ++ [e.1]) st0 (by simp) ?_
            (List.getLastD_concat 0 e.1 path) (nodup_concat_of_not_mem hnd hep) ?_
            (listWeight_concat_of hne hw hlook) hst0
          · rw [headI_append_of_ne_nil path [e.1] hne]
            exact hhead
          · intro x hx
            rcases List.mem_append.mp hx with hx | hx
            · exact hsub x hx
            · rw [List.mem_singleton.mp hx]
              exact edgeConn_mem_right hok hconn

/-! ## The brute-force TSP loop preserves the state invariant -/

theorem tourSteps_ok {adj : WAdj} {vertices : List Vertex}
    (hkeys : adj.map (fun x => x.1) = vertices) :
    ∀ (p : List Vertex) (cur : Vertex) (w0 : Nat), cur ∈ vertices →
      (∀ v ∈ p, v ∈ vertices) → ∃ r, tourSteps adj cur w0 p = .ok r := by
  intro p
  induction p with
  | nil => intro cur w0 _ _; exact ⟨some (cur, w0), rfl⟩
  | cons x rest ih =>
    intro cur w0 hcur hsub
    obtain ⟨inner, hdg, _⟩ := dictGet_of_mem (by rw [hkeys]; exact hcur)
    show ∃ r, (dictGet adj cur >>= fun inner =>
      match innerGet inner x with
      | some wt => tourSteps adj x (w0 + wt) rest
      | none => Except.ok none) = .ok r
    rw [hdg, bind_ok_eq]
    cases hig : innerGet inner x with
    | none => exact ⟨none, rfl⟩
    | some wt =>
      obtain ⟨r, hr⟩ := ih x (w0 + wt) (hsub x (List.mem_cons_self x rest))
        (fun v hv => hsub v (List.mem_cons_of_mem x hv))
      exact ⟨r, hr⟩

theorem permTour_ok {adj : WAdj} {vertices : List Vertex}
    (hkeys : adj.map (fun x => x.1) = vertices) (h1 : 1 ∈ vertices) :
    ∀ (p : List Vertex), (∀ v ∈ p, v ∈ vertices) →
      ∃ r, permTour adj p = .ok r := by
  intro p hsub
  obtain ⟨r, hr⟩ := tourSteps_ok hkeys p 1 0 h1 hsub
  show ∃ r', (tourSteps adj 1 0 p >>= fun s =>
    match s with
    | none => pure none
    | some (cur, w) =>
      dictGet adj cur >>= fun inner =>
        match innerGet inner 1 with
        | some wt => pure (some (w + wt))
        | none => pure none) = .ok r'
  rw [hr, bind_ok_eq]
  cases r with
  | none => exact ⟨none, rfl⟩
  | some lw =>
    obtain ⟨lastv, wsum⟩ := lw
    have hlastm : lastv ∈ vertices := by
      obtain ⟨dw, _, _, hlast⟩ := tourSteps_listWeight p 1 0 lastv wsum hr
      rw [← hlast]
      exact (fun hx => hx) (by
        rcases List.mem_cons.mp
          (getLastD_mem (List.cons_ne_nil 1 p) 0) with hh | hh
        · rw [hh]; exact h1
        · exact hsub _ hh)
    obtain ⟨inner, hdg, _⟩ := dictGet_of_mem (by rw [hkeys]; exact hlastm)
    show ∃ r', (dictGet adj lastv >>= fun inner =>
      match innerGet inner 1 with
      | some wt => pure (some (wsum + wt))
      | none => pure none) = Except.ok r'
    rw [hdg, bind_ok_eq]
    cases innerGet inner 1 with
    | none => exact ⟨none, rfl⟩
    | some wt => exact ⟨some (wsum + wt), rfl⟩

theorem permTour_listWeight {adj : WAdj} {p : List Vertex} {w : Nat}
    (h : permTour adj p = .ok (some w)) :
    listWeight adj (1 :: (p ++ [1])) = some w := by
  have h' : (tourSteps adj 1 0 p >>= fun s =>
    match s with
    | none => pure none
    | some (cur, w) =>
      dictGet adj cur >>= fun inner =>
        match innerGet inner 1 with
        | some wt => pure (some (w + wt))
        | none => pure none) = .ok (some w) := h
  cases hts : tourSteps adj 1 0 p with
  | error e => rw [hts, bind_error_eq] at h'; exact Except.noConfusion h'
  | ok r =>
    rw [hts, bind_ok_eq] at h'
    cases r with
    | none =>
      rw [show ((match (none : Option (Vertex × Nat)) with
        | none => pure none
        | some (cur, w) =>
          dictGet adj cur >>= fun inner =>
            match innerGet inner 1 with
            | some wt => pure (some (w + wt))
            | none => pure none) : Except PyError (Option Nat)) = pure none from rfl,
        pure_eq_ok] at h'
      injection h' with h'
      exact Option.noConfusion h'
    | some lw =>
      obtain ⟨lastv, wsum⟩ := lw
      change (dictGet adj lastv >>= fun inner =>
        match innerGet inner 1 with
        | some wt => pure (some (wsum + wt))
        | none => pure none) = Except.ok (some w) at h'
      cases hdg : dictGet adj lastv with
      | error e => rw [hdg, bind_error_eq] at h'; exact Except.noConfusion h'
      | ok inner =>
        rw [hdg, bind_ok_eq] at h'
        cases hig : innerGet inner 1 with
        | none =>
          rw [hig, pure_eq_ok] at h'
          injection h' with h'
          exact Option.noConfusion h'
        | some wt =>
          rw [hig, pure_eq_ok] at h'
          injection h' with h'
          injection h' with h'
          obtain ⟨dw, hdw, hlw, hlast⟩ := tourSteps_listWeight p 1 0 lastv wsum hts
          have hdw0 : wsum = dw := by omega
          have hlook : lookupW adj ((1 :: p).getLastD 0) 1 = some wt := by
            rw [hlast, lookupW_of_dictGet hdg]
            exact hig
          have := listWeight_concat_of (List.cons_ne_nil 1 p) hlw hlook
          rw [← h', hdw0]
          exact this

theorem cons_filter_perm {vertices : List Vertex} (hnd : vertices.Nodup)
    (h1 : 1 ∈ vertices) :
    (1 :: vertices.filter (fun v => v != 1)).Perm vertices := by
  have hp := List.perm_cons_erase h1
  rw [List.Nodup.erase_eq_filter hnd 1] at hp
  exact hp.symm

theorem tspBF_fold_TspInv {adj : WAdj} {vertices : List Vertex}
    {edges : List (Vertex × Vertex × Nat)}
    (hb : build_adj_list vertices edges = .ok adj) (hnd : vertices.Nodup)
    (h1 : 1 ∈ vertices) :
    ∀ (P : List (List Vertex)) (acc : Option Nat × Option (List Vertex)),
      (∀ p ∈ P, p.Perm (vertices.filter (fun v => v != 1))) →
      TspInv adj vertices edges ⟨acc.1, acc.2⟩ →
      ∃ res, P.foldlM
        (fun best p => do
          match ← permTour adj p with
          | some w =>
            if ltInf w best.1 then pure (some w, some (1 :: (p ++ [1]))) else pure best
          | none => pure best)
        acc = .ok res ∧ TspInv adj vertices edges ⟨res.1, res.2⟩ := by
  have hkeys : adj.map (fun x => x.1) = vertices := build_adj_list_fst hb
  intro P acc hP hacc
  refine foldlM_except_ex _ (fun a => TspInv adj vertices edges ⟨a.1, a.2⟩) P acc
    ?_ hacc
  intro p hp acc0 hacc0
  have hperm := hP p hp
  have hsub : ∀ v ∈ p, v ∈ vertices := by
    intro v hv
    exact List.mem_of_mem_filter (hperm.subset hv)
  obtain ⟨r, hr⟩ := permTour_ok hkeys h1 p hsub
  show ∃ b1, (permTour adj p >>= fun r =>
    match r with
    | some w =>
      if ltInf w acc0.1 then pure (some w, some (1 :: (p ++ [1]))) else pure acc0
    | none => pure acc0) = .ok b1 ∧
    TspInv adj vertices edges ⟨b1.1, b1.2⟩
  rw [hr, bind_ok_eq]
  cases r with
  | none => exact ⟨acc0, rfl, hacc0⟩
  | some w =>
    show ∃ b1, (if ltInf w acc0.1 then
        (pure (some w, some (1 :: (p ++ [1]))) : Except PyError _)
      else pure acc0) = .ok b1 ∧ TspInv adj vertices edges ⟨b1.1, b1.2⟩
    by_cases himp : ltInf w acc0.1 = true
    · rw [if_pos himp]
      refine ⟨(some w, some (1 :: (p ++ [1]))), rfl, ?_, ?_⟩
      · exact ⟨fun h => Option.noConfusion h, fun h => Option.noConfusion h⟩
      · intro c hc
        injection hc with hc
        rw [← hc]
        have hlw : listWeight adj (1 :: (p ++ [1])) = some w :=
          permTour_listWeight hr
        refine ⟨hlw, rfl, ?_, ?_, ?_⟩
        · exact List.getLastD_concat 0 1 (1 :: p)
        · show ((1 :: p) ++ [1]).dropLast.Perm vertices
          rw [List.dropLast_concat]
          exact ((hperm.cons 1).trans (cons_filter_perm hnd h1))
        · exact chain_edge_of_listWeight (lookupW_edgeConn hb) _ _ hlw
    · rw [if_neg himp]
      exact ⟨acc0, rfl, hacc0⟩

/-! ## Success shapes of the two TSP solvers -/

theorem permTour_error_of_no1 {adj : WAdj}
    (hdg : dictGet adj 1 = .error (.keyError 1)) :
    ∀ p, permTour adj p = .error (.keyError 1) := by
  intro p
  cases p with
  | nil =>
    show (tourSteps adj 1 0 [] >>= fun s =>
      match s with
      | none => pure none
      | some (cur, w) =>
        dictGet adj cur >>= fun inner =>
          match innerGet inner 1 with
          | some wt => pure (some (w + wt))
          | none => pure none) = .error (.keyError 1)
    rw [show tourSteps adj 1 0 [] = .ok (some (1, 0)) from rfl, bind_ok_eq]
    change (dictGet adj 1 >>= fun inner =>
      match innerGet inner 1 with
      | some wt => pure (some (0 + wt))
      | none => pure none) = Except.error (.keyError 1)
    rw [hdg, bind_error_eq]
  | cons x rest =>
    show (tourSteps adj 1 0 (x :: rest) >>= fun s =>
      match s with
      | none => pure none
      | some (cur, w) =>
        dictGet adj cur >>= fun inner =>
          match innerGet inner 1 with
          | some wt => pure (some (w + wt))
          | none => pure none) = .error (.keyError 1)
    have hts : tourSteps adj 1 0 (x :: rest) = .error (.keyError 1) := by
      show (dictGet adj 1 >>= fun inner =>
        match innerGet inner x with
        | some wt => tourSteps adj x (0 + wt) rest
        | none => Except.ok none) = .error (.keyError 1)
      rw [hdg, bind_error_eq]
    rw [hts, bind_error_eq]

theorem tsp_backtracking_ok_shape {vertices : List Vertex}
    {edges : List (Vertex × Vertex × Nat)} {bw : Option Nat}
    {bc : Option (List Vertex)}
    (h : tsp_backtracking vertices edges = .ok (bw, bc)) :
    ∃ adj, build_adj_list vertices edges = .ok adj ∧ 1 ∈ vertices ∧
      ∃ st, tspRec adj vertices.length (vertices.length + 1) 1 0 [1] ⟨none, none⟩ =
          .ok st ∧ bw = st.best ∧ bc = st.cycle := by
  unfold tsp_backtracking at h
  cases hb : build_adj_list vertices edges with
  | error er => rw [hb, bind_error_eq] at h; exact Except.noConfusion h
  | ok adj =>
    rw [hb, bind_ok_eq] at h
    cases hrec : tspRec adj vertices.length (vertices.length + 1) 1 0 [1]
        ⟨none, none⟩ with
    | error er => rw [hrec, bind_error_eq] at h; exact Except.noConfusion h
    | ok st =>
      rw [hrec, bind_ok_eq, pure_eq_ok] at h
      injection h with h
      have h1 : 1 ∈ vertices := by
        by_contra h1
        have hdg : dictGet adj 1 = .error (.keyError 1) :=
          dictGet_of_not_mem (by rw [build_adj_list_fst hb]; exact h1)
        rw [tspRec_start_keyError (vertices.length + 1) (Nat.succ_ne_zero _) hdg]
          at hrec
        exact Except.noConfusion hrec
      exact ⟨adj, rfl, h1, st, hrec,
        congrArg Prod.fst h.symm, congrArg Prod.snd h.symm⟩

theorem tsp_bruteforce_ok_shape {vertices : List Vertex}
    {edges : List (Vertex × Vertex × Nat)} {bw : Option Nat}
    {bc : Option (List Vertex)}
    (h : tsp_bruteforce vertices edges = .ok (bw, bc)) :
    ∃ adj, build_adj_list vertices edges = .ok adj ∧ 1 ∈ vertices ∧
      (permsLex (vertices.filter (fun v => v != 1))).foldlM
        (fun best p => do
          match ← permTour adj p with
          | some w =>
            if ltInf w best.1 then pure (some w, some (1 :: (p ++ [1]))) else pure best
          | none => pure best)
        ((none : Option Nat), (none : Option (List Vertex))) = .ok (bw, bc) := by
  unfold tsp_bruteforce at h
  cases hb : build_adj_list vertices edges with
  | error er => rw [hb, bind_error_eq] at h; exact Except.noConfusion h
  | ok adj =>
    rw [hb, bind_ok_eq] at h
    refine ⟨adj, rfl, ?_, h⟩
    by_contra h1
    have hdg : dictGet adj 1 = .error (.keyError 1) :=
      dictGet_of_not_mem (by rw [build_adj_list_fst hb]; exact h1)
    have hmem : vertices.filter (fun v => v != 1) ∈
        permsLex (vertices.filter (fun v => v != 1)) :=
      mem_permsLex.mpr (List.Perm.refl _)
    cases hP : permsLex (vertices.filter (fun v => v != 1)) with
    | nil => rw [hP] at hmem; exact List.not_mem_nil _ hmem
    | cons p0 rest =>
      rw [hP] at h
      have hstep : ((fun (best : Option Nat × Option (List Vertex)) p => do
          match ← permTour adj p with
          | some w =>
            if ltInf w best.1 then pure (some w, some (1 :: (p ++ [1]))) else pure best
          | none => pure best) ((none : Option Nat), (none : Option (List Vertex))) p0)
          = .error (.keyError 1) := by
        show (permTour adj p0 >>= fun r =>
          match r with
          | some w =>
            if ltInf w ((none : Option Nat), (none : Option (List Vertex))).1 then
              pure (some w, some (1 :: (p0 ++ [1])))
            else pure ((none : Option Nat), (none : Option (List Vertex)))
          | none => pure ((none : Option Nat), (none : Option (List Vertex)))) =
          .error (.keyError 1)
        rw [permTour_error_of_no1 hdg p0, bind_error_eq]
      rw [foldlM_head_error hstep] at h
      exact Except.noConfusion h

/-- C9: whenever a TSP solver succeeds (returns without an exception), its two
result fields are mutually consistent: the minimum weight is `∞` (`none`) if
and only if the returned cycle is absent, and a returned cycle's consecutive
edge weights, summed along the built weighted adjacency, equal the returned
minimum weight. This holds for `tsp_bruteforce` and `tsp_backtracking`
alike. -/
theorem C9_tsp_result_consistency (vertices : List Vertex)
    (edges : List (Vertex × Vertex × Nat)) (adj : WAdj) (bw : Option Nat)
    (bc : Option (List Vertex)) (hnd : vertices.Nodup)
    (hb : build_adj_list vertices edges = .ok adj)
    (h : tsp_bruteforce vertices edges = .ok (bw, bc) ∨
         tsp_backtracking vertices edges = .ok (bw, bc)) :
    (bw = none ↔ bc = none) ∧ ∀ c, bc = some c → listWeight adj c = bw := by
  cases h with
  | inl h =>
    obtain ⟨adj', hb', h1, hfold⟩ := tsp_bruteforce_ok_shape h
    rw [hb] at hb'
    injection hb' with hb'
    subst hb'
    obtain ⟨res, hfold', hinv⟩ := tspBF_fold_TspInv hb hnd h1
      (permsLex (vertices.filter (fun v => v != 1))) (none, none)
      (fun p hp => mem_permsLex.mp hp)
      ⟨⟨fun _ => rfl, fun _ => rfl⟩, fun c hc => Option.noConfusion hc⟩
    rw [hfold'] at hfold
    injection hfold with hfold
    obtain ⟨hbw, hbc⟩ : bw = res.1 ∧ bc = res.2 :=
      ⟨(congrArg Prod.fst hfold).symm, (congrArg Prod.snd hfold).symm⟩
    rw [hbw, hbc]
    exact ⟨hinv.1, fun c hc => (hinv.2 c hc).1⟩
  | inr h =>
    obtain ⟨adj', hb', h1, st, hrec, hbw, hbc⟩ := tsp_backtracking_ok_shape h
    rw [hb] at hb'
    injection hb' with hb'
    subst hb'
    obtain ⟨st', hrec', hinv⟩ := tspRec_TspInv hb
      (vertices.length + 1) 1 0 [1] ⟨none, none⟩
      (List.cons_ne_nil 1 []) rfl rfl (List.nodup_singleton 1)
      (fun x hx => by rw [List.mem_singleton.mp hx]; exact h1) rfl
      ⟨⟨fun _ => rfl, fun _ => rfl⟩, fun c hc => Option.noConfusion hc⟩
    rw [hrec'] at hrec
    injection hrec with hrec
    rw [hbw, hbc, ← hrec]
    exact ⟨hinv.1, fun c hc => (hinv.2 c hc).1⟩

/-- Witness: C9 applied to the instance `vertices = {1, 2}`,
`edges = [(1, 2, 5)]`, where both solvers return weight `10` with cycle
`[1, 2, 1]`. -/
theorem C9_tsp_result_consistency_witness :
    ([1, 2] : List Vertex).Nodup ∧
    build_adj_list [1, 2] [(1, 2, 5)] = .ok [(1, [(2, 5)]), (2, [(1, 5)])] ∧
    tsp_bruteforce [1, 2] [(1, 2, 5)] = .ok (some 10, some [1, 2, 1]) ∧
    ((some 10 = (none : Option Nat) ↔
        some [1, 2, 1] = (none : Option (List Vertex))) ∧
      ∀ c, some [1, 2, 1] = some c →
        listWeight [(1, [(2, 5)]), (2, [(1, 5)])] c = some 10) :=
  ⟨by decide, by decide, by decide,
    C9_tsp_result_consistency [1, 2] [(1, 2, 5)] [(1, [(2, 5)]), (2, [(1, 5)])]
      (some 10) (some [1, 2, 1]) (by decide) (by decide) (Or.inl (by decide))⟩

/-! ## Witness validity (C8) -/

theorem isPathPerm_edgeConnU {vertices : List Vertex} {uedges : List (Vertex × Vertex)}
    {p : List Vertex} (h : isPathPerm (build_adj_set vertices uedges) p) :
    p.Chain' (edgeConnU uedges) :=
  List.Chain'.imp (fun a b hab => ((mem_nbrs_build vertices uedges a b).mp hab).2.2) h

theorem bruteLoop_sound (adj : List (Vertex × List Vertex)) (n : Nat)
    (Q : List Vertex → Prop) :
    ∀ (L : List (List Vertex)) (fp : Option (List Vertex))
      (r : Bool × Option (List Vertex) × Bool × Option (List Vertex) × Nat),
      (∀ p ∈ L, Q p) →
      (∀ p, fp = some p → Q p ∧ isPathB adj p = true) →
      bruteLoop adj n L fp = .ok r →
      (∀ p, r.2.1 = some p → Q p ∧ isPathB adj p = true) ∧
      (∀ c, r.2.2.2.1 = some c →
        ∃ p, Q p ∧ isPathB adj p = true ∧ closesP adj p ∧ p ≠ [] ∧
          c = p ++ [p.headI]) := by
  intro L
  induction L with
  | nil =>
    intro fp r _ hfp h
    change (if truthy fp = true then
        Except.ok (true, fp, false, none, (0 : Nat))
      else Except.ok (false, none, false, none, 0)) = Except.ok r at h
    by_cases htr : truthy fp = true
    · rw [if_pos htr] at h
      injection h with h
      subst h
      exact ⟨fun p hp => hfp p hp, fun c hc => Option.noConfusion hc⟩
    · rw [if_neg htr] at h
      injection h with h
      subst h
      exact ⟨fun p hp => Option.noConfusion hp, fun c hc => Option.noConfusion hc⟩
  | cons p rest ih =>
    intro fp r hQ hfp h
    cases p with
    | nil =>
      change Except.error PyError.indexError = Except.ok r at h
      exact Except.noConfusion h
    | cons x xs =>
      have hQtail : ∀ q ∈ rest, Q q := fun q hq => hQ q (List.mem_cons_of_mem _ hq)
      change (if isPathB adj (x :: xs) = true then
          if x ∈ nbrs adj ((x :: xs).getLastD 0) then
            Except.ok (true, (if truthy fp = true then fp else some (x :: xs)), true,
              some ((x :: xs) ++ [x]), n)
          else bruteLoop adj n rest (if truthy fp = true then fp else some (x :: xs))
        else bruteLoop adj n rest fp) = Except.ok r at h
      by_cases hpath : isPathB adj (x :: xs) = true
      · rw [if_pos hpath] at h
        by_cases hcl : x ∈ nbrs adj ((x :: xs).getLastD 0)
        · rw [if_pos hcl] at h
          injection h with h
          subst h
          constructor
          · intro q hq
            by_cases htr : truthy fp = true
            · rw [if_pos htr] at hq
              exact hfp q hq
            · rw [if_neg htr] at hq
              injection hq with hq
              rw [← hq]
              exact ⟨hQ _ (List.mem_cons_self _ _), hpath⟩
          · intro c hc
            injection hc with hc
            exact ⟨x :: xs, hQ _ (List.mem_cons_self _ _), hpath, hcl,
              List.cons_ne_nil x xs, hc.symm⟩
        · rw [if_neg hcl] at h
          refine ih (if truthy fp = true then fp else some (x :: xs)) r hQtail ?_ h
          intro q hq
          by_cases htr : truthy fp = true
          · rw [if_pos htr] at hq
            exact hfp q hq
          · rw [if_neg htr] at hq
            injection hq with hq
            rw [← hq]
            exact ⟨hQ _ (List.mem_cons_self _ _), hpath⟩
      · rw [if_neg hpath] at h
        exact ih fp r hQtail hfp h

theorem hamCycleProps {vertices : List Vertex} {uedges : List (Vertex × Vertex)}
    {p : List Vertex} (hperm : p.Perm vertices)
    (hpath : isPathPerm (build_adj_set vertices uedges) p)
    (hcl : closesP (build_adj_set vertices uedges) p) (hne : p ≠ []) :
    (p ++ [p.headI]).headI = (p ++ [p.headI]).getLastD 0 ∧
    (p ++ [p.headI]).dropLast.Perm vertices ∧
    (p ++ [p.headI]).Chain' (edgeConnU uedges) := by
  refine ⟨?_, ?_, ?_⟩
  · rw [headI_append_of_ne_nil p [p.headI] hne, List.getLastD_concat]
  · rw [List.dropLast_concat]
    exact hperm
  · have hch : isPathPerm (build_adj_set vertices uedges) (p ++ [p.headI]) := by
      rw [chain'_append_single]
      refine ⟨hpath, ?_⟩
      intro x hx
      rw [getLast?_eq_getLastD hne] at hx
      have hx' : p.getLastD 0 = x := by
        cases hx
        rfl
      rw [← hx']
      exact hcl
    exact isPathPerm_edgeConnU hch

/-- C8: whenever a search routine returns a witness, that witness is valid:
a returned path witness (from either Hamiltonian solver) repeats no vertex
and has each consecutive pair adjacent; a returned cycle witness (from
`hamilton_bruteforce`, `hamilton_backtracking`, `tsp_bruteforce`, or
`tsp_backtracking`) has first element equal to last element, its sequence
without the closing repetition is a permutation of the full vertex set, and
every consecutive pair is connected by an edge of the graph. -/
theorem C8_witness_validity (vertices : List Vertex)
    (uedges : List (Vertex × Vertex)) (wedges : List (Vertex × Vertex × Nat))
    (hnd : vertices.Nodup) :
    (∀ pe p ce co k,
      hamilton_bruteforce vertices uedges = .ok (pe, some p, ce, co, k) →
      p.Nodup ∧ p.Chain' (edgeConnU uedges)) ∧
    (∀ pe po ce c k,
      hamilton_bruteforce vertices uedges = .ok (pe, po, ce, some c, k) →
      c.headI = c.getLastD 0 ∧ c.dropLast.Perm vertices ∧
      c.Chain' (edgeConnU uedges)) ∧
    (∀ pe p ce co k,
      hamilton_backtracking vertices uedges = (pe, some p, ce, co, k) →
      p.Nodup ∧ p.Chain' (edgeConnU uedges)) ∧
    (∀ pe po ce c k,
      hamilton_backtracking vertices uedges = (pe, po, ce, some c, k) →
      c.headI = c.getLastD 0 ∧ c.dropLast.Perm vertices ∧
      c.Chain' (edgeConnU uedges)) ∧
    (∀ bw c, tsp_bruteforce vertices wedges = .ok (bw, some c) →
      c.headI = c.getLastD 0 ∧ c.dropLast.Perm vertices ∧
      c.Chain' (edgeConnW wedges)) ∧
    (∀ bw c, tsp_backtracking vertices wedges = .ok (bw, some c) →
      c.headI = c.getLastD 0 ∧ c.dropLast.Perm vertices ∧
      c.Chain' (edgeConnW wedges)) := by
  refine ⟨?_, ?_, ?_, ?_, ?_, ?_⟩
  · intro pe p ce co k h
    have h' : bruteLoop (build_adj_set vertices uedges) vertices.length
        (permsLex (vertices.insertionSort (fun a b => a ≤ b))) none =
        .ok (pe, some p, ce, co, k) := h
    obtain ⟨hpart, -⟩ := bruteLoop_sound (build_adj_set vertices uedges)
      vertices.length (fun q => q.Perm vertices) _ none _
      (fun q hq => (permsLex_sorted_mem q).mp hq)
      (fun q hq => Option.noConfusion hq) h'
    obtain ⟨hperm, hpb⟩ := hpart p rfl
    exact ⟨hperm.nodup_iff.mpr hnd, isPathPerm_edgeConnU (isPathB_iff.mp hpb)⟩
  · intro pe po ce c k h
    have h' : bruteLoop (build_adj_set vertices uedges) vertices.length
        (permsLex (vertices.insertionSort (fun a b => a ≤ b))) none =
        .ok (pe, po, ce, some c, k) := h
    obtain ⟨-, hcyc⟩ := bruteLoop_sound (build_adj_set vertices uedges)
      vertices.length (fun q => q.Perm vertices) _ none _
      (fun q hq => (permsLex_sorted_mem q).mp hq)
      (fun q hq => Option.noConfusion hq) h'
    obtain ⟨q, hqperm, hqpb, hqcl, hqne, hceq⟩ := hcyc c rfl
    rw [hceq]
    exact hamCycleProps hqperm (isPathB_iff.mp hqpb) hqcl hqne
  · intro pe p ce co k h
    have hp : (hbOuter (build_adj_set vertices uedges) vertices.length
        vertices).foundPath = some p := congrArg (fun r => r.2.1) h
    obtain ⟨hsp, -, -, -, -⟩ := hbOuter_sound vertices uedges
    obtain ⟨hperm, hchain⟩ := hsp p hp
    exact ⟨hperm.nodup_iff.mpr hnd, isPathPerm_edgeConnU hchain⟩
  · intro pe po ce c k h
    have hc : (hbOuter (build_adj_set vertices uedges) vertices.length
        vertices).foundCycle = some c := congrArg (fun r => r.2.2.2.1) h
    obtain ⟨-, hsc, -, -, -⟩ := hbOuter_sound vertices uedges
    obtain ⟨q, hqperm, hqchain, hqcl, hq3, hceq⟩ := hsc c hc
    rw [hceq]
    refine hamCycleProps hqperm hqchain hqcl ?_
    intro hq0
    rw [hq0] at hq3
    exact absurd hq3 (by decide)
  · intro bw c h
    obtain ⟨adj, hb, h1, hfold⟩ := tsp_bruteforce_ok_shape h
    obtain ⟨res, hfold', hinv⟩ := tspBF_fold_TspInv hb hnd h1
      (permsLex (vertices.filter (fun v => v != 1))) (none, none)
      (fun q hq => mem_permsLex.mp hq)
      ⟨⟨fun _ => rfl, fun _ => rfl⟩, fun c0 hc0 => Option.noConfusion hc0⟩
    rw [hfold'] at hfold
    injection hfold with hfold
    have hc : res.2 = some c := congrArg Prod.snd hfold
    obtain ⟨-, hhead, hlast, hdperm, hchain⟩ := hinv.2 c hc
    exact ⟨by rw [hhead, hlast], hdperm, hchain⟩
  · intro bw c h
    obtain ⟨adj, hb, h1, st, hrec, hbw, hbc⟩ := tsp_backtracking_ok_shape h
    obtain ⟨st', hrec', hinv⟩ := tspRec_TspInv hb
      (vertices.length + 1) 1 0 [1] ⟨none, none⟩
      (List.cons_ne_nil 1 []) rfl rfl (List.nodup_singleton 1)
      (fun x hx => by rw [List.mem_singleton.mp hx]; exact h1) rfl
      ⟨⟨fun _ => rfl, fun _ => rfl⟩, fun c0 hc0 => Option.noConfusion hc0⟩
    rw [hrec'] at hrec
    injection hrec with hrec
    rw [← hrec] at hbc
    obtain ⟨-, hhead, hlast, hdperm, hchain⟩ := hinv.2 c hbc.symm
    exact ⟨by rw [hhead, hlast], hdperm, hchain⟩

/-- Witness: C8 applied to the triangle on `{1, 2, 3}`, where
`hamilton_bruteforce` returns path `[1, 2, 3]` with cycle `[1, 2, 3, 1]`, and
`tsp_backtracking` (weights `5, 7, 4`) returns the cycle `[1, 2, 3, 1]` of
weight `16`. -/
theorem C8_witness_validity_witness :
    ([1, 2, 3] : List Vertex).Nodup ∧
    (([1, 2, 3] : List Vertex).Nodup ∧
      ([1, 2, 3] : List Vertex).Chain' (edgeConnU [(1, 2), (2, 3), (1, 3)])) ∧
    (([1, 2, 3, 1] : List Vertex).headI = ([1, 2, 3, 1] : List Vertex).getLastD 0 ∧
      ([1, 2, 3, 1] : List Vertex).dropLast.Perm [1, 2, 3] ∧
      ([1, 2, 3, 1] : List Vertex).Chain'
        (edgeConnW [(1, 2, 5), (2, 3, 7), (1, 3, 4)])) :=
  ⟨by decide,
   (C8_witness_validity [1, 2, 3] [(1, 2), (2, 3), (1, 3)]
      [(1, 2, 5), (2, 3, 7), (1, 3, 4)] (by decide)).1 true [1, 2, 3] true
      (some [1, 2, 3, 1]) 3 (by decide),
   (C8_witness_validity [1, 2, 3] [(1, 2), (2, 3), (1, 3)]
      [(1, 2, 5), (2, 3, 7), (1, 3, 4)] (by decide)).2.2.2.2.2 (some 16) [1, 2, 3, 1]
      (by decide)⟩

/-! ## Order facts for optional weights, and more `listWeight` accounting -/

theorem leO_refl (a : Option Nat) : leO a a := by
  cases a with
  | none => trivial
  | some x => exact Nat.le_refl x

theorem leO_trans {a b c : Option Nat} (h1 : leO a b) (h2 : leO b c) : leO a c := by
  cases c with
  | none =>
    cases a with
    | none => trivial
    | some x => trivial
  | some z =>
    cases b with
    | none => exact h2.elim
    | some y =>
      cases a with
      | none => exact h1.elim
      | some x => exact Nat.le_trans h1 h2

theorem leO_antisymm {a b : Option Nat} (h1 : leO a b) (h2 : leO b a) : a = b := by
  cases a with
  | none =>
    cases b with
    | none => rfl
    | some y => exact h1.elim
  | some x =>
    cases b with
    | none => exact h2.elim
    | some y => exact congrArg some (Nat.le_antisymm h1 h2)

theorem ltInf_true_leO {w : Nat} {b : Option Nat} (h : ltInf w b = true) :
    leO (some w) b := by
  cases b with
  | none => trivial
  | some m => exact Nat.le_of_lt (of_decide_eq_true h)

theorem ltInf_false_leO {w : Nat} {b : Option Nat} (h : ltInf w b = false) :
    leO b (some w) := by
  cases b with
  | none => exact Bool.noConfusion h
  | some m => exact Nat.le_of_not_lt (of_decide_eq_false h)

theorem listWeight_append_add {adj : WAdj} :
    ∀ (l r : List Vertex) (w x : Nat), listWeight adj l = some w →
      listWeight adj (l ++ r) = some x → ∃ d, x = w + d := by
  intro l
  induction l with
  | nil =>
    intro r w x hw hx
    injection hw with hw
    exact ⟨x, by omega⟩
  | cons a t ih =>
    intro r w x hw hx
    cases t with
    | nil =>
      injection hw with hw
      exact ⟨x, by omega⟩
    | cons b t' =>
      rw [listWeight_cons_cons] at hw
      have hx' : listWeight adj (a :: b :: (t' ++ r)) = some x := hx
      rw [listWeight_cons_cons] at hx'
      cases hab : lookupW adj a b with
      | none => rw [hab] at hw; exact Option.noConfusion hw
      | some w1 =>
        rw [hab] at hw hx'
        cases hbt : listWeight adj (b :: t') with
        | none => rw [hbt] at hw; exact Option.noConfusion hw
        | some w2 =>
          rw [hbt] at hw
          injection hw with hw
          cases hbtr : listWeight adj (b :: (t' ++ r)) with
          | none => rw [hbtr] at hx'; exact Option.noConfusion hx'
          | some x2 =>
            rw [hbtr] at hx'
            injection hx' with hx'
            obtain ⟨d, hd⟩ := ih r w2 x2 hbt hbtr
            have hww : w1 + w2 = w := hw
            have hxx : w1 + x2 = x := hx'
            exact ⟨d, by omega⟩

theorem listWeight_append_none {adj : WAdj} :
    ∀ (l r : List Vertex), listWeight adj l = none →
      listWeight adj (l ++ r) = none := by
  intro l
  induction l with
  | nil => intro r h; exact Option.noConfusion h
  | cons a t ih =>
    intro r h
    cases t with
    | nil => exact Option.noConfusion h
    | cons b t' =>
      rw [listWeight_cons_cons] at h
      show listWeight adj (a :: b :: (t' ++ r)) = none
      rw [listWeight_cons_cons]
      cases hab : lookupW adj a b with
      | none => rfl
      | some w1 =>
        rw [hab] at h
        cases hbt : listWeight adj (b :: t') with
        | none =>
          have hih := ih r hbt
          rw [show ((b :: t') ++ r : List Vertex) = b :: (t' ++ r) from rfl] at hih
          rw [hih]
          rfl
        | some w2 => rw [hbt] at h; exact Option.noConfusion h

theorem listWeight_concat_missing {adj : WAdj} :
    ∀ (l : List Vertex) (x : Vertex), l ≠ [] →
      lookupW adj (l.getLastD 0) x = none →
      listWeight adj (l ++ [x]) = none := by
  intro l
  induction l with
  | nil => intro x h; exact absurd rfl h
  | cons a t ih =>
    intro x _ hl
    cases t with
    | nil =>
      show listWeight adj [a, x] = none
      rw [listWeight_cons_cons]
      have : lookupW adj a x = none := hl
      rw [this]
    | cons b t' =>
      have hl' : lookupW adj ((b :: t').getLastD 0) x = none := by
        rw [List.getLastD_cons, getLastD_ne_nil (List.cons_ne_nil b t') a 0] at hl
        exact hl
      show listWeight adj (a :: ((b :: t') ++ [x])) = none
      rw [show (a : Vertex) :: ((b :: t') ++ [x]) = a :: b :: (t' ++ [x]) from rfl,
        listWeight_cons_cons]
      cases hab : lookupW adj a b with
      | none => rfl
      | some w1 =>
        have := ih x (List.cons_ne_nil b t') hl'
        rw [show ((b : Vertex) :: t') ++ [x] = b :: (t' ++ [x]) from rfl] at this
        rw [this]
        rfl

theorem listWeight_append_hop {adj : WAdj} :
    ∀ (l : List Vertex) (y : Vertex) (r : List Vertex) (x : Nat), l ≠ [] →
      listWeight adj (l ++ (y :: r)) = some x →
      ∃ wy, lookupW adj (l.getLastD 0) y = some wy := by
  intro l
  induction l with
  | nil => intro y r x h; exact absurd rfl h
  | cons a t ih =>
    intro y r x _ h
    cases t with
    | nil =>
      have h' : listWeight adj (a :: y :: r) = some x := h
      rw [listWeight_cons_cons] at h'
      cases hab : lookupW adj a y with
      | none => rw [hab] at h'; exact Option.noConfusion h'
      | some wy => exact ⟨wy, hab⟩
    | cons b t' =>
      have h' : listWeight adj (a :: b :: (t' ++ (y :: r))) = some x := h
      rw [listWeight_cons_cons] at h'
      cases hab : lookupW adj a b with
      | none => rw [hab] at h'; exact Option.noConfusion h'
      | some w1 =>
        rw [hab] at h'
        cases hbt : listWeight adj (b :: (t' ++ (y :: r))) with
        | none => rw [hbt] at h'; exact Option.noConfusion h'
        | some x2 =>
          obtain ⟨wy, hwy⟩ := ih y r x2 (List.cons_ne_nil b t') hbt
          refine ⟨wy, ?_⟩
          rw [List.getLastD_cons, getLastD_ne_nil (List.cons_ne_nil b t') a 0]
          exact hwy

theorem listWeight_cons_targets {adj : WAdj} :
    ∀ (l : List Vertex) (a : Vertex) (x : Nat), listWeight adj (a :: l) = some x →
      ∀ v ∈ l, ∃ u wt, lookupW adj u v = some wt := by
  intro l
  induction l with
  | nil => intro a x _ v hv; exact absurd hv (List.not_mem_nil v)
  | cons b t ih =>
    intro a x h v hv
    rw [listWeight_cons_cons] at h
    cases hab : lookupW adj a b with
    | none => rw [hab] at h; exact Option.noConfusion h
    | some w1 =>
      rw [hab] at h
      cases hbt : listWeight adj (b :: t) with
      | none => rw [hbt] at h; exact Option.noConfusion h
      | some w2 =>
        rcases List.mem_cons.mp hv with hvb | hvt
        · exact ⟨a, w1, by rw [← hvb] at hab; exact hab⟩
        · exact ih b w2 hbt v hvt

theorem innerGet_mem {inner : List (Vertex × Nat)} {v : Vertex} {wt : Nat}
    (h : innerGet inner v = some wt) : (v, wt) ∈ inner := by
  unfold innerGet at h
  cases hf : inner.find? (fun e => e.1 == v) with
  | none => rw [hf] at h; exact Option.noConfusion h
  | some ie =>
    rw [hf] at h
    injection h with h
    have h1 : ie.1 = v := by simpa using List.find?_some hf
    have h2 : ie ∈ inner := List.mem_of_find?_eq_some hf
    have : (v, wt) = ie := by
      rw [← h1, ← h]
    rw [this]
    exact h2

theorem tourSteps_none {adj : WAdj} :
    ∀ (p : List Vertex) (cur : Vertex) (w0 : Nat),
      tourSteps adj cur w0 p = .ok none → listWeight adj (cur :: p) = none := by
  intro p
  induction p with
  | nil =>
    intro cur w0 h
    injection h with h
    exact Option.noConfusion h
  | cons x rest ih =>
    intro cur w0 h
    change (dictGet adj cur >>= fun inner =>
      match innerGet inner x with
      | some wt => tourSteps adj x (w0 + wt) rest
      | none => Except.ok none) = Except.ok none at h
    cases hdg : dictGet adj cur with
    | error e => rw [hdg, bind_error_eq] at h; exact Except.noConfusion h
    | ok inner =>
      rw [hdg, bind_ok_eq] at h
      cases hig : innerGet inner x with
      | none =>
        rw [listWeight_cons_cons]
        have hlk : lookupW adj cur x = none := by
          rw [lookupW_of_dictGet hdg]
          exact hig
        rw [hlk]
      | some wt =>
        rw [hig] at h
        rw [listWeight_cons_cons]
        have hlk : lookupW adj cur x = some wt := by
          rw [lookupW_of_dictGet hdg]
          exact hig
        rw [hlk, ih x (w0 + wt) h]
        rfl

theorem permTour_none {adj : WAdj} {p : List Vertex}
    (h : permTour adj p = .ok none) :
    listWeight adj (1 :: (p ++ [1])) = none := by
  have h' : (tourSteps adj 1 0 p >>= fun s =>
    match s with
    | none => pure none
    | some (cur, w) =>
      dictGet adj cur >>= fun inner =>
        match innerGet inner 1 with
        | some wt => pure (some (w + wt))
        | none => pure none) = .ok (none : Option Nat) := h
  cases hts : tourSteps adj 1 0 p with
  | error e => rw [hts, bind_error_eq] at h'; exact Except.noConfusion h'
  | ok r =>
    rw [hts, bind_ok_eq] at h'
    cases r with
    | none =>
      have := tourSteps_none p 1 0 hts
      have h2 := listWeight_append_none (1 :: p) [1] this
      exact h2
    | some lw =>
      obtain ⟨lastv, wsum⟩ := lw
      change (dictGet adj lastv >>= fun inner =>
        match innerGet inner 1 with
        | some wt => pure (some (wsum + wt))
        | none => pure none) = Except.ok (none : Option Nat) at h'
      cases hdg : dictGet adj lastv with
      | error e => rw [hdg, bind_error_eq] at h'; exact Except.noConfusion h'
      | ok inner =>
        rw [hdg, bind_ok_eq] at h'
        cases hig : innerGet inner 1 with
        | some wt =>
          rw [hig, pure_eq_ok] at h'
          injection h' with h'
          exact Option.noConfusion h'
        | none =>
          obtain ⟨dw, _, hlw, hlast⟩ := tourSteps_listWeight p 1 0 lastv wsum hts
          have hmiss : lookupW adj ((1 :: p).getLastD 0) 1 = none := by
            rw [hlast, lookupW_of_dictGet hdg]
            exact hig
          exact listWeight_concat_missing (1 :: p) 1 (List.cons_ne_nil 1 p) hmiss

/-! ## Minimality of the backtracking TSP search (pruning is harmless) -/

theorem tspRec_min {adj : WAdj} {vertices : List Vertex}
    {edges : List (Vertex × Vertex × Nat)}
    (hb : build_adj_list vertices edges = .ok adj) :
    ∀ (fuel : Nat) (cur : Vertex) (w : Nat) (path : List Vertex) (st : TspState),
      vertices.length + 1 ≤ fuel + path.length →
      path ≠ [] → path.getLastD 0 = cur → path.Nodup →
      (∀ x ∈ path, x ∈ vertices) → listWeight adj path = some w →
      ∃ st', tspRec adj vertices.length fuel cur w path st = .ok st' ∧
        leO st'.best st.best ∧
        (∀ q x, q.Nodup → (∀ v ∈ q, v ∉ path) →
          (path ++ q).length = vertices.length →
          listWeight adj ((path ++ q) ++ [1]) = some x → leO st'.best (some x)) ∧
        (st'.best = st.best ∨ ∃ q x, q.Nodup ∧ (∀ v ∈ q, v ∉ path) ∧
          (path ++ q).length = vertices.length ∧
          listWeight adj ((path ++ q) ++ [1]) = some x ∧ st'.best = some x) := by
  have hok : ∀ e ∈ edges, e.1 ∈ vertices ∧ e.2.1 ∈ vertices :=
    (build_adj_list_ok_iff vertices edges).mp ⟨adj, hb⟩
  have hkeys : adj.map (fun x => x.1) = vertices := build_adj_list_fst hb
  have hwok : WOK edges adj := build_adj_list_WOK hb
  intro fuel
  induction fuel with
  | zero =>
    intro cur w path st hfuel hne _ hnd hsub _
    exfalso
    have hlen : path.length ≤ vertices.length :=
      (List.subperm_of_subset hnd hsub).length_le
    omega
  | succ fuel ih =>
    intro cur w path st hfuel hne hlast hnd hsub hw
    show ∃ st', (if ltInf w st.best = false then Except.ok st
        else if path.length = vertices.length then
          (do
            let inner ← dictGet adj cur
            match innerGet inner 1 with
            | some wt =>
              if ltInf (w + wt) st.best then
                Except.ok (⟨some (w + wt), some (path ++ [1])⟩ : TspState)
              else Except.ok st
            | none => Except.ok st)
        else
          (do
            let inner ← dictGet adj cur
            inner.foldlM
              (fun st' e =>
                if e.1 ∈ path then pure st'
                else tspRec adj vertices.length fuel e.1 (w + e.2) (path ++ [e.1]) st')
              st) : Except PyError TspState) = Except.ok st' ∧
        leO st'.best st.best ∧
        (∀ q x, q.Nodup → (∀ v ∈ q, v ∉ path) →
          (path ++ q).length = vertices.length →
          listWeight adj ((path ++ q) ++ [1]) = some x → leO st'.best (some x)) ∧
        (st'.best = st.best ∨ ∃ q x, q.Nodup ∧ (∀ v ∈ q, v ∉ path) ∧
          (path ++ q).length = vertices.length ∧
          listWeight adj ((path ++ q) ++ [1]) = some x ∧ st'.best = some x)
    by_cases hpr : ltInf w st.best = false
    · rw [if_pos hpr]
      refine ⟨st, rfl, leO_refl _, ?_, Or.inl rfl⟩
      intro q x _ _ _ hlw
      have hbw : leO st.best (some w) := ltInf_false_leO hpr
      rw [List.append_assoc] at hlw
      obtain ⟨d, hd⟩ := listWeight_append_add path (q ++ [1]) w x hw hlw
      refine leO_trans hbw ?_
      show w ≤ x
      omega
    · rw [if_neg hpr]
      have hcur : cur ∈ vertices := by
        rw [← hlast]
        exact hsub _ (getLastD_mem hne 0)
      obtain ⟨inner, hdg, hfind⟩ := dictGet_of_mem (by rw [hkeys]; exact hcur)
      by_cases hfull : path.length = vertices.length
      · rw [if_pos hfull, hdg, bind_ok_eq]
        have hqnil : ∀ q : List Vertex, (path ++ q).length = vertices.length →
            q = [] := by
          intro q hq
          rw [List.length_append, hfull] at hq
          have : q.length = 0 := by omega
          exact List.length_eq_zero.mp this
        cases hig : innerGet inner 1 with
        | none =>
          refine ⟨st, rfl, leO_refl _, ?_, Or.inl rfl⟩
          intro q x _ _ hqlen hlw
          exfalso
          rw [hqnil q hqlen, List.append_nil] at hlw
          have hmiss : lookupW adj (path.getLastD 0) 1 = none := by
            rw [hlast, lookupW_of_dictGet hdg]
            exact hig
          rw [listWeight_concat_missing path 1 hne hmiss] at hlw
          exact Option.noConfusion hlw
        | some wt =>
          show ∃ st', (if ltInf (w + wt) st.best then
              Except.ok (⟨some (w + wt), some (path ++ [1])⟩ : TspState)
            else Except.ok st) = Except.ok st' ∧ _
          have hclose : listWeight adj (path ++ [1]) = some (w + wt) :=
            listWeight_concat_of hne hw
              (by rw [hlast, lookupW_of_dictGet hdg]; exact hig)
          by_cases himp : ltInf (w + wt) st.best = true
          · rw [if_pos himp]
            refine ⟨⟨some (w + wt), some (path ++ [1])⟩, rfl,
              ltInf_true_leO himp, ?_, ?_⟩
            · intro q x _ _ hqlen hlw
              rw [hqnil q hqlen, List.append_nil, hclose] at hlw
              injection hlw with hlw
              show w + wt ≤ x
              omega
            · refine Or.inr ⟨[], w + wt, List.nodup_nil,
                fun v hv => absurd hv (List.not_mem_nil v), ?_, ?_, rfl⟩
              · rw [List.append_nil]
                exact hfull
              · rw [List.append_nil]
                exact hclose
          · have himp' : ltInf (w + wt) st.best = false :=
              Bool.eq_false_iff.mpr himp
            rw [if_neg himp]
            refine ⟨st, rfl, leO_refl _, ?_, Or.inl rfl⟩
            intro q x _ _ hqlen hlw
            rw [hqnil q hqlen, List.append_nil, hclose] at hlw
            injection hlw with hlw
            rw [← hlw]
            exact ltInf_false_leO himp'
      · rw [if_neg hfull, hdg, bind_ok_eq]
        have hentry : (cur, inner) ∈ adj := List.mem_of_find?_eq_some hfind
        obtain ⟨hIkeys, hIconn⟩ := hwok (cur, inner) hentry
        have hfold : ∀ (L : List (Vertex × Nat)), (∀ e ∈ L, e ∈ inner) →
            ∀ st0 : TspState,
            ∃ st', L.foldlM
                (fun st' e =>
                  if e.1 ∈ path then pure st'
                  else tspRec adj vertices.length fuel e.1 (w + e.2)
                    (path ++ [e.1]) st')
                st0 = .ok st' ∧
              leO st'.best st0.best ∧
              (∀ e ∈ L, e.1 ∉ path → ∀ q x, q.Nodup →
                (∀ v ∈ q, v ∉ path ++ [e.1]) →
                ((path ++ [e.1]) ++ q).length = vertices.length →
                listWeight adj (((path ++ [e.1]) ++ q) ++ [1]) = some x →
                leO st'.best (some x)) ∧
              (st'.best = st0.best ∨ ∃ e ∈ L, e.1 ∉ path ∧ ∃ q x, q.Nodup ∧
                (∀ v ∈ q, v ∉ path ++ [e.1]) ∧
                ((path ++ [e.1]) ++ q).length = vertices.length ∧
                listWeight adj (((path ++ [e.1]) ++ q) ++ [1]) = some x ∧
                st'.best = some x) := by
          intro L
          induction L with
          | nil =>
            intro _ st0
            exact ⟨st0, by rw [List.foldlM_nil, pure_eq_ok], leO_refl _,
              fun e he => absurd he (List.not_mem_nil e), Or.inl rfl⟩
          | cons e L' ihL =>
            intro hmem st0
            by_cases hep : e.1 ∈ path
            · obtain ⟨st', hfold', hle, hbound, hatt⟩ :=
                ihL (fun x hx => hmem x (List.mem_cons_of_mem e hx)) st0
              refine ⟨st', ?_, hle, ?_, ?_⟩
              · rw [List.foldlM_cons]
                have hstep : (if e.1 ∈ path then (pure st0 : Except PyError TspState)
                    else tspRec adj vertices.length fuel e.1 (w + e.2)
                      (path ++ [e.1]) st0) = pure st0 := by
                  rw [if_pos hep]
                rw [hstep, pure_eq_ok, bind_ok_eq]
                exact hfold'
              · intro e' he' hnp
                rcases List.mem_cons.mp he' with heq | he'
                · rw [heq] at hnp
                  exact absurd hep hnp
                · exact hbound e' he' hnp
              · rcases hatt with h' | ⟨e', he', hrest⟩
                · exact Or.inl h'
                · exact Or.inr ⟨e', List.mem_cons_of_mem e he', hrest⟩
            · have heI : e ∈ inner := hmem e (List.mem_cons_self e L')
              have hconn : edgeConnW edges cur e.1 := hIconn e heI
              have he1v : e.1 ∈ vertices := edgeConn_mem_right hok hconn
              have hlook : lookupW adj (path.getLastD 0) e.1 = some e.2 := by
                rw [hlast, lookupW_of_dictGet hdg]
                exact innerGet_of_mem hIkeys heI
              have hlw' : listWeight adj (path ++ [e.1]) = some (w + e.2) :=
                listWeight_concat_of hne hw hlook
              obtain ⟨st1, hrec1, hle1, hbound1, hatt1⟩ :=
                ih e.1 (w + e.2) (path ++ [e.1]) st0
                  (by simp only [List.length_append, List.length_cons,
                    List.length_nil]; omega)
                  (by simp) (List.getLastD_concat 0 e.1 path)
                  (nodup_concat_of_not_mem hnd hep)
                  (fun x hx => by
                    rcases List.mem_append.mp hx with hx | hx
                    · exact hsub x hx
                    · rw [List.mem_singleton.mp hx]
                      exact he1v)
                  hlw'
              obtain ⟨st', hfold', hle', hbound', hatt'⟩ :=
                ihL (fun x hx => hmem x (List.mem_cons_of_mem e hx)) st1
              refine ⟨st', ?_, leO_trans hle' hle1, ?_, ?_⟩
              · rw [List.foldlM_cons]
                have hstep : (if e.1 ∈ path then (pure st0 : Except PyError TspState)
                    else tspRec adj vertices.length fuel e.1 (w + e.2)
                      (path ++ [e.1]) st0) = .ok st1 := by
                  rw [if_neg hep]
                  exact hrec1
                rw [hstep, bind_ok_eq]
                exact hfold'
              · intro e' he' hnp q x hqnd hqf hqlen hqlw
                rcases List.mem_cons.mp he' with heq | he'
                · rw [heq] at hqf hqlen hqlw
                  exact leO_trans hle' (hbound1 q x hqnd hqf hqlen hqlw)
                · exact hbound' e' he' hnp q x hqnd hqf hqlen hqlw
              · rcases hatt' with h' | ⟨e', he', hrest⟩
                · rw [h']
                  rcases hatt1 with h1 | ⟨q, x, hq1, hq2, hq3, hq4, hq5⟩
                  · exact Or.inl h1
                  · exact Or.inr ⟨e, List.mem_cons_self e L', hep, q, x,
                      hq1, hq2, hq3, hq4, hq5⟩
                · exact Or.inr ⟨e', List.mem_cons_of_mem e he', hrest⟩
        obtain ⟨st', hfold', hle, hbound, hatt⟩ := hfold inner (fun e he => he) st
        refine ⟨st', hfold', hle, ?_, ?_⟩
        · intro q x hqnd hqf hqlen hqlw
          cases q with
          | nil =>
            exfalso
            rw [List.append_nil] at hqlen
            exact hfull hqlen
          | cons y q' =>
            have hqlw' : listWeight adj (path ++ (y :: (q' ++ [1]))) = some x := by
              rw [List.append_assoc] at hqlw
              exact hqlw
            obtain ⟨wy, hwy⟩ := listWeight_append_hop path y (q' ++ [1]) x hne hqlw'
            have higy : innerGet inner y = some wy := by
              rw [← lookupW_of_dictGet hdg, ← hlast]
              exact hwy
            have hyI : (y, wy) ∈ inner := innerGet_mem higy
            have hynp : y ∉ path := hqf y (List.mem_cons_self y q')
            have hqnd' := List.nodup_cons.mp hqnd
            refine hbound (y, wy) hyI hynp q' x hqnd'.2 ?_ ?_ ?_
            · intro v hv hvm
              rcases List.mem_append.mp hvm with hvp | hvy
              · exact hqf v (List.mem_cons_of_mem y hv) hvp
              · rw [List.mem_singleton.mp hvy] at hv
                exact hqnd'.1 hv
            · simp only [List.length_append, List.length_cons,
                List.length_nil] at hqlen ⊢
              omega
            · rw [List.append_assoc, List.append_assoc]
              rw [List.append_assoc] at hqlw
              exact hqlw
        · rcases hatt with h' | ⟨e, _, hep, q, x, hq1, hq2, hq3, hq4, hq5⟩
          · exact Or.inl h'
          · refine Or.inr ⟨e.1 :: q, x, ?_, ?_, ?_, ?_, hq5⟩
            · rw [List.nodup_cons]
              refine ⟨?_, hq1⟩
              intro hmemq
              exact (hq2 e.1 hmemq)
                (List.mem_append.mpr (Or.inr (List.mem_singleton.mpr rfl)))
            · intro v hv
              rcases List.mem_cons.mp hv with heq | hv'
              · rw [heq]
                exact hep
              · intro hvp
                exact (hq2 v hv') (List.mem_append.mpr (Or.inl hvp))
            · simp only [List.length_append, List.length_cons,
                List.length_nil] at hq3 ⊢
              omega
            · rw [List.append_assoc] at hq4 ⊢
              rw [List.append_assoc] at hq4
              exact hq4

theorem leO_none_right (a : Option Nat) : leO a none := by
  cases a with
  | none => trivial
  | some x => trivial

theorem tspBF_fold_min {adj : WAdj} {vertices : List Vertex}
    {edges : List (Vertex × Vertex × Nat)}
    (hb : build_adj_list vertices edges = .ok adj) (h1 : 1 ∈ vertices) :
    ∀ (P : List (List Vertex)) (acc : Option Nat × Option (List Vertex)),
      (∀ p ∈ P, ∀ v ∈ p, v ∈ vertices) →
      ∃ res, P.foldlM
        (fun best p => do
          match ← permTour adj p with
          | some w =>
            if ltInf w best.1 then pure (some w, some (1 :: (p ++ [1]))) else pure best
          | none => pure best)
        acc = .ok res ∧
        leO res.1 acc.1 ∧
        (∀ p ∈ P, ∀ x, listWeight adj (1 :: (p ++ [1])) = some x →
          leO res.1 (some x)) ∧
        (res.1 = acc.1 ∨ ∃ p ∈ P, ∃ x,
          listWeight adj (1 :: (p ++ [1])) = some x ∧ res.1 = some x) := by
  have hkeys : adj.map (fun x => x.1) = vertices := build_adj_list_fst hb
  intro P
  induction P with
  | nil =>
    intro acc _
    exact ⟨acc, by rw [List.foldlM_nil, pure_eq_ok], leO_refl _,
      fun p hp => absurd hp (List.not_mem_nil p), Or.inl rfl⟩
  | cons p P' ihP =>
    intro acc hsub
    have hsubp : ∀ v ∈ p, v ∈ vertices := hsub p (List.mem_cons_self p P')
    have hsubP' : ∀ q ∈ P', ∀ v ∈ q, v ∈ vertices :=
      fun q hq => hsub q (List.mem_cons_of_mem p hq)
    obtain ⟨r, hr⟩ := permTour_ok hkeys h1 p hsubp
    cases r with
    | none =>
      have hnone : listWeight adj (1 :: (p ++ [1])) = none := permTour_none hr
      obtain ⟨res, hfold, hle, hbound, hatt⟩ := ihP acc hsubP'
      refine ⟨res, ?_, hle, ?_, ?_⟩
      · rw [List.foldlM_cons]
        have hstep : (permTour adj p >>= fun r =>
          match r with
          | some w =>
            if ltInf w acc.1 then pure (some w, some (1 :: (p ++ [1])))
            else pure acc
          | none => pure acc) = pure acc := by
          rw [hr, bind_ok_eq]
        rw [hstep, pure_eq_ok, bind_ok_eq]
        exact hfold
      · intro q hq x hx
        rcases List.mem_cons.mp hq with heq | hq'
        · rw [heq, hnone] at hx
          exact Option.noConfusion hx
        · exact hbound q hq' x hx
      · rcases hatt with h' | ⟨q, hq, hx⟩
        · exact Or.inl h'
        · exact Or.inr ⟨q, List.mem_cons_of_mem p hq, hx⟩
    | some w0 =>
      have hsome : listWeight adj (1 :: (p ++ [1])) = some w0 :=
        permTour_listWeight hr
      by_cases himp : ltInf w0 acc.1 = true
      · obtain ⟨res, hfold, hle, hbound, hatt⟩ :=
          ihP (some w0, some (1 :: (p ++ [1]))) hsubP'
        refine ⟨res, ?_, ?_, ?_, ?_⟩
        · rw [List.foldlM_cons]
          have hstep : (permTour adj p >>= fun r =>
            match r with
            | some w =>
              if ltInf w acc.1 then pure (some w, some (1 :: (p ++ [1])))
              else pure acc
            | none => pure acc) =
              pure ((some w0 : Option Nat), some (1 :: (p ++ [1]))) := by
            rw [hr, bind_ok_eq]
            show (if ltInf w0 acc.1 then
                pure (some w0, some (1 :: (p ++ [1]))) else pure acc) = _
            rw [if_pos himp]
          rw [hstep, pure_eq_ok, bind_ok_eq]
          exact hfold
        · exact leO_trans hle (ltInf_true_leO himp)
        · intro q hq x hx
          rcases List.mem_cons.mp hq with heq | hq'
          · rw [heq, hsome] at hx
            injection hx with hx
            rw [← hx]
            exact hle
          · exact hbound q hq' x hx
        · rcases hatt with h' | ⟨q, hq, hx⟩
          · exact Or.inr ⟨p, List.mem_cons_self p P', w0, hsome, h'⟩
          · exact Or.inr ⟨q, List.mem_cons_of_mem p hq, hx⟩
      · have himp' : ltInf w0 acc.1 = false := Bool.eq_false_iff.mpr himp
        obtain ⟨res, hfold, hle, hbound, hatt⟩ := ihP acc hsubP'
        refine ⟨res, ?_, hle, ?_, ?_⟩
        · rw [List.foldlM_cons]
          have hstep : (permTour adj p >>= fun r =>
            match r with
            | some w =>
              if ltInf w acc.1 then pure (some w, some (1 :: (p ++ [1])))
              else pure acc
            | none => pure acc) = pure acc := by
            rw [hr, bind_ok_eq]
            show (if ltInf w0 acc.1 then
                pure (some w0, some (1 :: (p ++ [1]))) else pure acc) = _
            rw [if_neg (by rw [himp']; exact Bool.noConfusion)]
          rw [hstep, pure_eq_ok, bind_ok_eq]
          exact hfold
        · intro q hq x hx
          rcases List.mem_cons.mp hq with heq | hq'
          · rw [heq, hsome] at hx
            injection hx with hx
            rw [← hx]
            exact leO_trans hle (ltInf_false_leO himp')
          · exact hbound q hq' x hx
        · rcases hatt with h' | ⟨q, hq, hx⟩
          · exact Or.inl h'
          · exact Or.inr ⟨q, List.mem_cons_of_mem p hq, hx⟩

theorem tour_decomp {vertices : List Vertex} (hnd : vertices.Nodup)
    (h1 : 1 ∈ vertices) {c : List Vertex} (hh : c.headI = 1)
    (hl : c.getLastD 0 = 1) (hdp : c.dropLast.Perm vertices) :
    ∃ q, q.Perm (vertices.filter (fun v => v != 1)) ∧ c = 1 :: (q ++ [1]) := by
  have hcne : c ≠ [] := by
    intro hc
    rw [hc] at hdp
    have hv : vertices = [] := List.perm_nil.mp hdp.symm
    rw [hv] at h1
    exact List.not_mem_nil 1 h1
  have hg : c.getLast hcne = 1 := by
    rw [← hl, List.getLastD_eq_getLast?, List.getLast?_eq_getLast c hcne]
    rfl
  have hc1 : c = c.dropLast ++ [1] := by
    rw [← hg]
    exact (List.dropLast_concat_getLast hcne).symm
  have hdne : c.dropLast ≠ [] := by
    intro hd
    rw [hd] at hdp
    have hv : vertices = [] := List.perm_nil.mp hdp.symm
    rw [hv] at h1
    exact List.not_mem_nil 1 h1
  obtain ⟨a, t, hat⟩ := List.exists_cons_of_ne_nil hdne
  have ha1 : a = 1 := by
    have h2 : c.headI = c.dropLast.headI := by
      conv_lhs => rw [hc1]
      rw [headI_append_of_ne_nil c.dropLast [1] hdne]
    rw [hh, hat] at h2
    exact h2.symm
  refine ⟨t, ?_, ?_⟩
  · have hperm : (1 :: t).Perm vertices := by
      rw [← ha1, ← hat]
      exact hdp
    have hperm2 : (1 :: t).Perm (1 :: vertices.filter (fun v => v != 1)) :=
      hperm.trans (cons_filter_perm hnd h1).symm
    exact hperm2.cons_inv
  · rw [hc1, hat, ha1]
    rfl

/-- C1: for every weighted instance whose vertex set contains the start
vertex `1` and whose edges have both endpoints in the vertex set, both TSP
solvers succeed and return the same minimum weight (the `>=` pruning bound
never changes the optimal value), and that common value is `≤` the total
weight of any valid tour of the graph (a cycle from `1` back to `1` visiting
every vertex once along existing edges). -/
theorem C1_tsp_minimum_agreement (vertices : List Vertex)
    (edges : List (Vertex × Vertex × Nat)) (hnd : vertices.Nodup)
    (h1 : 1 ∈ vertices)
    (hwf : ∀ e ∈ edges, e.1 ∈ vertices ∧ e.2.1 ∈ vertices) :
    ∃ adj bw c1 c2,
      build_adj_list vertices edges = .ok adj ∧
      tsp_bruteforce vertices edges = .ok (bw, c1) ∧
      tsp_backtracking vertices edges = .ok (bw, c2) ∧
      ∀ c x, c.headI = 1 → c.getLastD 0 = 1 → c.dropLast.Perm vertices →
        listWeight adj c = some x → leO bw (some x) := by
  obtain ⟨adj, hb⟩ := (build_adj_list_ok_iff vertices edges).mpr hwf
  have htgt : ∀ u v wt, lookupW adj u v = some wt → v ∈ vertices :=
    fun u v wt h => edgeConn_mem_right hwf (lookupW_edgeConn hb u v wt h)
  have hflen : (vertices.filter (fun v => v != 1)).length + 1 = vertices.length := by
    have := (cons_filter_perm hnd h1).length_eq
    rw [List.length_cons] at this
    exact this
  obtain ⟨res, hfold, hleB, hboundB, hattB⟩ := tspBF_fold_min hb h1
    (permsLex (vertices.filter (fun v => v != 1))) (none, none)
    (fun p hp v hv => List.mem_of_mem_filter ((mem_permsLex.mp hp).subset hv))
  have hbf : tsp_bruteforce vertices edges = .ok res := by
    unfold tsp_bruteforce
    rw [hb, bind_ok_eq]
    exact hfold
  obtain ⟨st', hrec, hleR, hboundR, hattR⟩ := tspRec_min hb (vertices.length + 1)
    1 0 [1] ⟨none, none⟩
    (by simp only [List.length_cons, List.length_nil]; omega)
    (List.cons_ne_nil 1 []) rfl (List.nodup_singleton 1)
    (fun x hx => by rw [List.mem_singleton.mp hx]; exact h1) rfl
  have hbt : tsp_backtracking vertices edges = .ok (st'.best, st'.cycle) := by
    unfold tsp_backtracking
    rw [hb, bind_ok_eq, hrec, bind_ok_eq]
    rfl
  have heq : res.1 = st'.best := by
    apply leO_antisymm
    · rcases hattR with hR | ⟨q, x, hq1, hq2, hq3, hq4, hq5⟩
      · rw [hR]
        exact leO_none_right _
      · rw [hq5]
        have hlw : listWeight adj (1 :: (q ++ [1])) = some x := hq4
        have hsubv : ∀ v ∈ q, v ∈ vertices := by
          intro v hv
          obtain ⟨u, wt, hlk⟩ := listWeight_cons_targets (q ++ [1]) 1 x hlw v
            (List.mem_append.mpr (Or.inl hv))
          exact htgt u v wt hlk
        have hsubf : ∀ v ∈ q, v ∈ vertices.filter (fun v => v != 1) := by
          intro v hv
          refine List.mem_filter.mpr ⟨hsubv v hv, ?_⟩
          exact bne_iff_ne.mpr
            (fun hv1 => (hq2 v hv) (by rw [hv1]; exact List.mem_singleton.mpr rfl))
        have hlen : (vertices.filter (fun v => v != 1)).length ≤ q.length := by
          have h3 : ([1] ++ q).length = vertices.length := hq3
          rw [List.length_append] at h3
          simp only [List.length_cons, List.length_nil] at h3
          omega
        have hperm : q.Perm (vertices.filter (fun v => v != 1)) :=
          (List.subperm_of_subset hq1 hsubf).perm_of_length_le hlen
        exact hboundB q (mem_permsLex.mpr hperm) x hq4
    · rcases hattB with hB | ⟨p, hp, x, hx, hres⟩
      · rw [hB]
        exact leO_none_right _
      · rw [hres]
        have hperm := mem_permsLex.mp hp
        refine hboundR p x ((hperm.nodup_iff).mpr (hnd.filter _)) ?_ ?_ hx
        · intro v hv hv1
          have hvf := hperm.subset hv
          have hv1' := List.mem_singleton.mp hv1
          rw [hv1'] at hvf
          have := (List.mem_filter.mp hvf).2
          exact absurd this (by decide)
        · show ([1] ++ p).length = vertices.length
          rw [List.length_append]
          simp only [List.length_cons, List.length_nil]
          have := hperm.length_eq
          omega
  refine ⟨adj, res.1, res.2, st'.cycle, hb, hbf, ?_, ?_⟩
  · rw [heq]
    exact hbt
  · intro c x hh hl hdp hlw
    obtain ⟨q, hqperm, hceq⟩ := tour_decomp hnd h1 hh hl hdp
    rw [hceq] at hlw
    exact hboundB q (mem_permsLex.mpr hqperm) x hlw

/-- Witness: C1 applied to `vertices = {1, 2}`, `edges = [(1, 2, 5)]`. -/
theorem C1_tsp_minimum_agreement_witness :
    (([1, 2] : List Vertex).Nodup ∧ (1 : Vertex) ∈ ([1, 2] : List Vertex) ∧
      ∀ e ∈ ([(1, 2, 5)] : List (Vertex × Vertex × Nat)),
        e.1 ∈ ([1, 2] : List Vertex) ∧ e.2.1 ∈ ([1, 2] : List Vertex)) ∧
    (∃ adj bw c1 c2, build_adj_list [1, 2] [(1, 2, 5)] = .ok adj ∧
      tsp_bruteforce [1, 2] [(1, 2, 5)] = .ok (bw, c1) ∧
      tsp_backtracking [1, 2] [(1, 2, 5)] = .ok (bw, c2) ∧
      ∀ c x, c.headI = 1 → c.getLastD 0 = 1 → c.dropLast.Perm [1, 2] →
        listWeight adj c = some x → leO bw (some x)) :=
  ⟨⟨by decide, by decide, by decide⟩,
    C1_tsp_minimum_agreement [1, 2] [(1, 2, 5)] (by decide) (by decide) (by decide)⟩
